import Mathlib

/-!
Shallow embedding of the ZZ arbitrary-precision integer library (zz.c / zz.h).

The data model follows `zz_t`: a sign flag and a little-endian array of
64-bit digits (`zz_digit_t` is `uint64_t`, `ZZ_DIGIT_T_BITS == 64`).  The
GMP `mpn_*` routines the library calls are the trusted fixed-precision
kernel; each call site models the kernel routine by its documented
contract on the digit arrays (values of digit lists), while all control
flow, sign handling, size bookkeeping and error propagation are
translated from zz.c.  Memory-allocation failures (`ZZ_MEM` from a failed
`malloc`/`realloc`) have no counterpart in the embedding: `zz_resize`
always succeeds here.  Error paths that the C code reports deterministically
(`ZZ_VAL`, `ZZ_BUF`, and the cleanup paths of `zz_div`, `zz_gcdext` and
`zz_inverse_euclidext` that convert an inner error into `ZZ_MEM`) are
kept faithfully.
-/

set_option maxHeartbeats 2000000

namespace ZZSpec

/-- `ZZ_DIGIT_T_BITS`: bits per digit. -/
def DIGIT_BITS : Nat := 64

/-- The digit radix `2^64`. -/
def DBASE : Nat := 2 ^ 64

/-- `ZZ_DIGIT_T_MAX = UINT64_MAX`. -/
def DIGIT_MAX : Nat := DBASE - 1

/-- `ZZ_DIGITS_MAX = ZZ_BITS_MAX / ZZ_DIGIT_T_BITS` with
`ZZ_BITS_MAX = UINT64_MAX` (the non-Windows configuration in zz-impl.h). -/
def DIGITS_MAX : Nat := (2 ^ 64 - 1) / 64

/-- Value of a little-endian digit list (the contents of `zz_t.digits`,
least significant word first, data-model invariant (d)). -/
def digitsVal : List Nat → Nat
  | [] => 0
  | d :: ds => d + DBASE * digitsVal ds

/-- The minimal little-endian digit expansion of a natural number:
what an exactly-sized kernel output array holds. -/
def natToDigits (n : Nat) : List Nat :=
  if h : n = 0 then [] else n % DBASE :: natToDigits (n / DBASE)
  termination_by n
  decreasing_by
    exact Nat.div_lt_self (Nat.pos_of_ne_zero h) (by norm_num [DBASE])

/-- A digit list of exactly `len` words holding `n` (little endian):
model of a kernel routine writing an `len`-limb output buffer. -/
def padLE (n : Nat) : Nat → List Nat
  | 0 => []
  | len + 1 => n % DBASE :: padLE (n / DBASE) len

/-- `zz_normalize`, digit part: strip most-significant zero words. -/
def normDigits : List Nat → List Nat
  | [] => []
  | d :: ds =>
    let t := normDigits ds
    if t.isEmpty && d == 0 then [] else d :: t

/-- The error outcomes `zz_err` (ZZ_OK is represented by `Except.ok`). -/
inductive zzErr where
  | MEM
  | VAL
  | BUF
  deriving Repr, DecidableEq

/-- `zz_t`: sign-magnitude representation.  `size` is `digits.length`;
`alloc` (capacity) is tracked separately only where a claim needs it. -/
structure ZZ where
  negative : Bool
  digits : List Nat
  deriving Repr, DecidableEq

/-- Magnitude of a `zz_t`. -/
def ZZ.toNat (u : ZZ) : Nat := digitsVal u.digits

/-- Value of a `zz_t`. -/
def ZZ.toInt (u : ZZ) : Int :=
  if u.negative then -(u.toNat : Int) else (u.toNat : Int)

/-- Well-formed digit array: every stored digit fits in 64 bits, no
redundant most-significant zero words (invariant (b)), digit count within
`ZZ_DIGITS_MAX` (invariant (e)). -/
def goodDigits (l : List Nat) : Prop :=
  (∀ d ∈ l, d < DBASE) ∧ normDigits l = l ∧ l.length ≤ DIGITS_MAX

instance (l : List Nat) : Decidable (goodDigits l) := by
  unfold goodDigits; infer_instance

/-- Canonical form: well-formed digits and no negative zero
(invariant (c)). -/
def ZZ.Canon (u : ZZ) : Prop :=
  goodDigits u.digits ∧ (u.digits = [] → u.negative = false)

instance (u : ZZ) : Decidable u.Canon := by
  unfold ZZ.Canon; infer_instance

/-- `zz_normalize`: strip leading zero words, clear the sign of zero. -/
def zz_normalize (u : ZZ) : ZZ :=
  let t := normDigits u.digits
  ⟨if t.isEmpty then false else u.negative, t⟩

/-- `zz_set_i64` (also covering `zz_set_i32`): build a value from a small
machine integer, `|x| < 2^64`. -/
def zz_set_i64 (x : Int) : ZZ :=
  if x = 0 then ⟨false, []⟩ else ⟨decide (x < 0), [x.natAbs]⟩

/-- `zz_pos` with distinct output: a plain value copy. -/
def zz_pos (u : ZZ) : ZZ :=
  if u.digits.isEmpty then zz_set_i64 0 else ⟨u.negative, u.digits⟩

/-- `zz_abs`: copy then clear the sign. -/
def zz_abs (u : ZZ) : ZZ :=
  let v := zz_pos u
  ⟨false, v.digits⟩

/-- `zz_neg`: copy then flip the sign of a nonzero value. -/
def zz_neg (u : ZZ) : ZZ :=
  let v := zz_pos u
  if v.digits.isEmpty then v else ⟨!u.negative, v.digits⟩

/-- `zz_cmp_i64`: compare a `zz_t` against a signed machine word. -/
def zz_cmp_i64 (u : ZZ) (v : Int) : Ordering :=
  let sign : Ordering := if u.negative then .lt else .gt
  if u.negative ≠ decide (v < 0) then sign
  else if u.digits.length ≠ 1 then
    if u.digits.length ≠ 0 then sign
    else if v ≠ 0 then sign.swap else .eq
  else
    let digit : Nat := v.natAbs
    let r := compare u.digits.headI digit
    if u.negative then r.swap else r

/-- Drop the most significant word when it is zero:
`w->size -= w->digits[w->size - 1] == 0` after `mpn_mul`/`mpn_tdiv_qr`. -/
def dropTopZero (l : List Nat) : List Nat :=
  if l.getLastD 1 == 0 then l.dropLast else l

/-- Post-swap body of `zz_addsub`: the leading operand `(negu, ud)` has at
least as many digits as `(negv, vd)`.  `mpn_add`/`mpn_sub`/`mpn_cmp` are
modelled on the values of the digit arrays (for in-bound digit lists of
equal length `mpn_cmp` is exactly value comparison). -/
def zz_addsubCore (negu : Bool) (ud : List Nat) (negv : Bool) (vd : List Nat) :
    Except zzErr ZZ :=
  if negu = negv ∧ ud.length = DIGITS_MAX then .error .BUF
  else if negu = negv then
    -- mpn_add, carry into the extra top word
    .ok (zz_normalize ⟨negu, padLE (digitsVal ud + digitsVal vd) (ud.length + 1)⟩)
  else if ud.length ≠ vd.length then
    -- mpn_sub: the larger magnitude leads, no borrow
    .ok (zz_normalize ⟨negu, padLE (digitsVal ud - digitsVal vd) ud.length⟩)
  else if digitsVal ud < digitsVal vd then
    .ok (zz_normalize ⟨negv, padLE (digitsVal vd - digitsVal ud) ud.length⟩)
  else if digitsVal vd < digitsVal ud then
    .ok (zz_normalize ⟨negu, padLE (digitsVal ud - digitsVal vd) ud.length⟩)
  else
    .ok (zz_normalize ⟨negu, []⟩)

/-- `zz_addsub`: the one sign-aware magnitude add/sub behind `zz_add` and
`zz_sub`.  Subtraction flips the second operand's effective sign, then the
operand with more digits leads. -/
def zz_addsub (u v : ZZ) (subtract : Bool) : Except zzErr ZZ :=
  if u.digits.length < v.digits.length then
    zz_addsubCore (if subtract then !v.negative else v.negative) v.digits
      u.negative u.digits
  else
    zz_addsubCore u.negative u.digits
      (if subtract then !v.negative else v.negative) v.digits

/-- `zz_add`. -/
def zz_add (u v : ZZ) : Except zzErr ZZ := zz_addsub u v false

/-- `zz_sub`. -/
def zz_sub (u v : ZZ) : Except zzErr ZZ := zz_addsub u v true

/-- `zz_addsub_u64`: mixed-type add/sub with a machine word
(`negv = subtract`, `v_size = v != 0`). -/
def zz_addsub_u64 (u : ZZ) (v : Nat) (subtract : Bool) : Except zzErr ZZ :=
  -- `!u_size || u_size < v_size` forces `u_size == 0` since `v_size <= 1`
  -- (the C code asserts exactly this)
  if u.digits.length = 0 then
    .ok ⟨if v ≠ 0 then subtract else false, if v ≠ 0 then [v] else []⟩
  else if u.negative = subtract ∧ u.digits.length = DIGITS_MAX then .error .BUF
  else if u.negative = subtract then
    -- mpn_add_1 with the carry in the extra top word
    .ok (zz_normalize ⟨u.negative, padLE (digitsVal u.digits + v) (u.digits.length + 1)⟩)
  else if u.digits.length ≠ 1 then
    -- mpn_sub_1, no borrow
    .ok (zz_normalize ⟨u.negative, padLE (digitsVal u.digits - v) u.digits.length⟩)
  else if u.digits.headI < v then
    .ok (zz_normalize ⟨subtract, [v - u.digits.headI]⟩)
  else
    .ok (zz_normalize ⟨u.negative, [u.digits.headI - v]⟩)

/-- `zz_addsub_i64`. -/
def zz_addsub_i64 (u : ZZ) (v : Int) (subtract : Bool) : Except zzErr ZZ :=
  zz_addsub_u64 u v.natAbs (if subtract then decide (0 ≤ v) else decide (v < 0))

/-- `zz_sub_i64`. -/
def zz_sub_i64 (u : ZZ) (v : Int) : Except zzErr ZZ := zz_addsub_i64 u v true

/-- `zz_mul_u64`: scalar multiply (`mpn_mul_1` writes `u_size` words plus
the returned high word). -/
def zz_mul_u64 (u : ZZ) (v : Nat) : Except zzErr ZZ :=
  if u.digits.length = 0 ∨ v = 0 then .ok (zz_set_i64 0)
  else if u.digits.length == DIGITS_MAX then .error .BUF
  else
    .ok ⟨u.negative, dropTopZero (padLE (digitsVal u.digits * v) (u.digits.length + 1))⟩

/-- Post-swap body of `zz_mul` (the aliasing branches are identities in a
pure embedding).  `mpn_mul_n`/`mpn_sqr`/`mpn_mul` all write the
`u_size + v_size`-word product of the magnitudes. -/
def zz_mulCore (u v : ZZ) : Except zzErr ZZ :=
  if v.digits.length ≤ 1 then
    match zz_mul_u64 u v.digits.headI with
    | .error e => .error e
    | .ok w =>
      .ok (if w.digits.length ≠ 0 then ⟨u.negative != v.negative, w.digits⟩ else w)
  else if u.digits.length + v.digits.length > DIGITS_MAX then .error .BUF
  else
    .ok ⟨u.negative != v.negative,
         dropTopZero (padLE (digitsVal u.digits * digitsVal v.digits)
           (u.digits.length + v.digits.length))⟩

/-- `zz_mul`: the operand with more digits leads. -/
def zz_mul (u v : ZZ) : Except zzErr ZZ :=
  if u.digits.length < v.digits.length then zz_mulCore v u else zz_mulCore u v

/-- `zz_div` with both quotient and remainder requested (the `q == NULL` /
`r == NULL` variants delegate to this one through a temporary, and the
aliasing branches are identities in a pure embedding).  `mpn_tdiv_qr` is
the kernel's truncating magnitude division.  The inner `goto err` path
(reached when the quotient decrement reports an error) returns `ZZ_MEM`. -/
def zz_div (u v : ZZ) : Except zzErr (ZZ × ZZ) :=
  if v.digits.length = 0 then .error .VAL
  else if u.digits.length = 0 then .ok (zz_set_i64 0, zz_set_i64 0)
  else if u.digits.length < v.digits.length then
    if u.negative ≠ v.negative then
      match zz_add u v with
      | .error _ => .error .MEM
      | .ok r => .ok (zz_set_i64 (-1), r)
    else .ok (zz_set_i64 0, zz_pos u)
  else
    if (u.negative != v.negative) = true ∧
        (zz_normalize ⟨v.negative,
          padLE (digitsVal u.digits % digitsVal v.digits) v.digits.length⟩).digits.length ≠ 0 then
      match zz_sub_i64 ⟨u.negative != v.negative,
          dropTopZero (padLE (digitsVal u.digits / digitsVal v.digits)
            (u.digits.length - v.digits.length + 1))⟩ 1 with
      | .error _ => .error .MEM
      | .ok q1 =>
        .ok (q1, zz_normalize ⟨v.negative,
          padLE (digitsVal v.digits - digitsVal u.digits % digitsVal v.digits)
            v.digits.length⟩)
    else
      .ok (⟨u.negative != v.negative,
            dropTopZero (padLE (digitsVal u.digits / digitsVal v.digits)
              (u.digits.length - v.digits.length + 1))⟩,
           zz_normalize ⟨v.negative,
            padLE (digitsVal u.digits % digitsVal v.digits) v.digits.length⟩)

/-- `zz_div(u, v, q, NULL)`: quotient only. -/
def zz_div_q (u v : ZZ) : Except zzErr ZZ :=
  match zz_div u v with
  | .error e => .error e
  | .ok (q, _) => .ok q

/-- `zz_quo_2exp`: arithmetic right shift.  The whole-digit scan decides
the carry from discarded low digits, `mpn_rshift`'s return value decides
the carry from the partial digit, `extra` reserves the ripple word; the
final value written is `(|u| >> shift) + carry` over `size + extra`
words, then normalized. -/
def zz_quo_2exp (u : ZZ) (shift : Nat) : Except zzErr ZZ :=
  if u.digits.length = 0 then .ok (zz_set_i64 0)
  else if DIGIT_BITS * u.digits.length ≤ shift then
    .ok (zz_set_i64 (if u.negative then -1 else 0))
  else
    let whole := shift / DIGIT_BITS
    let size := u.digits.length - whole
    let sh := shift % DIGIT_BITS
    let low_nonzero := (u.digits.take whole).any (· ≠ 0)
    let extra : Nat := if (u.digits.drop whole).all (· == DIGIT_MAX) then 1 else 0
    let hi := digitsVal (u.digits.drop whole)
    let carry : Nat :=
      if u.negative && (low_nonzero || (sh ≠ 0 && hi % 2 ^ sh ≠ 0)) then 1 else 0
    .ok (zz_normalize ⟨u.negative, padLE (hi / 2 ^ sh + carry) (size + extra)⟩)

/-- The early-return branch of `zz_quo_2exp` that never reads the digit
buffer: a nonzero `u` with `shift >= u->size * ZZ_DIGIT_T_BITS`. -/
def quo2expEarly (u : ZZ) (shift : Nat) : Bool :=
  u.digits.length ≠ 0 && DIGIT_BITS * u.digits.length ≤ shift

/-- `zz_bitlen`: `mpn_sizeinbase(digits, size, 2)`, i.e. the exact bit
length of the magnitude, 0 for zero. -/
def zz_bitlen (u : ZZ) : Nat :=
  if u.digits.length = 0 then 0 else Nat.log2 (digitsVal u.digits) + 1

/-- `zz_pow` (aliasing branch resolved).  `mpn_pow_1` writes the exact
digits of `|u|^v` and returns their count. -/
def zz_pow (u : ZZ) (v : Nat) : Except zzErr ZZ :=
  if v = 0 then .ok (zz_set_i64 1)
  else if u.digits.length = 0 then .ok (zz_set_i64 0)
  else if zz_cmp_i64 u 1 = .eq then .ok (zz_set_i64 1)
  else if DIGITS_MAX / u.digits.length < v then .error .BUF
  else
    .ok ⟨u.negative && v % 2 = 1, natToDigits (digitsVal u.digits ^ v)⟩

/-- `zz_sqrtrem`.  `mpn_sqrtrem` computes the floor square root of the
magnitude and the remainder, both at their exact sizes. -/
def zz_sqrtrem (u : ZZ) (want_rem : Bool) : Except zzErr (ZZ × Option ZZ) :=
  if u.negative then .error .VAL
  else if u.digits.length = 0 then
    .ok (⟨false, []⟩, if want_rem then some ⟨false, []⟩ else none)
  else
    let N := digitsVal u.digits
    let s := Nat.sqrt N
    if want_rem then .ok (⟨false, natToDigits s⟩, some ⟨false, natToDigits (N - s * s)⟩)
    else .ok (⟨false, natToDigits s⟩, none)

/-- Kernel model of `mpn_gcdext` on magnitudes `U >= V >= 1`: the gcd
together with a Bezout cofactor `s` satisfying `U*s ≡ gcd (mod V)`,
normalized to the balanced range `2*|s| <= V/g` — the normalization zz.c
relies on ("Now s either 1 or |s| < v/(2g)"). -/
def mpnGcdext (U V : Nat) : Nat × Int :=
  let g := Nat.gcd U V
  let m : Int := (V / g : Nat)
  let r := Nat.gcdA U V % m
  (g, if 2 * r ≤ m then r else r - m)

/-- The `while (newr != 0)` loop of `zz_inverse_euclidext`, with explicit
fuel (each pass strictly shrinks `|newr|`, so any fuel above the initial
magnitude suffices): state is `(r, newt, newr, t)`, one pass is
`q = fdiv(r, newr); (t, newt) = (newt, t - q*newt);
(r, newr) = (newr, r - q*newr)`. -/
def euclidLoop : Nat → ZZ → ZZ → ZZ → ZZ → Except zzErr (ZZ × ZZ)
  | 0, _, _, _, _ => .error .MEM
  | fuel + 1, r, newt, newr, t =>
    if zz_cmp_i64 newr 0 = .eq then .ok (r, t)
    else
      match zz_div_q r newr with
      | .error e => .error e
      | .ok q =>
        match zz_mul q newt with
        | .error e => .error e
        | .ok t2 =>
          match zz_sub t t2 with
          | .error e => .error e
          | .ok newt2 =>
            match zz_mul q newr with
            | .error e => .error e
            | .ok r2 =>
              match zz_sub r r2 with
              | .error e => .error e
              | .ok newr2 => euclidLoop fuel newr newt2 newr2 newt

/-- `zz_inverse_euclidext`: plain extended Euclidean iteration computing
the second Bezout coefficient, used by `zz_gcdext` when the direct
formula could overflow the digit bound.  Any error inside the loop takes
the `goto clear2` path, which reports `ZZ_MEM`. -/
def zz_inverse_euclidext (u v : ZZ) : Except zzErr ZZ :=
  let u_neg := u.negative
  match euclidLoop (digitsVal u.digits + 1)
      (zz_pos v) (zz_set_i64 1) (zz_pos u) (zz_set_i64 0) with
  | .error _ => .error .MEM
  | .ok (r, t0) =>
    let t : ZZ := if t0.digits.length ≠ 0 then ⟨t0.negative != u_neg, t0.digits⟩ else t0
    if zz_cmp_i64 (zz_abs r) 1 ≠ .eq then .error .VAL else .ok t

/-- The `tmp_g` temporary of `zz_gcdext`: the nonnegative gcd written by
`mpn_gcdext`. -/
def gcdext_g (u v : ZZ) : ZZ :=
  ⟨false, natToDigits (mpnGcdext (digitsVal u.digits) (digitsVal v.digits)).1⟩

/-- The `tmp_s` temporary of `zz_gcdext`: magnitude `|s|` with the sign
chosen from `ISNEG(u)` and the kernel cofactor's sign. -/
def gcdext_s (u v : ZZ) : ZZ :=
  ⟨(u.negative && decide (0 < (mpnGcdext (digitsVal u.digits) (digitsVal v.digits)).2)) ||
     (!u.negative && decide ((mpnGcdext (digitsVal u.digits) (digitsVal v.digits)).2 < 0)),
   natToDigits (mpnGcdext (digitsVal u.digits) (digitsVal v.digits)).2.natAbs⟩

/-- Body of `zz_gcdext` after the operand swap (`u` has at least as many
digits as `v`), with all three outputs requested.  An error from any of
the operations computing `t` takes the `goto clear` path, which reports
`ZZ_MEM` (so an inner `ZZ_BUF` or `ZZ_VAL` surfaces as `ZZ_MEM`). -/
def zz_gcdextCore (u v : ZZ) : Except zzErr (ZZ × ZZ × ZZ) :=
  if v.digits.length = 0 then
    -- degenerate case: g = |u|, s = sign(u) (0 if u == 0), t = 0
    .ok (zz_abs u,
         ⟨u.negative, if u.digits.length > 0 then [1] else []⟩,
         ⟨false, []⟩)
  else
    if max (u.digits.length + (gcdext_s u v).digits.length)
        (gcdext_g u v).digits.length < DIGITS_MAX then
      -- t = (g - u*s) / v
      match zz_mul u (gcdext_s u v) with
      | .error _ => .error .MEM
      | .ok o2 =>
        match zz_sub (gcdext_g u v) o2 with
        | .error _ => .error .MEM
        | .ok o2b =>
          match zz_div_q o2b v with
          | .error _ => .error .MEM
          | .ok t => .ok (gcdext_g u v, gcdext_s u v, t)
    else
      -- t by a plain extended Euclidean iteration on (v/g, u/g)
      match zz_div_q u (gcdext_g u v) with
      | .error _ => .error .MEM
      | .ok o1 =>
        match zz_div_q v (gcdext_g u v) with
        | .error _ => .error .MEM
        | .ok o2 =>
          match zz_inverse_euclidext o2 o1 with
          | .error _ => .error .MEM
          | .ok t => .ok (gcdext_g u v, gcdext_s u v, t)

/-- `zz_gcdext` with all of `g`, `s`, `t` requested: operands with fewer
digits are swapped into second position together with their cofactors. -/
def zz_gcdext (u v : ZZ) : Except zzErr (ZZ × ZZ × ZZ) :=
  if u.digits.length < v.digits.length then
    match zz_gcdextCore v u with
    | .error e => .error e
    | .ok (g, s, t) => .ok (g, t, s)
  else zz_gcdextCore u v

/-! ### Text conversion -/

/-- C `isspace` on a byte. -/
def isSpaceB (c : Nat) : Bool := c == 32 || (9 ≤ c && c ≤ 13)

/-- C `tolower` on a byte. -/
def toLowerB (c : Nat) : Nat := if 65 ≤ c ∧ c ≤ 90 then c + 32 else c

/-- `DIGIT_VALUE_TAB[c]` read back as an `unsigned char` (-1 wraps
to 255): decimal digits, letters of either case. -/
def digitValue (c : Nat) : Nat :=
  if 48 ≤ c ∧ c ≤ 57 then c - 48
  else if 65 ≤ c ∧ c ≤ 90 then c - 55
  else if 97 ≤ c ∧ c ≤ 122 then c - 87
  else 255

/-- `mpn_set_str` model: most-significant-first base-`base` value of a
digit buffer. -/
def msbVal (base : Nat) (l : List Nat) : Nat := l.foldl (fun a d => a * base + d) 0

/-- The digit/separator scan of `zz_set_str` (the `for (i = 0; i < len;)`
loop).  Returns the digit values written into the buffer and the total
amount subtracted from `new_len`.  A separator removal shifts the rest of
the buffer left by one byte while the final byte keeps its old value
(`memmove` of `len - i - 1` bytes), so the scan continues on
`t ++ [last]`; the loop then processes the shifted-in byte in the same
iteration. -/
def scanDigits (base : Nat) : List Nat → Except Unit (List Nat × Nat)
  | [] => .ok ([], 0)
  | c :: rest =>
    if c = 95 then
      match rest with
      | [] => .error ()
      | h :: t =>
        if h = 95 then .error ()
        else
          let rest2 := t ++ [(h :: t).getLast (by simp)]
          let d := digitValue h
          if d < base then
            match scanDigits base rest2 with
            | .error e => .error e
            | .ok (ds, k) => .ok (d :: ds, 1 + k)
          else if isSpaceB h then
            if rest2.all isSpaceB then .ok ([], 1 + (1 + rest2.length)) else .error ()
          else .error ()
    else
      let d := digitValue c
      if d < base then
        match scanDigits base rest with
        | .error e => .error e
        | .ok (ds, k) => .ok (d :: ds, k)
      else if isSpaceB c then
        if rest.all isSpaceB then .ok ([], 1 + rest.length) else .error ()
      else .error ()
  termination_by l => l.length
  decreasing_by
    · simp [rest2]
    · simp

/-- Tail of `zz_set_str`: the post-prefix emptiness/separator check, the
scan loop, the digit-bound check and the final `mpn_set_str` with
normalization. -/
def setStrLoop (negative : Bool) (base : Nat) (p : List Nat) : Except zzErr ZZ :=
  if p.isEmpty || p.headI == 95 then .error .VAL
  else
    match scanDigits base p with
    | .error _ => .error .VAL
    | .ok (ds, k) =>
      let len := p.length - k
      if DIGITS_MAX < 1 + len / 2 then .error .BUF
      else .ok (zz_normalize ⟨negative, natToDigits (msbVal base (ds.take len))⟩)

/-- `zz_set_str` between the auto-detect block and the scan: skip an
explicitly requested matching power-of-two prefix, default base 0 to 10. -/
def setStrPrefixed (negative : Bool) (base : Nat) (p : List Nat) : Except zzErr ZZ :=
  let p :=
    if p.headI == 48 ∧ 2 ≤ p.length ∧
        ((base = 2 ∧ toLowerB p.tail.headI = 98) ∨
         (base = 8 ∧ toLowerB p.tail.headI = 111) ∨
         (base = 16 ∧ toLowerB p.tail.headI = 120)) then p.drop 2 else p
  setStrLoop negative (if base = 0 then 10 else base) p

/-- `zz_set_str` on a byte string: leading whitespace, sign, base prefix
(auto-detected for base 0, where one separator directly after the prefix
is skipped), then `setStrPrefixed`. -/
def zz_set_str (s : List Nat) (base : Int) : Except zzErr ZZ :=
  if base ≠ 0 ∧ (base < 2 ∨ 36 < base) then .error .VAL
  else
    let p0 := s.dropWhile isSpaceB
    if p0.isEmpty then .error .VAL
    else
      let negative := p0.headI == 45
      let p1 := if negative then p0.tail else p0
      if p1.isEmpty then .error .VAL
      else
        let p2 := if !negative && p1.headI == 43 then p1.tail else p1
        if p2.isEmpty || p2.headI == 95 then .error .VAL
        else if p2.headI == 48 ∧ base = 0 then
          if p2.length = 1 then .ok (zz_set_i64 0)
          else
            let c1 := toLowerB p2.tail.headI
            let detected : Option Nat :=
              if c1 = 98 then some 2
              else if c1 = 111 then some 8
              else if c1 = 120 then some 16
              else if isSpaceB p2.tail.headI then some 0 else none
            match detected with
            | none => .error .VAL
            | some nb =>
              let p3 := p2.drop 2
              let p4 := if ¬p3.isEmpty ∧ p3.headI == 95 then p3.tail else p3
              setStrPrefixed negative nb p4
        else setStrPrefixed negative base.toNat p2

/-- `mpn_get_str` model: most-significant-first base-`b` digits without
leading zeros; size-0 input yields the single digit 0 (the "undocumented
feature" used by zz_get_str). -/
def toDigitsBE (b n : Nat) : List Nat :=
  if h : n < b ∨ b ≤ 1 then [n] else toDigitsBE b (n / b) ++ [n % b]
  termination_by n
  decreasing_by
    push_neg at h
    exact Nat.div_lt_self (by omega) (by omega)

/-- `NUM_TO_TEXT`, lowercase (nonnegative requested base). -/
def numToText (d : Nat) : Nat := if d < 10 then 48 + d else 87 + d

/-- `NUM_TO_TEXT`, uppercase (negative requested base). -/
def numToTextU (d : Nat) : Nat := if d < 10 then 48 + d else 55 + d

/-- `zz_get_str` to a byte string (the caller-provided buffer is the
returned list).  The power-of-two and generic-base branches differ only
in scratch management, not in the bytes produced. -/
def zz_get_str (u : ZZ) (base : Int) : Except zzErr (List Nat) :=
  let tab := if base < 0 then numToTextU else numToText
  let b := base.natAbs
  if b < 2 ∨ 36 < b then .error .VAL
  else
    .ok ((if u.negative then [45] else []) ++ (toDigitsBE b (digitsVal u.digits)).map tab)

/-! ### In-place calls -/

/-- The full state of a `zz_t` for aliased (`v == u`) calls: sign flag,
capacity (`alloc`), logical digit count (`size`) and the backing buffer. -/
structure ZZBuf where
  negative : Bool
  alloc : Nat
  size : Nat
  buf : List Nat
  deriving Repr, DecidableEq

/-- `zz_abs(u, u)`: the `u != v` copy is skipped, only `SETNEG(false)`. -/
def zz_abs_inplace (v : ZZBuf) : ZZBuf := { v with negative := false }

/-- `zz_neg(u, u)`: the `u != v` copy is skipped; the sign flips only for
nonzero logical size. -/
def zz_neg_inplace (v : ZZBuf) : ZZBuf :=
  if v.size ≠ 0 then { v with negative := !v.negative } else v

/-! ## Basic facts about the digit store -/

theorem DBASE_pos : 0 < DBASE := by norm_num [DBASE]

theorem one_lt_DBASE : 1 < DBASE := by norm_num [DBASE]

@[simp] theorem digitsVal_nil : digitsVal [] = 0 := rfl

@[simp] theorem digitsVal_cons (d : Nat) (ds : List Nat) :
    digitsVal (d :: ds) = d + DBASE * digitsVal ds := rfl

theorem digitsVal_append (l₁ l₂ : List Nat) :
    digitsVal (l₁ ++ l₂) = digitsVal l₁ + DBASE ^ l₁.length * digitsVal l₂ := by
  induction l₁ with
  | nil => simp
  | cons d ds ih => simp [ih, pow_succ]; ring

theorem digitsVal_eq_zero_iff (l : List Nat) :
    digitsVal l = 0 ↔ ∀ d ∈ l, d = 0 := by
  induction l with
  | nil => simp
  | cons d ds ih =>
    simp only [digitsVal_cons, List.mem_cons]
    constructor
    · intro h
      have hd : d = 0 := by omega
      have hds : DBASE * digitsVal ds = 0 := by omega
      have : digitsVal ds = 0 := by
        rcases Nat.mul_eq_zero.mp hds with h' | h'
        · exact absurd h' (by norm_num [DBASE])
        · exact h'
      intro x hx
      rcases hx with rfl | hx
      · exact hd
      · exact (ih.mp this) x hx
    · intro h
      have hd : d = 0 := h d (Or.inl rfl)
      have : digitsVal ds = 0 := ih.mpr fun x hx => h x (Or.inr hx)
      simp [hd, this]

theorem digitsVal_lt (l : List Nat) (h : ∀ d ∈ l, d < DBASE) :
    digitsVal l < DBASE ^ l.length := by
  induction l with
  | nil => simp
  | cons d ds ih =>
    have hd : d < DBASE := h d (List.mem_cons_self _ _)
    have hds := ih fun x hx => h x (List.mem_cons_of_mem _ hx)
    simp only [digitsVal_cons, List.length_cons, pow_succ]
    calc d + DBASE * digitsVal ds < DBASE + DBASE * digitsVal ds := by omega
    _ = DBASE * (digitsVal ds + 1) := by ring
    _ ≤ DBASE * DBASE ^ ds.length := by
        exact Nat.mul_le_mul_left _ (by omega)
    _ = DBASE ^ ds.length * DBASE := by ring

@[simp] theorem padLE_zero_len (n : Nat) : padLE n 0 = [] := rfl

@[simp] theorem padLE_succ (n len : Nat) :
    padLE n (len + 1) = n % DBASE :: padLE (n / DBASE) len := rfl

@[simp] theorem padLE_length (n len : Nat) : (padLE n len).length = len := by
  induction len generalizing n with
  | zero => rfl
  | succ k ih => simp [ih]

theorem padLE_mem_lt (n len : Nat) : ∀ d ∈ padLE n len, d < DBASE := by
  induction len generalizing n with
  | zero => simp
  | succ k ih =>
    intro d hd
    rcases List.mem_cons.mp hd with rfl | hd
    · exact Nat.mod_lt _ DBASE_pos
    · exact ih _ d hd

theorem digitsVal_padLE (n len : Nat) (h : n < DBASE ^ len) :
    digitsVal (padLE n len) = n := by
  induction len generalizing n with
  | zero => simp at h; simp [h]
  | succ k ih =>
    have : n / DBASE < DBASE ^ k := by
      rw [Nat.div_lt_iff_lt_mul DBASE_pos]
      calc n < DBASE ^ (k + 1) := h
      _ = DBASE ^ k * DBASE := by ring
    simp [ih _ this]
    exact Nat.mod_add_div n DBASE

@[simp] theorem natToDigits_zero : natToDigits 0 = [] := by
  unfold natToDigits; rfl

theorem natToDigits_pos (n : Nat) (h : n ≠ 0) :
    natToDigits n = n % DBASE :: natToDigits (n / DBASE) := by
  conv_lhs => unfold natToDigits
  simp [h]

theorem digitsVal_natToDigits (n : Nat) : digitsVal (natToDigits n) = n := by
  induction n using Nat.strong_induction_on with
  | _ n ih =>
    by_cases h : n = 0
    · simp [h]
    · rw [natToDigits_pos n h, digitsVal_cons,
        ih (n / DBASE) (Nat.div_lt_self (Nat.pos_of_ne_zero h) one_lt_DBASE)]
      exact Nat.mod_add_div n DBASE

theorem natToDigits_mem_lt (n : Nat) : ∀ d ∈ natToDigits n, d < DBASE := by
  induction n using Nat.strong_induction_on with
  | _ n ih =>
    by_cases h : n = 0
    · simp [h]
    · rw [natToDigits_pos n h]
      intro d hd
      rcases List.mem_cons.mp hd with rfl | hd
      · exact Nat.mod_lt _ DBASE_pos
      · exact ih (n / DBASE) (Nat.div_lt_self (Nat.pos_of_ne_zero h) one_lt_DBASE) d hd

theorem normDigits_nil : normDigits [] = [] := rfl

theorem normDigits_cons (d : Nat) (ds : List Nat) :
    normDigits (d :: ds) =
      if (normDigits ds).isEmpty && d == 0 then [] else d :: normDigits ds := rfl

theorem normDigits_natToDigits (n : Nat) : normDigits (natToDigits n) = natToDigits n := by
  induction n using Nat.strong_induction_on with
  | _ n ih =>
    by_cases h : n = 0
    · simp [h, normDigits_nil]
    · rw [natToDigits_pos n h, normDigits_cons,
        ih (n / DBASE) (Nat.div_lt_self (Nat.pos_of_ne_zero h) one_lt_DBASE)]
      by_cases hq : n / DBASE = 0
      · have hm : n % DBASE ≠ 0 := by
          intro hcon
          have hdm := Nat.div_add_mod n DBASE
          rw [hq, hcon] at hdm
          omega
        simp [hq, hm]
      · have : natToDigits (n / DBASE) ≠ [] := by
          rw [natToDigits_pos _ hq]; simp
        simp [List.isEmpty_iff, this]

theorem natToDigits_length_le (n k : Nat) (h : n < DBASE ^ k) :
    (natToDigits n).length ≤ k := by
  induction k generalizing n with
  | zero =>
    simp at h
    simp [h]
  | succ m ih =>
    by_cases hn : n = 0
    · simp [hn]
    · rw [natToDigits_pos n hn]
      have : n / DBASE < DBASE ^ m := by
        rw [Nat.div_lt_iff_lt_mul DBASE_pos]
        calc n < DBASE ^ (m + 1) := h
        _ = DBASE ^ m * DBASE := by ring
      simpa using ih _ this

theorem normDigits_padLE (n len : Nat) (h : n < DBASE ^ len) :
    normDigits (padLE n len) = natToDigits n := by
  induction len generalizing n with
  | zero => simp at h; simp [h, normDigits_nil]
  | succ k ih =>
    have hdiv : n / DBASE < DBASE ^ k := by
      rw [Nat.div_lt_iff_lt_mul DBASE_pos]
      calc n < DBASE ^ (k + 1) := h
      _ = DBASE ^ k * DBASE := by ring
    rw [padLE_succ, normDigits_cons, ih _ hdiv]
    by_cases hn : n = 0
    · simp [hn]
    · by_cases hq : n / DBASE = 0
      · have hm : n % DBASE ≠ 0 := by
          intro hcon
          have hdm := Nat.div_add_mod n DBASE
          rw [hq, hcon] at hdm
          omega
        rw [natToDigits_pos n hn]
        simp [hq, hm]
      · have hne : natToDigits (n / DBASE) ≠ [] := by
          rw [natToDigits_pos _ hq]; simp
        rw [natToDigits_pos n hn]
        simp [List.isEmpty_iff, hne]

theorem natToDigits_eq_nil_iff (n : Nat) : natToDigits n = [] ↔ n = 0 := by
  constructor
  · intro h
    by_contra hn
    rw [natToDigits_pos n hn] at h
    simp at h
  · intro h; simp [h]

/-- Canonical digit lists are determined by their value. -/
theorem eq_natToDigits_of_norm (l : List Nat) (h1 : ∀ d ∈ l, d < DBASE)
    (h2 : normDigits l = l) : l = natToDigits (digitsVal l) := by
  induction l with
  | nil => simp
  | cons d ds ih =>
    rw [normDigits_cons] at h2
    by_cases hc : (normDigits ds).isEmpty && d == 0
    · rw [if_pos hc] at h2; simp at h2
    · rw [if_neg hc] at h2
      have hds : normDigits ds = ds := List.tail_eq_of_cons_eq h2
      have ihds := ih (fun x hx => h1 x (List.mem_cons_of_mem _ hx)) hds
      have hd : d < DBASE := h1 d (List.mem_cons_self _ _)
      have hmod : (d + DBASE * digitsVal ds) % DBASE = d := by
        rw [Nat.add_mul_mod_self_left, Nat.mod_eq_of_lt hd]
      have hdiv : (d + DBASE * digitsVal ds) / DBASE = digitsVal ds := by
        rw [Nat.add_mul_div_left _ _ DBASE_pos, Nat.div_eq_of_lt hd, Nat.zero_add]
      have hn0 : d + DBASE * digitsVal ds ≠ 0 := by
        by_cases hv : digitsVal ds = 0
        · have hdsnil : ds = [] := by rw [ihds, hv, natToDigits_zero]
          have hd0 : d ≠ 0 := by
            intro hcon
            exact hc (by simp [hds, hdsnil, hcon, normDigits_nil])
          omega
        · have : 0 < DBASE * digitsVal ds := Nat.mul_pos DBASE_pos (Nat.pos_of_ne_zero hv)
          omega
      rw [digitsVal_cons, natToDigits_pos _ hn0, hmod, hdiv, ← ihds]

theorem DBASE_pow_le_of_ne_zero (n : Nat) (h : n ≠ 0) :
    DBASE ^ ((natToDigits n).length - 1) ≤ n := by
  induction n using Nat.strong_induction_on with
  | _ n ih =>
    rw [natToDigits_pos n h]
    by_cases hq : n / DBASE = 0
    · simp [hq]
      omega
    · have hlt : n / DBASE < n := Nat.div_lt_self (Nat.pos_of_ne_zero h) one_lt_DBASE
      have hih := ih (n / DBASE) hlt hq
      have hlen : (natToDigits (n / DBASE)).length ≠ 0 := by
        simp [List.length_eq_zero, natToDigits_eq_nil_iff, hq]
      simp only [List.length_cons]
      have : (natToDigits (n / DBASE)).length - 1 + 1 =
          (natToDigits (n / DBASE)).length := by omega
      calc DBASE ^ ((natToDigits (n / DBASE)).length + 1 - 1)
          = DBASE ^ ((natToDigits (n / DBASE)).length - 1) * DBASE := by
            rw [Nat.add_sub_cancel, ← pow_succ]
            congr 1
            omega
      _ ≤ n / DBASE * DBASE := Nat.mul_le_mul_right _ hih
      _ ≤ n := Nat.div_mul_le_self n DBASE

@[simp] theorem ZZ_toNat_mk (b : Bool) (l : List Nat) :
    ZZ.toNat ⟨b, l⟩ = digitsVal l := rfl

theorem ZZ_toInt_mk (b : Bool) (l : List Nat) :
    ZZ.toInt ⟨b, l⟩ = if b then -(digitsVal l : Int) else (digitsVal l : Int) := rfl

@[simp] theorem ZZ_toInt_mk_natToDigits (b : Bool) (n : Nat) :
    ZZ.toInt ⟨b, natToDigits n⟩ = if b then -(n : Int) else (n : Int) := by
  rw [ZZ_toInt_mk]
  simp [ZZ.toNat, digitsVal_natToDigits]

/-- `zz_normalize` of a freshly written `len`-word buffer holding `n`. -/
theorem zz_normalize_padLE (neg : Bool) (n len : Nat) (h : n < DBASE ^ len) :
    zz_normalize ⟨neg, padLE n len⟩ = ⟨if n = 0 then false else neg, natToDigits n⟩ := by
  unfold zz_normalize
  simp only [normDigits_padLE n len h]
  congr 1
  by_cases hn : n = 0
  · simp [hn]
  · simp [hn, List.isEmpty_iff, natToDigits_eq_nil_iff]

/-- The canonical value with magnitude `n`: what every normalized output
looks like. -/
theorem canon_mkN (neg : Bool) (n : Nat) (h : (natToDigits n).length ≤ DIGITS_MAX) :
    ZZ.Canon ⟨if n = 0 then false else neg, natToDigits n⟩ := by
  refine ⟨⟨natToDigits_mem_lt n, normDigits_natToDigits n, h⟩, ?_⟩
  intro hnil
  rw [natToDigits_eq_nil_iff] at hnil
  simp [hnil]

theorem canon_toNat_lt (u : ZZ) (hu : u.Canon) : u.toNat < DBASE ^ u.digits.length :=
  digitsVal_lt _ hu.1.1

theorem canon_digits_eq (u : ZZ) (hu : u.Canon) : u.digits = natToDigits u.toNat :=
  eq_natToDigits_of_norm _ hu.1.1 hu.1.2.1

theorem canon_pow_le_toNat (u : ZZ) (hu : u.Canon) (h : u.digits ≠ []) :
    DBASE ^ (u.digits.length - 1) ≤ u.toNat := by
  have h0 : u.toNat ≠ 0 := by
    intro hcon
    apply h
    rw [canon_digits_eq u hu, hcon, natToDigits_zero]
  have := DBASE_pow_le_of_ne_zero u.toNat h0
  rwa [← canon_digits_eq u hu] at this

theorem canon_toNat_ne_zero (u : ZZ) (hu : u.Canon) (h : u.digits ≠ []) : u.toNat ≠ 0 := by
  intro hcon
  apply h
  rw [canon_digits_eq u hu, hcon, natToDigits_zero]

theorem canon_toNat_eq_zero (u : ZZ) (h : u.digits = []) : u.toNat = 0 := by
  rw [ZZ.toNat, h, digitsVal_nil]

theorem canon_toInt_eq (u : ZZ) (hu : u.Canon) :
    u.toInt = if u.negative then -(u.toNat : Int) else (u.toNat : Int) := rfl

theorem canon_lt_of_length_lt (u v : ZZ) (hu : u.Canon) (hv : v.Canon)
    (h : u.digits.length < v.digits.length) : u.toNat < v.toNat := by
  have hvne : v.digits ≠ [] := by
    intro hcon
    rw [hcon] at h
    simp at h
  calc u.toNat < DBASE ^ u.digits.length := canon_toNat_lt u hu
  _ ≤ DBASE ^ (v.digits.length - 1) := Nat.pow_le_pow_right DBASE_pos (by omega)
  _ ≤ v.toNat := canon_pow_le_toNat v hv hvne

/-- `padLE` of a number that exactly fills `len + 1` words is already
minimal. -/
theorem padLE_eq_natToDigits (n len : Nat) :
    DBASE ^ len ≤ n → n < DBASE ^ (len + 1) → padLE n (len + 1) = natToDigits n := by
  induction len generalizing n with
  | zero =>
    intro h1 h2
    rw [pow_zero] at h1
    rw [pow_one] at h2
    rw [padLE_succ, padLE_zero_len, natToDigits_pos n (by omega)]
    rw [Nat.mod_eq_of_lt h2, Nat.div_eq_of_lt h2, natToDigits_zero]
  | succ m ih =>
    intro h1 h2
    have hn : n ≠ 0 := by
      have : 0 < DBASE ^ (m + 1) := Nat.pos_pow_of_pos _ DBASE_pos
      omega
    rw [padLE_succ, natToDigits_pos n hn]
    congr 1
    apply ih
    · rw [Nat.le_div_iff_mul_le DBASE_pos, ← pow_succ]
      exact h1
    · rw [Nat.div_lt_iff_lt_mul DBASE_pos, ← pow_succ]
      exact h2

theorem padLE_snoc (n len : Nat) :
    padLE n (len + 1) = padLE n len ++ [n / DBASE ^ len % DBASE] := by
  induction len generalizing n with
  | zero => simp
  | succ m ih =>
    rw [padLE_succ, ih (n / DBASE), padLE_succ]
    simp only [List.cons_append]
    congr 3
    rw [Nat.div_div_eq_div_mul, ← pow_succ']

/-- `dropTopZero` on a one-larger-than-necessary buffer recovers the
minimal digits. -/
theorem dropTopZero_padLE (n len : Nat) (hn : 0 < n) (h1 : n < DBASE ^ (len + 1))
    (h2 : DBASE ^ (len + 1) ≤ n * DBASE * DBASE) :
    dropTopZero (padLE n (len + 1)) = natToDigits n := by
  have hple : (0:Nat) < DBASE ^ len := Nat.pos_pow_of_pos _ DBASE_pos
  have htop : n / DBASE ^ len < DBASE := by
    rw [Nat.div_lt_iff_lt_mul hple]
    calc n < DBASE ^ (len + 1) := h1
    _ = DBASE ^ len * DBASE := by rw [pow_succ]
    _ = DBASE * DBASE ^ len := by ring
  have hTmod : n / DBASE ^ len % DBASE = n / DBASE ^ len := Nat.mod_eq_of_lt htop
  rw [padLE_snoc, hTmod]
  unfold dropTopZero
  rw [List.getLastD_concat]
  by_cases hbig : DBASE ^ len ≤ n
  · have hT0 : ¬(n / DBASE ^ len == 0) = true := by
      have := (Nat.one_le_div_iff hple).mpr hbig
      simp only [beq_iff_eq]
      omega
    rw [if_neg hT0, ← hTmod, ← padLE_snoc]
    exact padLE_eq_natToDigits n len hbig h1
  · push_neg at hbig
    have hT0 : n / DBASE ^ len = 0 := Nat.div_eq_of_lt hbig
    rw [hT0]
    simp only [beq_self_eq_true, if_true, List.dropLast_concat]
    match len, hbig, h2 with
    | 0, hbig, h2 =>
      rw [pow_zero] at hbig
      omega
    | m + 1, hbig, h2 =>
      apply padLE_eq_natToDigits
      · by_contra hcon
        push_neg at hcon
        have hb : (0:Nat) < DBASE * DBASE := Nat.mul_pos DBASE_pos DBASE_pos
        have hmul : n * (DBASE * DBASE) < DBASE ^ m * (DBASE * DBASE) :=
          (Nat.mul_lt_mul_right hb).mpr hcon
        have heq : DBASE ^ (m + 2) = DBASE ^ m * (DBASE * DBASE) := by ring
        have h2b : DBASE ^ (m + 2) ≤ n * (DBASE * DBASE) := by
          calc DBASE ^ (m + 2) ≤ n * DBASE * DBASE := h2
          _ = n * (DBASE * DBASE) := by ring
        omega
      · exact hbig

theorem DIGITS_MAX_pos : 0 < DIGITS_MAX := by norm_num [DIGITS_MAX]

theorem canon_zero : ZZ.Canon ⟨false, []⟩ :=
  ⟨⟨by simp, rfl, by simp⟩, fun _ => rfl⟩

theorem pow_le_digitsVal (l : List Nat) (hb : ∀ d ∈ l, d < DBASE)
    (hn : normDigits l = l) (hne : l ≠ []) : DBASE ^ (l.length - 1) ≤ digitsVal l := by
  have heq := eq_natToDigits_of_norm l hb hn
  have h0 : digitsVal l ≠ 0 := by
    intro hcon
    rw [hcon, natToDigits_zero] at heq
    exact hne heq
  have := DBASE_pow_le_of_ne_zero (digitsVal l) h0
  rwa [← heq] at this

theorem digitsVal_pos (l : List Nat) (hb : ∀ d ∈ l, d < DBASE)
    (hn : normDigits l = l) (hne : l ≠ []) : 0 < digitsVal l := by
  have := pow_le_digitsVal l hb hn hne
  have hp : 0 < DBASE ^ (l.length - 1) := Nat.pos_pow_of_pos _ DBASE_pos
  omega

theorem zz_set_i64_canon (x : Int) (h : x.natAbs < DBASE) : (zz_set_i64 x).Canon := by
  unfold zz_set_i64
  by_cases hx : x = 0
  · rw [if_pos hx]; exact canon_zero
  · rw [if_neg hx]
    have hn : x.natAbs ≠ 0 := by simpa using hx
    refine ⟨⟨?_, ?_, ?_⟩, by simp⟩
    · intro d hd
      simp only [List.mem_singleton] at hd
      omega
    · simp [normDigits_cons, normDigits_nil, hn]
    · simpa using DIGITS_MAX_pos

theorem zz_set_i64_toInt (x : Int) : (zz_set_i64 x).toInt = x := by
  unfold zz_set_i64
  by_cases hx : x = 0
  · rw [if_pos hx]
    simp [ZZ.toInt, ZZ.toNat, hx]
  · rw [if_neg hx, ZZ_toInt_mk]
    simp only [digitsVal_cons, digitsVal_nil, Nat.mul_zero, Nat.add_zero]
    by_cases hneg : x < 0
    · have hd : decide (x < 0) = true := by simpa using hneg
      rw [hd, if_pos rfl]
      omega
    · have hd : decide (x < 0) = false := by simpa using hneg
      rw [hd]
      simp only [Bool.false_eq_true, if_false]
      omega

theorem zz_pos_eq (u : ZZ) (hu : u.Canon) : zz_pos u = u := by
  unfold zz_pos
  by_cases h : u.digits.isEmpty
  · have hnil : u.digits = [] := by simpa [List.isEmpty_iff] using h
    have hneg := hu.2 hnil
    rw [if_pos h]
    unfold zz_set_i64
    rw [if_pos rfl]
    cases u
    simp_all
  · rw [if_neg h]

theorem toInt_natAbs (u : ZZ) : u.toInt.natAbs = u.toNat := by
  rw [ZZ.toInt]
  by_cases h : u.negative <;> simp [h]

theorem zz_abs_spec (u : ZZ) (hu : u.Canon) :
    (zz_abs u).Canon ∧ (zz_abs u).toInt = (u.toNat : Int) := by
  unfold zz_abs
  rw [zz_pos_eq u hu]
  exact ⟨⟨hu.1, fun _ => rfl⟩, rfl⟩

theorem zz_neg_spec (u : ZZ) (hu : u.Canon) :
    (zz_neg u).Canon ∧ (zz_neg u).toInt = -u.toInt := by
  unfold zz_neg
  rw [zz_pos_eq u hu]
  by_cases h : u.digits.isEmpty
  · have hnil : u.digits = [] := by simpa [List.isEmpty_iff] using h
    rw [if_pos h]
    have : u.toInt = 0 := by
      rw [ZZ.toInt, ZZ.toNat, hnil]
      simp
    rw [this]
    exact ⟨hu, by simp [this]⟩
  · have hnil : u.digits ≠ [] := by simpa [List.isEmpty_iff] using h
    rw [if_neg h]
    constructor
    · exact ⟨hu.1, fun hc => absurd hc hnil⟩
    · rw [ZZ_toInt_mk, ZZ.toInt, ZZ.toNat]
      by_cases hneg : u.negative <;> simp [hneg]

theorem toInt_mk_not (b : Bool) (l : List Nat) :
    ZZ.toInt ⟨!b, l⟩ = -ZZ.toInt ⟨b, l⟩ := by
  cases b <;> simp [ZZ_toInt_mk]

/-! ## `zz_addsub` correctness -/

theorem zz_addsubCore_spec (negu negv : Bool) (ud vd : List Nat)
    (hud : goodDigits ud) (hvd : goodDigits vd) (hlen : vd.length ≤ ud.length) :
    ∀ w, zz_addsubCore negu ud negv vd = .ok w →
      w.Canon ∧ w.toInt = ZZ.toInt ⟨negu, ud⟩ + ZZ.toInt ⟨negv, vd⟩ := by
  intro w hw
  unfold zz_addsubCore at hw
  have hU : digitsVal ud < DBASE ^ ud.length := digitsVal_lt _ hud.1
  have hV : digitsVal vd < DBASE ^ vd.length := digitsVal_lt _ hvd.1
  have hVle : digitsVal vd < DBASE ^ ud.length :=
    lt_of_lt_of_le hV (Nat.pow_le_pow_right DBASE_pos hlen)
  split_ifs at hw with h1 h2 h3 h4 h5
  · -- same effective signs: magnitude add
    have hmax : ud.length ≠ DIGITS_MAX := fun hc => h1 ⟨h2, hc⟩
    have hsum : digitsVal ud + digitsVal vd < DBASE ^ (ud.length + 1) := by
      have h2B : 2 ≤ DBASE := by norm_num [DBASE]
      calc digitsVal ud + digitsVal vd
          < DBASE ^ ud.length + DBASE ^ ud.length := by omega
      _ = 2 * DBASE ^ ud.length := by ring
      _ ≤ DBASE * DBASE ^ ud.length := Nat.mul_le_mul_right _ h2B
      _ = DBASE ^ (ud.length + 1) := by rw [pow_succ]; ring
    rw [zz_normalize_padLE _ _ _ hsum] at hw
    injection hw with hw
    subst hw
    constructor
    · apply canon_mkN
      have := natToDigits_length_le _ _ hsum
      have := hud.2.2
      omega
    · simp only [ZZ_toInt_mk_natToDigits, ZZ_toInt_mk, digitsVal_natToDigits]
      subst h2
      by_cases h0 : digitsVal ud + digitsVal vd = 0 <;>
        cases hn : negu <;> simp [h0, hn] <;> push_cast <;> omega
  · -- different signs, more digits in ud
    have hlt : vd.length < ud.length := by omega
    have hne : ud ≠ [] := by
      intro hc
      rw [hc] at hlt
      simp at hlt
    have hgt : digitsVal vd < digitsVal ud := by
      calc digitsVal vd < DBASE ^ vd.length := hV
      _ ≤ DBASE ^ (ud.length - 1) := Nat.pow_le_pow_right DBASE_pos (by omega)
      _ ≤ digitsVal ud := pow_le_digitsVal ud hud.1 hud.2.1 hne
    have hsub : digitsVal ud - digitsVal vd < DBASE ^ ud.length := by omega
    rw [zz_normalize_padLE _ _ _ hsub] at hw
    injection hw with hw
    subst hw
    constructor
    · apply canon_mkN
      have := natToDigits_length_le _ _ hsub
      have := hud.2.2
      omega
    · simp only [ZZ_toInt_mk_natToDigits, ZZ_toInt_mk, digitsVal_natToDigits]
      have h0 : digitsVal ud - digitsVal vd ≠ 0 := by omega
      cases hn : negu <;> cases hm : negv <;> simp_all <;> push_cast <;> omega
  · -- equal lengths, |v| larger
    have hlv : digitsVal vd - digitsVal ud < DBASE ^ ud.length := by omega
    rw [zz_normalize_padLE _ _ _ hlv] at hw
    injection hw with hw
    subst hw
    constructor
    · apply canon_mkN
      have := natToDigits_length_le _ _ hlv
      have := hud.2.2
      omega
    · simp only [ZZ_toInt_mk_natToDigits, ZZ_toInt_mk, digitsVal_natToDigits]
      have h0 : digitsVal vd - digitsVal ud ≠ 0 := by omega
      cases hn : negu <;> cases hm : negv <;> simp_all <;> push_cast <;> omega
  · -- equal lengths, |u| larger
    have hsub : digitsVal ud - digitsVal vd < DBASE ^ ud.length := by omega
    rw [zz_normalize_padLE _ _ _ hsub] at hw
    injection hw with hw
    subst hw
    constructor
    · apply canon_mkN
      have := natToDigits_length_le _ _ hsub
      have := hud.2.2
      omega
    · simp only [ZZ_toInt_mk_natToDigits, ZZ_toInt_mk, digitsVal_natToDigits]
      have h0 : digitsVal ud - digitsVal vd ≠ 0 := by omega
      cases hn : negu <;> cases hm : negv <;> simp_all <;> push_cast <;> omega
  · -- equal magnitudes: canonical zero
    have hEq : digitsVal ud = digitsVal vd := by omega
    have hz : zz_normalize ⟨negu, ([] : List Nat)⟩ = ⟨false, []⟩ := rfl
    rw [hz] at hw
    injection hw with hw
    subst hw
    refine ⟨canon_zero, ?_⟩
    have h0 : ZZ.toInt ⟨false, []⟩ = 0 := by simp [ZZ.toInt, ZZ.toNat]
    rw [h0, ZZ_toInt_mk, ZZ_toInt_mk]
    cases hn : negu <;> cases hm : negv <;> simp_all <;> omega

theorem zz_addsubCore_isOk (negu negv : Bool) (ud vd : List Nat)
    (h : ¬(negu = negv ∧ ud.length = DIGITS_MAX)) :
    ∃ w, zz_addsubCore negu ud negv vd = .ok w := by
  by_cases hc : negu = negv ∧ ud.length = DIGITS_MAX
  · exact absurd hc h
  · unfold zz_addsubCore
    rw [if_neg hc]
    split_ifs <;> exact ⟨_, rfl⟩

theorem zz_addsub_spec (u v : ZZ) (su : Bool) (hu : u.Canon) (hv : v.Canon) :
    ∀ w, zz_addsub u v su = .ok w →
      w.Canon ∧ w.toInt = u.toInt + (if su then -v.toInt else v.toInt) := by
  intro w hw
  unfold zz_addsub at hw
  have hveff : ZZ.toInt ⟨if su then !v.negative else v.negative, v.digits⟩ =
      if su then -v.toInt else v.toInt := by
    cases su
    · rfl
    · simp only [if_true]
      exact toInt_mk_not v.negative v.digits
  have huEta : ZZ.toInt ⟨u.negative, u.digits⟩ = u.toInt := rfl
  by_cases hsw : u.digits.length < v.digits.length
  · rw [if_pos hsw] at hw
    obtain ⟨hc, hval⟩ :=
      zz_addsubCore_spec _ _ v.digits u.digits hv.1 hu.1 (le_of_lt hsw) w hw
    refine ⟨hc, ?_⟩
    rw [hval, hveff, huEta]
    ring
  · rw [if_neg hsw] at hw
    obtain ⟨hc, hval⟩ :=
      zz_addsubCore_spec _ _ u.digits v.digits hu.1 hv.1 (by omega) w hw
    exact ⟨hc, by rw [hval, hveff, huEta]⟩

theorem zz_addsub_isOk_of_lt (u v : ZZ) (su : Bool)
    (h1 : u.digits.length < DIGITS_MAX) (h2 : v.digits.length < DIGITS_MAX) :
    ∃ w, zz_addsub u v su = .ok w := by
  unfold zz_addsub
  by_cases hsw : u.digits.length < v.digits.length
  · rw [if_pos hsw]
    exact zz_addsubCore_isOk _ _ _ _ (by omega)
  · rw [if_neg hsw]
    exact zz_addsubCore_isOk _ _ _ _ (by omega)

theorem zz_addsub_isOk_of_ne (u v : ZZ) (su : Bool)
    (h : u.negative ≠ (if su then !v.negative else v.negative)) :
    ∃ w, zz_addsub u v su = .ok w := by
  unfold zz_addsub
  by_cases hsw : u.digits.length < v.digits.length
  · rw [if_pos hsw]
    exact zz_addsubCore_isOk _ _ _ _ (by tauto)
  · rw [if_neg hsw]
    exact zz_addsubCore_isOk _ _ _ _ (by tauto)

theorem singleton_eq_padLE (x : Nat) (h : x < DBASE) : [x] = padLE x 1 := by
  rw [padLE_succ, padLE_zero_len, Nat.mod_eq_of_lt h]

theorem zz_addsub_u64_spec (u : ZZ) (v : Nat) (su : Bool) (hu : goodDigits u.digits)
    (hv : v < DBASE) :
    ∀ w, zz_addsub_u64 u v su = .ok w →
      w.Canon ∧ w.toInt = u.toInt + (if su then -(v : Int) else (v : Int)) := by
  intro w hw
  unfold zz_addsub_u64 at hw
  have hU : digitsVal u.digits < DBASE ^ u.digits.length := digitsVal_lt _ hu.1
  by_cases hlen0 : u.digits.length = 0
  · -- u has no digits: the result is the immediate word
    rw [if_pos hlen0] at hw
    have hnil : u.digits = [] := List.length_eq_zero.mp hlen0
    have hz : u.toInt = 0 := by
      rw [ZZ.toInt, ZZ.toNat, hnil, digitsVal_nil]
      simp
    injection hw with hw
    subst hw
    by_cases hv0 : v = 0
    · have e1 : (if v ≠ 0 then su else false) = false := by simp [hv0]
      have e2 : (if v ≠ 0 then [v] else ([] : List Nat)) = [] := by simp [hv0]
      rw [e1, e2, hz]
      exact ⟨canon_zero, by cases su <;> simp [hv0, ZZ.toInt, ZZ.toNat]⟩
    · have e1 : (if v ≠ 0 then su else false) = su := by simp [hv0]
      have e2 : (if v ≠ 0 then [v] else ([] : List Nat)) = [v] := by simp [hv0]
      rw [e1, e2, hz]
      constructor
      · refine ⟨⟨?_, ?_, ?_⟩, by simp⟩
        · intro d hd
          simp only [List.mem_singleton] at hd
          omega
        · simp [normDigits_cons, normDigits_nil, hv0]
        · simpa using DIGITS_MAX_pos
      · rw [ZZ_toInt_mk]
        cases su <;> simp [digitsVal_cons, digitsVal_nil]
  · rw [if_neg hlen0] at hw
    by_cases hss : u.negative = su
    · by_cases hmax : u.digits.length = DIGITS_MAX
      · rw [if_pos ⟨hss, hmax⟩] at hw
        exact Except.noConfusion hw
      · rw [if_neg (by tauto), if_pos hss] at hw
        -- same effective signs: mpn_add_1
        have hsum : digitsVal u.digits + v < DBASE ^ (u.digits.length + 1) := by
          have h2B : 2 ≤ DBASE := by norm_num [DBASE]
          have hvp : v < DBASE ^ u.digits.length := by
            calc v < DBASE := hv
            _ = DBASE ^ 1 := (pow_one _).symm
            _ ≤ DBASE ^ u.digits.length := Nat.pow_le_pow_right DBASE_pos (by omega)
          calc digitsVal u.digits + v
              < DBASE ^ u.digits.length + DBASE ^ u.digits.length := by omega
          _ = 2 * DBASE ^ u.digits.length := by ring
          _ ≤ DBASE * DBASE ^ u.digits.length := Nat.mul_le_mul_right _ h2B
          _ = DBASE ^ (u.digits.length + 1) := by rw [pow_succ]; ring
        rw [zz_normalize_padLE _ _ _ hsum] at hw
        injection hw with hw
        subst hw
        constructor
        · apply canon_mkN
          have := natToDigits_length_le _ _ hsum
          have := hu.2.2
          omega
        · simp only [ZZ_toInt_mk_natToDigits, ZZ_toInt_mk, digitsVal_natToDigits]
          rw [ZZ.toInt, ZZ.toNat]
          subst hss
          by_cases h0 : digitsVal u.digits + v = 0 <;>
            cases hn : u.negative <;> simp_all <;> push_cast <;> omega
    · rw [if_neg (by tauto), if_neg hss] at hw
      by_cases hone : u.digits.length = 1
      · -- single digit, direct word compare
        rw [if_neg (by omega)] at hw
        obtain ⟨d, hd⟩ := List.length_eq_one.mp hone
        have hdB : d < DBASE := hu.1 d (by rw [hd]; exact List.mem_singleton.mpr rfl)
        rw [hd] at hw
        simp only [List.headI] at hw
        by_cases hlt : d < v
        · rw [if_pos hlt, singleton_eq_padLE (v - d) (by omega),
            zz_normalize_padLE _ _ _ (by rw [pow_one]; omega)] at hw
          injection hw with hw
          subst hw
          constructor
          · apply canon_mkN
            have h1d : v - d < DBASE ^ 1 := by rw [pow_one]; omega
            have := natToDigits_length_le _ _ h1d
            have := DIGITS_MAX_pos
            omega
          · simp only [ZZ_toInt_mk_natToDigits, ZZ_toInt_mk, digitsVal_natToDigits]
            rw [ZZ.toInt, ZZ.toNat, hd]
            simp only [digitsVal_cons, digitsVal_nil, Nat.mul_zero, Nat.add_zero]
            have h0 : ¬(v - d = 0) := by omega
            cases hn : u.negative <;> cases hm : su <;> simp_all <;> push_cast <;> omega
        · rw [if_neg hlt, singleton_eq_padLE (d - v) (by omega),
            zz_normalize_padLE _ _ _ (by rw [pow_one]; omega)] at hw
          injection hw with hw
          subst hw
          constructor
          · apply canon_mkN
            have h1d : d - v < DBASE ^ 1 := by rw [pow_one]; omega
            have := natToDigits_length_le _ _ h1d
            have := DIGITS_MAX_pos
            omega
          · simp only [ZZ_toInt_mk_natToDigits, ZZ_toInt_mk, digitsVal_natToDigits]
            rw [ZZ.toInt, ZZ.toNat, hd]
            simp only [digitsVal_cons, digitsVal_nil, Nat.mul_zero, Nat.add_zero]
            cases hn : u.negative <;> cases hm : su <;>
              by_cases h0 : d - v = 0 <;> simp_all <;> push_cast <;> omega
      · -- at least two digits: mpn_sub_1
        rw [if_pos (by omega)] at hw
        have hlen2 : 2 ≤ u.digits.length := by omega
        have hvU : v < digitsVal u.digits := by
          calc v < DBASE := hv
          _ = DBASE ^ 1 := (pow_one _).symm
          _ ≤ DBASE ^ (u.digits.length - 1) := Nat.pow_le_pow_right DBASE_pos (by omega)
          _ ≤ digitsVal u.digits :=
              pow_le_digitsVal _ hu.1 hu.2.1 (by
                intro hc
                rw [hc] at hlen2
                simp at hlen2)
        have hsub : digitsVal u.digits - v < DBASE ^ u.digits.length := by omega
        rw [zz_normalize_padLE _ _ _ hsub] at hw
        injection hw with hw
        subst hw
        constructor
        · apply canon_mkN
          have := natToDigits_length_le _ _ hsub
          have := hu.2.2
          omega
        · simp only [ZZ_toInt_mk_natToDigits, ZZ_toInt_mk, digitsVal_natToDigits]
          rw [ZZ.toInt, ZZ.toNat]
          have h0 : digitsVal u.digits - v ≠ 0 := by omega
          cases hn : u.negative <;> cases hm : su <;> simp_all <;> push_cast <;> omega

theorem zz_addsub_u64_isOk (u : ZZ) (v : Nat) (su : Bool)
    (h : u.digits.length ≠ DIGITS_MAX) : ∃ w, zz_addsub_u64 u v su = .ok w := by
  unfold zz_addsub_u64
  by_cases hlen0 : u.digits.length = 0
  · rw [if_pos hlen0]
    exact ⟨_, rfl⟩
  · rw [if_neg hlen0, if_neg (by tauto)]
    split_ifs <;> exact ⟨_, rfl⟩

theorem zz_addsub_i64_spec (u : ZZ) (x : Int) (su : Bool) (hu : goodDigits u.digits)
    (hx : x.natAbs < DBASE) :
    ∀ w, zz_addsub_i64 u x su = .ok w →
      w.Canon ∧ w.toInt = u.toInt + (if su then -x else x) := by
  intro w hw
  unfold zz_addsub_i64 at hw
  obtain ⟨hc, hval⟩ := zz_addsub_u64_spec u x.natAbs _ hu hx w hw
  refine ⟨hc, ?_⟩
  rw [hval]
  congr 1
  cases su
  · show (if decide (x < 0) = true then -(x.natAbs : Int) else (x.natAbs : Int)) = x
    by_cases hx0 : x < 0
    · rw [if_pos (decide_eq_true hx0)]
      omega
    · rw [if_neg (by simpa using hx0)]
      omega
  · show (if decide (0 ≤ x) = true then -(x.natAbs : Int) else (x.natAbs : Int)) = -x
    by_cases hx0 : 0 ≤ x
    · rw [if_pos (decide_eq_true hx0)]
      omega
    · rw [if_neg (by simpa using hx0)]
      omega

theorem zz_addsub_i64_isOk (u : ZZ) (x : Int) (su : Bool)
    (h : u.digits.length ≠ DIGITS_MAX) : ∃ w, zz_addsub_i64 u x su = .ok w := by
  unfold zz_addsub_i64
  exact zz_addsub_u64_isOk _ _ _ h

/-! ## `zz_mul` correctness -/

theorem zz_mul_u64_spec (u : ZZ) (v : Nat) (hu : u.Canon) (hv : v < DBASE) :
    ∀ w, zz_mul_u64 u v = .ok w →
      w.Canon ∧ w.toNat = u.toNat * v ∧
        w.negative = (if u.toNat * v = 0 then false else u.negative) := by
  intro w hw
  unfold zz_mul_u64 at hw
  by_cases h0 : u.digits.length = 0 ∨ v = 0
  · rw [if_pos h0] at hw
    injection hw with hw
    subst hw
    have hz : u.toNat * v = 0 := by
      rcases h0 with h | h
      · rw [ZZ.toNat, List.length_eq_zero.mp h, digitsVal_nil, Nat.zero_mul]
      · rw [h, Nat.mul_zero]
    refine ⟨zz_set_i64_canon 0 (by norm_num [DBASE]), ?_, ?_⟩
    · rw [hz]
      rfl
    · rw [hz, if_pos rfl]
      rfl
  · rw [if_neg h0] at hw
    push_neg at h0
    have hune : u.digits ≠ [] := by
      intro hc
      exact h0.1 (by rw [hc]; rfl)
    have hUpos : 0 < u.toNat := digitsVal_pos _ hu.1.1 hu.1.2.1 hune
    have hP : 0 < u.toNat * v := Nat.mul_pos hUpos (Nat.pos_of_ne_zero h0.2)
    by_cases hmax : u.digits.length = DIGITS_MAX
    · rw [if_pos (by simpa using hmax)] at hw
      exact Except.noConfusion hw
    · rw [if_neg (by simpa using hmax)] at hw
      have hNat : digitsVal u.digits = u.toNat := rfl
      rw [hNat] at hw
      have hU : u.toNat < DBASE ^ u.digits.length := canon_toNat_lt u hu
      have h1 : u.toNat * v < DBASE ^ (u.digits.length + 1) := by
        calc u.toNat * v < DBASE ^ u.digits.length * DBASE :=
              mul_lt_mul'' hU hv (Nat.zero_le _) (Nat.zero_le _)
        _ = DBASE ^ (u.digits.length + 1) := (pow_succ _ _).symm
      have h2 : DBASE ^ (u.digits.length + 1) ≤ u.toNat * v * DBASE * DBASE := by
        have hlow : DBASE ^ (u.digits.length - 1) ≤ u.toNat :=
          canon_pow_le_toNat u hu hune
        have hlen1 : 1 ≤ u.digits.length := List.length_pos.mpr hune
        have hsplit : DBASE ^ (u.digits.length + 1) =
            DBASE ^ (u.digits.length - 1) * DBASE * DBASE := by
          rw [show DBASE ^ (u.digits.length - 1) * DBASE * DBASE =
              DBASE ^ (u.digits.length - 1) * DBASE ^ 2 by ring, ← pow_add]
          congr 1
          omega
        rw [hsplit]
        have hlv : u.toNat ≤ u.toNat * v := Nat.le_mul_of_pos_right _ (by omega)
        have : DBASE ^ (u.digits.length - 1) ≤ u.toNat * v := le_trans hlow hlv
        exact Nat.mul_le_mul_right _ (Nat.mul_le_mul_right _ this)
      rw [dropTopZero_padLE _ _ hP h1 h2] at hw
      injection hw with hw
      subst hw
      have hlen : (natToDigits (u.toNat * v)).length ≤ DIGITS_MAX := by
        have := natToDigits_length_le _ _ h1
        have := hu.1.2.2
        omega
      refine ⟨⟨⟨natToDigits_mem_lt _, normDigits_natToDigits _, hlen⟩, ?_⟩, ?_, ?_⟩
      · intro hc
        rw [natToDigits_eq_nil_iff] at hc
        omega
      · rw [ZZ_toNat_mk, digitsVal_natToDigits]
      · rw [if_neg (by omega)]

theorem zz_mul_u64_isOk (u : ZZ) (v : Nat) (h : u.digits.length ≠ DIGITS_MAX) :
    ∃ w, zz_mul_u64 u v = .ok w := by
  unfold zz_mul_u64
  by_cases h0 : u.digits.length = 0 ∨ v = 0
  · rw [if_pos h0]
    exact ⟨_, rfl⟩
  · rw [if_neg h0, if_neg (by simpa using h)]
    exact ⟨_, rfl⟩

theorem zz_mulCore_spec (u v : ZZ) (hu : u.Canon) (hv : v.Canon)
    (hlen : v.digits.length ≤ u.digits.length) :
    ∀ w, zz_mulCore u v = .ok w → w.Canon ∧ w.toInt = u.toInt * v.toInt := by
  intro w hw
  unfold zz_mulCore at hw
  by_cases hsmall : v.digits.length ≤ 1
  · rw [if_pos hsmall] at hw
    rcases hm : zz_mul_u64 u v.digits.headI with e | w0
    · rw [hm] at hw
      exact Except.noConfusion hw
    · rw [hm] at hw
      have hvd : v.digits.headI < DBASE := by
        rcases hd : v.digits with _ | ⟨d, t⟩
        · simpa [List.headI] using DBASE_pos
        · have : d < DBASE := hv.1.1 d (by rw [hd]; exact List.mem_cons_self _ _)
          simpa [List.headI] using this
      have hvN : v.toNat = v.digits.headI := by
        rcases hd : v.digits with _ | ⟨d, t⟩
        · simp [ZZ.toNat, hd]
        · have ht : t = [] := by
            rw [hd] at hsmall
            simp only [List.length_cons] at hsmall
            exact List.length_eq_zero.mp (by omega)
          subst ht
          simp [ZZ.toNat, hd, digitsVal_cons]
      obtain ⟨hw0c, hw0n, hw0s⟩ := zz_mul_u64_spec u v.digits.headI hu hvd w0 hm
      injection hw with hw
      subst hw
      have hzero : (w0.digits = []) ↔ u.toNat * v.digits.headI = 0 := by
        constructor
        · intro hc
          rw [← hw0n, ZZ.toNat, hc, digitsVal_nil]
        · intro hc
          have hz0 : w0.toNat = 0 := by rw [hw0n, hc]
          rw [canon_digits_eq w0 hw0c, hz0, natToDigits_zero]
      by_cases hz : u.toNat * v.digits.headI = 0
      · rw [if_neg (by rw [hzero.mpr hz]; simp)]
        have hw0z : w0.toInt = 0 := by
          rw [ZZ.toInt, hw0n, hz]
          simp
        have hmulz : u.toInt * v.toInt = 0 := by
          have habs : (u.toInt * v.toInt).natAbs = 0 := by
            rw [Int.natAbs_mul, toInt_natAbs, toInt_natAbs, hvN]
            exact hz
          exact Int.natAbs_eq_zero.mp habs
        exact ⟨hw0c, by rw [hw0z, hmulz]⟩
      · rw [if_pos (fun hc0 => hz (hzero.mp (List.length_eq_zero.mp hc0)))]
        constructor
        · exact ⟨hw0c.1, fun hc => absurd (hzero.mp hc) hz⟩
        · rw [ZZ_toInt_mk]
          have hdV : digitsVal w0.digits = u.toNat * v.toNat := by
            have h1 : digitsVal w0.digits = u.toNat * v.digits.headI := hw0n
            rw [h1, hvN]
          rw [hdV, ZZ.toInt, ZZ.toInt]
          cases hun : u.negative <;> cases hvn : v.negative <;>
            simp <;> push_cast <;> ring
  · rw [if_neg hsmall] at hw
    by_cases hbuf : u.digits.length + v.digits.length > DIGITS_MAX
    · rw [if_pos hbuf] at hw
      exact Except.noConfusion hw
    · rw [if_neg hbuf] at hw
      have hune : u.digits ≠ [] := by
        intro hc
        rw [hc] at hlen
        simp only [List.length_nil, Nat.le_zero] at hlen
        omega
      have hvne : v.digits ≠ [] := by
        intro hc
        rw [hc] at hsmall
        simp at hsmall
      have hNa : digitsVal u.digits = u.toNat := rfl
      have hNb : digitsVal v.digits = v.toNat := rfl
      rw [hNa, hNb] at hw
      have hUpos : 0 < u.toNat := digitsVal_pos _ hu.1.1 hu.1.2.1 hune
      have hVpos : 0 < v.toNat := digitsVal_pos _ hv.1.1 hv.1.2.1 hvne
      have hP : 0 < u.toNat * v.toNat := Nat.mul_pos hUpos hVpos
      have h1u : 1 ≤ u.digits.length := List.length_pos.mpr hune
      have h1v : 1 ≤ v.digits.length := List.length_pos.mpr hvne
      have h1 : u.toNat * v.toNat < DBASE ^ (u.digits.length + v.digits.length) := by
        calc u.toNat * v.toNat
            < DBASE ^ u.digits.length * DBASE ^ v.digits.length :=
              mul_lt_mul'' (canon_toNat_lt u hu) (canon_toNat_lt v hv)
                (Nat.zero_le _) (Nat.zero_le _)
        _ = DBASE ^ (u.digits.length + v.digits.length) := (pow_add _ _ _).symm
      have h2 : DBASE ^ (u.digits.length + v.digits.length) ≤
          u.toNat * v.toNat * DBASE * DBASE := by
        have hlu : DBASE ^ (u.digits.length - 1) ≤ u.toNat := canon_pow_le_toNat u hu hune
        have hlv : DBASE ^ (v.digits.length - 1) ≤ v.toNat := canon_pow_le_toNat v hv hvne
        have hsplit : DBASE ^ (u.digits.length + v.digits.length) =
            DBASE ^ (u.digits.length - 1) * DBASE ^ (v.digits.length - 1) *
              DBASE * DBASE := by
          rw [show DBASE ^ (u.digits.length - 1) * DBASE ^ (v.digits.length - 1) *
              DBASE * DBASE =
              DBASE ^ (u.digits.length - 1) * DBASE ^ (v.digits.length - 1) *
                DBASE ^ 2 by ring, ← pow_add, ← pow_add]
          congr 1
          omega
        rw [hsplit]
        exact Nat.mul_le_mul_right _ (Nat.mul_le_mul_right _ (Nat.mul_le_mul hlu hlv))
      have hup : u.digits.length + v.digits.length =
          (u.digits.length + v.digits.length - 1) + 1 := by omega
      rw [hup] at hw
      rw [dropTopZero_padLE _ _ hP (by rw [← hup]; exact h1)
        (by rw [← hup]; exact h2)] at hw
      injection hw with hw
      subst hw
      constructor
      · refine ⟨⟨natToDigits_mem_lt _, normDigits_natToDigits _, ?_⟩, ?_⟩
        · show (natToDigits (u.toNat * v.toNat)).length ≤ DIGITS_MAX
          have := natToDigits_length_le _ _ h1
          omega
        · intro hc
          rw [natToDigits_eq_nil_iff] at hc
          omega
      · rw [ZZ_toInt_mk_natToDigits, ZZ.toInt, ZZ.toInt]
        cases hun : u.negative <;> cases hvn : v.negative <;>
          simp <;> push_cast <;> ring

theorem zz_mul_spec (u v : ZZ) (hu : u.Canon) (hv : v.Canon) :
    ∀ w, zz_mul u v = .ok w → w.Canon ∧ w.toInt = u.toInt * v.toInt := by
  intro w hw
  unfold zz_mul at hw
  by_cases hsw : u.digits.length < v.digits.length
  · rw [if_pos hsw] at hw
    obtain ⟨hc, hval⟩ := zz_mulCore_spec v u hv hu (le_of_lt hsw) w hw
    exact ⟨hc, by rw [hval]; ring⟩
  · rw [if_neg hsw] at hw
    exact zz_mulCore_spec u v hu hv (by omega) w hw

theorem zz_mul_isOk (u v : ZZ)
    (h : u.digits.length + v.digits.length < DIGITS_MAX) :
    ∃ w, zz_mul u v = .ok w := by
  have hgen : ∀ a b : ZZ, b.digits.length ≤ a.digits.length →
      a.digits.length + b.digits.length < DIGITS_MAX → ∃ w, zz_mulCore a b = .ok w := by
    intro a b hab hsz
    unfold zz_mulCore
    by_cases hsmall : b.digits.length ≤ 1
    · rw [if_pos hsmall]
      obtain ⟨w0, hw0⟩ := zz_mul_u64_isOk a b.digits.headI (by omega)
      rw [hw0]
      exact ⟨_, rfl⟩
    · rw [if_neg hsmall, if_neg (by omega)]
      exact ⟨_, rfl⟩
  unfold zz_mul
  by_cases hsw : u.digits.length < v.digits.length
  · rw [if_pos hsw]
    exact hgen v u (by omega) (by omega)
  · rw [if_neg hsw]
    exact hgen u v (by omega) (by omega)

/-! ## `zz_div` correctness -/

theorem dropTopZero_length_le (l : List Nat) : (dropTopZero l).length ≤ l.length := by
  unfold dropTopZero
  split_ifs
  · simpa using List.length_dropLast l
  · exact le_refl _

theorem dropTopZero_padLE_zero_one : dropTopZero (padLE 0 1) = [] := by
  simp [padLE, dropTopZero]

theorem canon_mk_any (b : Bool) (n : Nat)
    (hlen : (natToDigits n).length ≤ DIGITS_MAX) (hz : n = 0 → b = false) :
    ZZ.Canon ⟨b, natToDigits n⟩ := by
  refine ⟨⟨natToDigits_mem_lt n, normDigits_natToDigits n, hlen⟩, ?_⟩
  intro hnil
  exact hz (natToDigits_eq_nil_iff n |>.mp hnil)

theorem bool_eq_false_of_not_true {b : Bool} (h : ¬ b = true) : b = false := by
  cases b
  · rfl
  · exact absurd rfl h

theorem zz_div_spec (u v : ZZ) (hu : u.Canon) (hv : v.Canon) :
    ∀ q r, zz_div u v = .ok (q, r) →
      q.Canon ∧ r.Canon ∧
      q.toInt * v.toInt + r.toInt = u.toInt ∧
      (r.toInt = 0 ∨ (0 < v.toInt ∧ 0 ≤ r.toInt ∧ r.toInt < v.toInt) ∨
        (v.toInt < 0 ∧ v.toInt < r.toInt ∧ r.toInt ≤ 0)) := by
  intro q r hw
  unfold zz_div at hw
  by_cases hv0 : v.digits.length = 0
  · rw [if_pos hv0] at hw
    exact Except.noConfusion hw
  rw [if_neg hv0] at hw
  have hvne : v.digits ≠ [] := fun hc => hv0 (by rw [hc]; rfl)
  have hVpos : 0 < v.toNat := digitsVal_pos _ hv.1.1 hv.1.2.1 hvne
  by_cases hu0 : u.digits.length = 0
  · -- zero dividend
    rw [if_pos hu0] at hw
    injection hw with hw
    rw [Prod.mk.injEq] at hw
    obtain ⟨rfl, rfl⟩ := hw
    have huz : u.toInt = 0 := by
      rw [ZZ.toInt, ZZ.toNat, List.length_eq_zero.mp hu0, digitsVal_nil]
      simp
    refine ⟨zz_set_i64_canon 0 (by norm_num [DBASE]),
      zz_set_i64_canon 0 (by norm_num [DBASE]), ?_, ?_⟩
    · simp [huz, zz_set_i64_toInt]
    · left
      rfl
  rw [if_neg hu0] at hw
  have hune : u.digits ≠ [] := fun hc => hu0 (by rw [hc]; rfl)
  have hUpos : 0 < u.toNat := digitsVal_pos _ hu.1.1 hu.1.2.1 hune
  by_cases hlt : u.digits.length < v.digits.length
  · -- short dividend
    rw [if_pos hlt] at hw
    have hUV : u.toNat < v.toNat := canon_lt_of_length_lt u v hu hv hlt
    by_cases hsgn : u.negative ≠ v.negative
    · rw [if_pos hsgn] at hw
      rcases ha : zz_add u v with e | r0
      · rw [ha] at hw
        exact Except.noConfusion hw
      · rw [ha] at hw
        injection hw with hw
        rw [Prod.mk.injEq] at hw
        obtain ⟨rfl, rfl⟩ := hw
        obtain ⟨hr0c, hr0v⟩ := zz_addsub_spec u v false hu hv r0 ha
        simp only [Bool.false_eq_true, if_false] at hr0v
        refine ⟨zz_set_i64_canon (-1) (by norm_num [DBASE]), hr0c, ?_, ?_⟩
        · rw [zz_set_i64_toInt, hr0v]
          ring
        · rw [hr0v, ZZ.toInt, ZZ.toInt]
          cases hun : u.negative <;> cases hvn : v.negative <;> simp_all <;> omega
    · rw [if_neg hsgn] at hw
      injection hw with hw
      rw [Prod.mk.injEq] at hw
      obtain ⟨rfl, rfl⟩ := hw
      rw [zz_pos_eq u hu]
      refine ⟨zz_set_i64_canon 0 (by norm_num [DBASE]), hu, ?_, ?_⟩
      · rw [zz_set_i64_toInt]
        ring
      · rw [ZZ.toInt, ZZ.toInt]
        cases hun : u.negative <;> cases hvn : v.negative <;> simp_all <;> omega
  · -- main path: mpn_tdiv_qr
    rw [if_neg hlt] at hw
    have hNa : digitsVal u.digits = u.toNat := rfl
    have hNb : digitsVal v.digits = v.toNat := rfl
    rw [hNa, hNb] at hw
    have hV : v.toNat < DBASE ^ v.digits.length := canon_toNat_lt v hv
    have hU : u.toNat < DBASE ^ u.digits.length := canon_toNat_lt u hu
    have hUlow : DBASE ^ (u.digits.length - 1) ≤ u.toNat := canon_pow_le_toNat u hu hune
    have hVlow : DBASE ^ (v.digits.length - 1) ≤ v.toNat := canon_pow_le_toNat v hv hvne
    have hRV : u.toNat % v.toNat < v.toNat := Nat.mod_lt _ hVpos
    have hUQR : u.toNat = v.toNat * (u.toNat / v.toNat) + u.toNat % v.toNat :=
      (Nat.div_add_mod _ _).symm
    have hUeq : (u.toNat : Int) =
        (v.toNat : Int) * (((u.toNat / v.toNat : Nat)) : Int) +
          (((u.toNat % v.toNat : Nat)) : Int) := by
      exact_mod_cast hUQR
    have hq0d : dropTopZero (padLE (u.toNat / v.toNat)
        (u.digits.length - v.digits.length + 1)) = natToDigits (u.toNat / v.toNat) := by
      by_cases hQ0 : u.toNat / v.toNat = 0
      · have hUltV : u.toNat < v.toNat := by
          by_contra hcon
          push_neg at hcon
          have := Nat.one_le_div_iff hVpos |>.mpr hcon
          omega
        have heq : u.digits.length = v.digits.length := by
          by_contra hcon
          have hl : v.digits.length < u.digits.length := by omega
          have : v.toNat < u.toNat := canon_lt_of_length_lt v u hv hu hl
          omega
        rw [hQ0, heq]
        rw [show v.digits.length - v.digits.length + 1 = 1 by omega]
        rw [dropTopZero_padLE_zero_one, natToDigits_zero]
      · have hQpos : 0 < u.toNat / v.toNat := Nat.pos_of_ne_zero hQ0
        have h1 : u.toNat / v.toNat <
            DBASE ^ (u.digits.length - v.digits.length + 1) := by
          rw [Nat.div_lt_iff_lt_mul hVpos]
          calc u.toNat < DBASE ^ u.digits.length := hU
          _ ≤ DBASE ^ (u.digits.length - v.digits.length + 1) *
                DBASE ^ (v.digits.length - 1) := by
              rw [← pow_add]
              apply Nat.pow_le_pow_right DBASE_pos
              have h1v : 1 ≤ v.digits.length := List.length_pos.mpr hvne
              omega
          _ ≤ DBASE ^ (u.digits.length - v.digits.length + 1) * v.toNat :=
              Nat.mul_le_mul_left _ hVlow
        have hup : u.toNat < (u.toNat / v.toNat + 1) * v.toNat := by
          calc u.toNat = v.toNat * (u.toNat / v.toNat) + u.toNat % v.toNat := hUQR
          _ < v.toNat * (u.toNat / v.toNat) + v.toNat := by omega
          _ = (u.toNat / v.toNat + 1) * v.toNat := by ring
        have h2 : DBASE ^ (u.digits.length - v.digits.length + 1) ≤
            u.toNat / v.toNat * DBASE * DBASE := by
          by_cases hsm : u.digits.length ≤ v.digits.length + 1
          · have hle2 : u.digits.length - v.digits.length + 1 ≤ 2 := by omega
            calc DBASE ^ (u.digits.length - v.digits.length + 1) ≤ DBASE ^ 2 :=
                  Nat.pow_le_pow_right DBASE_pos hle2
            _ = 1 * (DBASE * DBASE) := by ring
            _ ≤ u.toNat / v.toNat * (DBASE * DBASE) :=
                Nat.mul_le_mul_right _ hQpos
            _ = u.toNat / v.toNat * DBASE * DBASE := by ring
          · push_neg at hsm
            have hkey : DBASE ^ (u.digits.length - 1 - v.digits.length) ≤
                u.toNat / v.toNat := by
              by_contra hcon
              push_neg at hcon
              have h3 : u.toNat / v.toNat + 1 ≤
                  DBASE ^ (u.digits.length - 1 - v.digits.length) := by omega
              have h4 : (u.toNat / v.toNat + 1) * v.toNat ≤
                  DBASE ^ (u.digits.length - 1 - v.digits.length) * DBASE ^ v.digits.length :=
                Nat.mul_le_mul h3 (le_of_lt hV)
              have h5 : DBASE ^ (u.digits.length - 1 - v.digits.length) *
                  DBASE ^ v.digits.length = DBASE ^ (u.digits.length - 1) := by
                rw [← pow_add]
                congr 1
                omega
              rw [h5] at h4
              omega
            calc DBASE ^ (u.digits.length - v.digits.length + 1)
                = DBASE ^ (u.digits.length - 1 - v.digits.length) * DBASE * DBASE := by
                  rw [show DBASE ^ (u.digits.length - 1 - v.digits.length) *
                      DBASE * DBASE =
                      DBASE ^ (u.digits.length - 1 - v.digits.length) * DBASE ^ 2 by
                    ring, ← pow_add]
                  congr 1
                  omega
            _ ≤ u.toNat / v.toNat * DBASE * DBASE :=
                Nat.mul_le_mul_right _ (Nat.mul_le_mul_right _ hkey)
        exact dropTopZero_padLE _ _ hQpos h1 h2
    have hRB : u.toNat % v.toNat < DBASE ^ v.digits.length := lt_trans hRV hV
    rw [hq0d, zz_normalize_padLE _ _ _ hRB] at hw
    have hQlen : (natToDigits (u.toNat / v.toNat)).length ≤ DIGITS_MAX := by
      have hd : u.toNat / v.toNat < DBASE ^ u.digits.length := by
        calc u.toNat / v.toNat ≤ u.toNat := Nat.div_le_self _ _
        _ < DBASE ^ u.digits.length := hU
      have hl1 := natToDigits_length_le _ _ hd
      have hl2 := hu.1.2.2
      omega
    have hRlen : (natToDigits (u.toNat % v.toNat)).length ≤ DIGITS_MAX := by
      have hl1 := natToDigits_length_le _ _ hRB
      have hl2 := hv.1.2.2
      omega
    have hdig : ZZ.digits ⟨if u.toNat % v.toNat = 0 then false else v.negative,
        natToDigits (u.toNat % v.toNat)⟩ = natToDigits (u.toNat % v.toNat) := rfl
    simp only [hdig] at hw
    by_cases hbr : (u.negative != v.negative) = true ∧
        (natToDigits (u.toNat % v.toNat)).length ≠ 0
    · -- q0 < 0 and remainder nonzero: quotient decremented, remainder flipped
      rw [if_pos hbr] at hw
      have hR0 : u.toNat % v.toNat ≠ 0 := by
        intro hc
        apply hbr.2
        rw [hc, natToDigits_zero]
        rfl
      have hgdq : goodDigits (ZZ.digits ⟨u.negative != v.negative,
          natToDigits (u.toNat / v.toNat)⟩) :=
        ⟨natToDigits_mem_lt _, normDigits_natToDigits _, hQlen⟩
      rcases hs : zz_sub_i64 ⟨u.negative != v.negative,
          natToDigits (u.toNat / v.toNat)⟩ 1 with e | q1
      · rw [hs] at hw
        exact Except.noConfusion hw
      · rw [hs] at hw
        injection hw with hw
        rw [Prod.mk.injEq] at hw
        obtain ⟨rfl, rfl⟩ := hw
        obtain ⟨hq1c, hq1v⟩ := zz_addsub_i64_spec _ 1 true hgdq
          (by norm_num [DBASE]) q1 hs
        have hq0v : ZZ.toInt ⟨u.negative != v.negative,
            natToDigits (u.toNat / v.toNat)⟩ =
            -(((u.toNat / v.toNat : Nat)) : Int) := by
          rw [ZZ_toInt_mk_natToDigits, if_pos hbr.1]
        rw [hq0v] at hq1v
        simp only [if_true] at hq1v
        have hcast : (((v.toNat - u.toNat % v.toNat : Nat)) : Int) =
            (v.toNat : Int) - ((u.toNat % v.toNat : Nat) : Int) :=
          Nat.cast_sub (le_of_lt hRV)
        have hsubB : v.toNat - u.toNat % v.toNat < DBASE ^ v.digits.length := by omega
        rw [zz_normalize_padLE _ _ _ hsubB]
        have hsgn : u.negative ≠ v.negative := by
          have hb := hbr.1
          simpa using hb
        refine ⟨hq1c, canon_mkN _ _ (by
          have hl1 := natToDigits_length_le _ _ hsubB
          have hl2 := hv.1.2.2
          omega), ?_, ?_⟩
        · have hsgnR : (if v.toNat - u.toNat % v.toNat = 0 then false else v.negative)
              = v.negative := if_neg (by omega)
          rw [hq1v, hsgnR, ZZ_toInt_mk_natToDigits, ZZ.toInt, ZZ.toInt]
          by_cases hvn : v.negative = true
          · have hun : u.negative = false := by
              cases hb : u.negative
              · rfl
              · exact absurd (hb.trans hvn.symm) hsgn
            simp only [hun, hvn, Bool.false_eq_true, if_false, if_true]
            linarith [hUeq, hcast]
          · have hvn2 : v.negative = false := bool_eq_false_of_not_true hvn
            have hun : u.negative = true := by
              cases hb : u.negative
              · exact absurd (hb.trans hvn2.symm) hsgn
              · rfl
            simp only [hun, hvn2, Bool.false_eq_true, if_false, if_true]
            linarith [hUeq, hcast]
        · have hsgnR : (if v.toNat - u.toNat % v.toNat = 0 then false else v.negative)
              = v.negative := if_neg (by omega)
          rw [hsgnR, ZZ_toInt_mk_natToDigits, ZZ.toInt]
          by_cases hvn : v.negative = true
          · simp only [hvn, if_true]
            omega
          · have hvn2 : v.negative = false := bool_eq_false_of_not_true hvn
            simp only [hvn2, Bool.false_eq_true, if_false]
            omega
    · -- no adjustment needed
      rw [if_neg hbr] at hw
      injection hw with hw
      rw [Prod.mk.injEq] at hw
      obtain ⟨rfl, rfl⟩ := hw
      have hcq : ZZ.Canon ⟨u.negative != v.negative,
          natToDigits (u.toNat / v.toNat)⟩ := by
        apply canon_mk_any _ _ hQlen
        intro hq0
        by_cases hbne : (u.negative != v.negative) = true
        · have hR0 : u.toNat % v.toNat = 0 := by
            by_contra hR
            apply hbr
            refine ⟨hbne, ?_⟩
            intro hc
            apply hR
            have hnil : natToDigits (u.toNat % v.toNat) = [] :=
              List.length_eq_zero.mp hc
            exact (natToDigits_eq_nil_iff _).mp hnil
          exfalso
          rw [hq0, hR0, Nat.mul_zero, Nat.add_zero] at hUQR
          omega
        · simpa using hbne
      refine ⟨hcq, canon_mkN _ _ hRlen, ?_, ?_⟩
      · rw [ZZ_toInt_mk_natToDigits, ZZ_toInt_mk_natToDigits,
          ZZ.toInt, ZZ.toInt]
        by_cases hR : u.toNat % v.toNat = 0
        · have hRz : (((u.toNat % v.toNat : Nat)) : Int) = 0 := by
            rw [hR]
            rfl
          rw [if_pos hR]
          simp only [Bool.false_eq_true, if_false, hRz, add_zero]
          by_cases hb : (u.negative != v.negative) = true
          · have hne : u.negative ≠ v.negative := bne_iff_ne.mp hb
            simp only [if_pos hb]
            by_cases hvn : v.negative = true
            · have hun : u.negative = false := by
                cases hb2 : u.negative
                · rfl
                · exact absurd (hb2.trans hvn.symm) hne
              simp only [hun, hvn, Bool.false_eq_true, if_false, if_true]
              linarith [hUeq, hRz]
            · have hvn2 : v.negative = false := bool_eq_false_of_not_true hvn
              have hun : u.negative = true := by
                cases hb2 : u.negative
                · exact absurd (hb2.trans hvn2.symm) hne
                · rfl
              simp only [hun, hvn2, Bool.false_eq_true, if_false, if_true]
              linarith [hUeq, hRz]
          · have heqn : u.negative = v.negative := by
              rw [bne_iff_ne] at hb
              exact not_ne_iff.mp hb
            simp only [if_neg hb]
            by_cases hvn : v.negative = true
            · have hun : u.negative = true := heqn.trans hvn
              simp only [hun, hvn, if_true]
              linarith [hUeq, hRz]
            · have hvn2 : v.negative = false := bool_eq_false_of_not_true hvn
              have hun : u.negative = false := heqn.trans hvn2
              simp only [hun, hvn2, Bool.false_eq_true, if_false]
              linarith [hUeq, hRz]
        · have hss : u.negative = v.negative := by
            by_contra hcon
            apply hbr
            refine ⟨by simpa using hcon, ?_⟩
            intro hc
            apply hR
            have hnil : natToDigits (u.toNat % v.toNat) = [] :=
              List.length_eq_zero.mp hc
            exact (natToDigits_eq_nil_iff _).mp hnil
          rw [if_neg hR, hss]
          simp only [bne_self_eq_false, Bool.false_eq_true, if_false]
          by_cases hvn : v.negative = true
          · simp only [hvn, if_true]
            linarith [hUeq]
          · have hvn2 : v.negative = false := bool_eq_false_of_not_true hvn
            simp only [hvn2, Bool.false_eq_true, if_false]
            linarith [hUeq]
      · rw [ZZ_toInt_mk_natToDigits, ZZ.toInt]
        by_cases hR : u.toNat % v.toNat = 0
        · left
          simp [hR]
        · rw [if_neg hR]
          right
          by_cases hvn : v.negative = true
          · simp only [hvn, if_true]
            omega
          · have hvn2 : v.negative = false := bool_eq_false_of_not_true hvn
            simp only [hvn2, Bool.false_eq_true, if_false]
            omega

theorem zz_div_isOk (u v : ZZ) (hvne : v.digits ≠ [])
    (hsz : u.digits.length < DIGITS_MAX) :
    ∃ q r, zz_div u v = .ok (q, r) := by
  unfold zz_div
  rw [if_neg (by simpa [List.length_eq_zero] using hvne)]
  by_cases hu0 : u.digits.length = 0
  · rw [if_pos hu0]
    exact ⟨_, _, rfl⟩
  rw [if_neg hu0]
  by_cases hlt : u.digits.length < v.digits.length
  · rw [if_pos hlt]
    by_cases hsgn : u.negative ≠ v.negative
    · rw [if_pos hsgn]
      obtain ⟨r0, hr0⟩ := zz_addsub_isOk_of_ne u v false (by simpa using hsgn)
      rw [show zz_add u v = zz_addsub u v false from rfl, hr0]
      exact ⟨_, _, rfl⟩
    · rw [if_neg hsgn]
      exact ⟨_, _, rfl⟩
  · rw [if_neg hlt]
    have hqlen : (ZZ.digits ⟨u.negative != v.negative,
        dropTopZero (padLE (digitsVal u.digits / digitsVal v.digits)
          (u.digits.length - v.digits.length + 1))⟩).length ≠ DIGITS_MAX := by
      have h1 := dropTopZero_length_le (padLE (digitsVal u.digits / digitsVal v.digits)
        (u.digits.length - v.digits.length + 1))
      rw [padLE_length] at h1
      have h1v : 1 ≤ v.digits.length := List.length_pos.mpr hvne
      simp only [ZZ.digits]
      omega
    obtain ⟨q1, hq1⟩ := zz_addsub_i64_isOk ⟨u.negative != v.negative,
      dropTopZero (padLE (digitsVal u.digits / digitsVal v.digits)
        (u.digits.length - v.digits.length + 1))⟩ 1 true hqlen
    split_ifs
    · rw [show (zz_sub_i64 ⟨u.negative != v.negative,
        dropTopZero (padLE (digitsVal u.digits / digitsVal v.digits)
          (u.digits.length - v.digits.length + 1))⟩ 1 : Except zzErr ZZ) =
        zz_addsub_i64 ⟨u.negative != v.negative,
        dropTopZero (padLE (digitsVal u.digits / digitsVal v.digits)
          (u.digits.length - v.digits.length + 1))⟩ 1 true from rfl, hq1]
      exact ⟨_, _, rfl⟩
    · exact ⟨_, _, rfl⟩

/-! ## `zz_quo_2exp` correctness -/

theorem digitsVal_take_drop (l : List Nat) (m : Nat) (hm : m ≤ l.length) :
    digitsVal l = digitsVal (l.take m) + DBASE ^ m * digitsVal (l.drop m) := by
  conv_lhs => rw [← List.take_append_drop m l]
  rw [digitsVal_append, List.length_take, Nat.min_eq_left hm]

theorem digitsVal_lt_of_not_allMax (l : List Nat) (hb : ∀ d ∈ l, d < DBASE)
    (h : ¬ (l.all fun d => d == DIGIT_MAX) = true) :
    digitsVal l < DBASE ^ l.length - 1 := by
  induction l with
  | nil => exact absurd rfl h
  | cons d t ih =>
    rw [List.all_cons, Bool.and_eq_true] at h
    push_neg at h
    rw [digitsVal_cons, List.length_cons, pow_succ]
    have hdlt : d < DBASE := hb d (List.mem_cons_self d t)
    have htlt : digitsVal t < DBASE ^ t.length :=
      digitsVal_lt t (fun x hx => hb x (List.mem_cons_of_mem d hx))
    have hcomm : DBASE ^ t.length * DBASE = DBASE * DBASE ^ t.length := Nat.mul_comm _ _
    have hdb := DBASE_pos
    by_cases hd : (d == DIGIT_MAX) = true
    · have ht := h hd
      have hih := ih (fun x hx => hb x (List.mem_cons_of_mem d hx)) ht
      rw [beq_iff_eq] at hd
      subst hd
      unfold DIGIT_MAX
      have hmul2 : DBASE * digitsVal t + DBASE * 2 ≤ DBASE * DBASE ^ t.length := by
        rw [← Nat.mul_add]
        exact Nat.mul_le_mul_left _ (by omega)
      omega
    · have hdne : d ≠ DIGIT_MAX := by simpa using hd
      unfold DIGIT_MAX at hdne
      have hmul2 : DBASE * digitsVal t + DBASE ≤ DBASE * DBASE ^ t.length := by
        rw [show DBASE * digitsVal t + DBASE = DBASE * (digitsVal t + 1) by ring]
        exact Nat.mul_le_mul_left _ (by omega)
      omega

theorem digitsVal_any_ne_zero (l : List Nat) :
    (l.any fun d => d ≠ 0) = true ↔ digitsVal l ≠ 0 := by
  rw [List.any_eq_true, Ne, digitsVal_eq_zero_iff]
  push_neg
  constructor
  · rintro ⟨d, hdl, hd⟩
    exact ⟨d, hdl, by simpa using hd⟩
  · rintro ⟨d, hdl, hd⟩
    exact ⟨d, hdl, by simpa using hd⟩

theorem int_fdiv_ofNat (n m : Nat) : Int.fdiv (n : Int) (m : Int) = ((n / m : Nat) : Int) :=
  (Int.ofNat_fdiv n m).symm

theorem int_fdiv_negNat (n m : Nat) (hn : 0 < n) (hm : 0 < m) :
    Int.fdiv (-(n : Int)) (m : Int) =
      -((n / m : Nat) : Int) - (if n % m = 0 then 0 else 1) := by
  obtain ⟨n', rfl⟩ : ∃ n', n = n' + 1 := ⟨n - 1, by omega⟩
  obtain ⟨m', rfl⟩ : ∃ m', m = m' + 1 := ⟨m - 1, by omega⟩
  have hrepr : (-(((n' + 1 : Nat)) : Int)) = Int.negSucc n' := by
    rw [Int.negSucc_eq]
    push_cast
    ring
  rw [hrepr]
  have hfd : Int.fdiv (Int.negSucc n') (((m' + 1 : Nat) : Int)) =
      Int.negSucc (n' / (m' + 1)) := rfl
  rw [hfd, Int.negSucc_eq, Nat.succ_div]
  by_cases hd : (m' + 1) ∣ (n' + 1)
  · rw [if_pos hd, if_pos (Nat.dvd_iff_mod_eq_zero.mp hd)]
    push_cast
    ring
  · rw [if_neg hd, if_neg (fun hc => hd (Nat.dvd_iff_mod_eq_zero.mpr hc))]
    push_cast
    ring

theorem normalize_padLE_full (neg : Bool) (n len : Nat) (h : n < DBASE ^ len)
    (hlen : (natToDigits n).length ≤ DIGITS_MAX) :
    (zz_normalize ⟨neg, padLE n len⟩).Canon ∧
    (zz_normalize ⟨neg, padLE n len⟩).toInt =
      if neg = true then -(n : Int) else (n : Int) := by
  rw [zz_normalize_padLE _ _ _ h]
  refine ⟨canon_mkN _ _ hlen, ?_⟩
  rw [ZZ_toInt_mk_natToDigits]
  by_cases hn : n = 0
  · subst hn
    simp
  · rw [if_neg hn]

theorem zz_quo_2exp_spec (u : ZZ) (hu : u.Canon) (k : Nat) :
    ∀ w, zz_quo_2exp u k = .ok w →
      w.Canon ∧ w.toInt = Int.fdiv u.toInt ((2 : Int) ^ k) := by
  intro w hw
  unfold zz_quo_2exp at hw
  by_cases h0 : u.digits.length = 0
  · rw [if_pos h0] at hw
    injection hw with hw
    subst hw
    have huz : u.toNat = 0 := canon_toNat_eq_zero u (List.length_eq_zero.mp h0)
    have hu0 : u.toInt = 0 := by
      rw [canon_toInt_eq u hu, huz]
      simp
    refine ⟨zz_set_i64_canon 0 (by norm_num [DBASE]), ?_⟩
    rw [zz_set_i64_toInt, hu0, Int.zero_fdiv]
  rw [if_neg h0] at hw
  have hune : u.digits ≠ [] := fun hc => h0 (by rw [hc]; rfl)
  have hN0 : u.toNat ≠ 0 := canon_toNat_ne_zero u hu hune
  have hNlt : u.toNat < DBASE ^ u.digits.length := canon_toNat_lt u hu
  have hc2 : (((2:Nat) ^ k : Nat) : Int) = (2:Int) ^ k := by push_cast; ring
  by_cases hbig : DIGIT_BITS * u.digits.length ≤ k
  · rw [if_pos hbig] at hw
    injection hw with hw
    subst hw
    have hNk : u.toNat < 2 ^ k := by
      calc u.toNat < DBASE ^ u.digits.length := hNlt
      _ = 2 ^ (DIGIT_BITS * u.digits.length) := by
          rw [pow_mul]
          rfl
      _ ≤ 2 ^ k := Nat.pow_le_pow_right (by norm_num) hbig
    refine ⟨?_, ?_⟩
    · apply zz_set_i64_canon
      split_ifs <;> norm_num [DBASE]
    · rw [zz_set_i64_toInt, canon_toInt_eq u hu, ← hc2]
      by_cases hn : u.negative = true
      · rw [if_pos hn, if_pos hn,
          int_fdiv_negNat _ _ (Nat.pos_of_ne_zero hN0)
            (Nat.pos_pow_of_pos _ (by norm_num)),
          Nat.div_eq_of_lt hNk, Nat.mod_eq_of_lt hNk, if_neg hN0]
        norm_num
      · rw [if_neg hn, if_neg hn, int_fdiv_ofNat, Nat.div_eq_of_lt hNk]
        norm_num
  · rw [if_neg hbig] at hw
    replace hw : Except.ok (zz_normalize ⟨u.negative,
        padLE (digitsVal (u.digits.drop (k / 64)) / 2 ^ (k % 64) +
            if u.negative &&
                ((u.digits.take (k / 64)).any (fun d => d ≠ 0) ||
                  (decide (k % 64 ≠ 0) &&
                    decide (digitsVal (u.digits.drop (k / 64)) % 2 ^ (k % 64) ≠ 0)))
              then 1 else 0)
          (u.digits.length - k / 64 +
            if (u.digits.drop (k / 64)).all (fun d => d == DIGIT_MAX) then 1
              else 0)⟩) = Except.ok w := hw
    injection hw with hw
    subst hw
    have hbig64 : k < 64 * u.digits.length := by
      have hb2 : ¬ (64 * u.digits.length ≤ k) := hbig
      omega
    have hW : k / 64 < u.digits.length := by
      rw [Nat.div_lt_iff_lt_mul (by norm_num : (0:Nat) < 64)]
      omega
    have hWle : k / 64 ≤ u.digits.length := le_of_lt hW
    have htakelen : (u.digits.take (k / 64)).length = k / 64 := by
      rw [List.length_take]
      omega
    have hdroplen : (u.digits.drop (k / 64)).length = u.digits.length - k / 64 :=
      List.length_drop _ _
    have hsplit : u.toNat = digitsVal (u.digits.take (k / 64)) +
        DBASE ^ (k / 64) * digitsVal (u.digits.drop (k / 64)) :=
      digitsVal_take_drop _ _ hWle
    have hlowlt : digitsVal (u.digits.take (k / 64)) < DBASE ^ (k / 64) := by
      have hx := digitsVal_lt (u.digits.take (k / 64))
        (fun d hd => hu.1.1 d (List.mem_of_mem_take hd))
      rwa [htakelen] at hx
    have hhilt : digitsVal (u.digits.drop (k / 64)) <
        DBASE ^ (u.digits.length - k / 64) := by
      have hx := digitsVal_lt (u.digits.drop (k / 64))
        (fun d hd => hu.1.1 d (List.mem_of_mem_drop hd))
      rwa [hdroplen] at hx
    have hpow : (2:Nat) ^ k = DBASE ^ (k / 64) * 2 ^ (k % 64) := by
      rw [DBASE, ← pow_mul, ← pow_add]
      congr 1
      omega
    have hdivN : u.toNat / 2 ^ k =
        digitsVal (u.digits.drop (k / 64)) / 2 ^ (k % 64) := by
      rw [hpow, hsplit, ← Nat.div_div_eq_div_mul,
        Nat.add_mul_div_left _ _ (Nat.pos_pow_of_pos _ DBASE_pos),
        Nat.div_eq_of_lt hlowlt, Nat.zero_add]
    have hmodN : u.toNat % 2 ^ k =
        digitsVal (u.digits.take (k / 64)) +
          DBASE ^ (k / 64) * (digitsVal (u.digits.drop (k / 64)) % 2 ^ (k % 64)) := by
      rw [hpow, hsplit, Nat.mod_mul, Nat.add_mul_mod_self_left,
        Nat.mod_eq_of_lt hlowlt,
        Nat.add_mul_div_left _ _ (Nat.pos_pow_of_pos _ DBASE_pos),
        Nat.div_eq_of_lt hlowlt, Nat.zero_add]
    have hmodz : u.toNat % 2 ^ k = 0 ↔
        (digitsVal (u.digits.take (k / 64)) = 0 ∧
         digitsVal (u.digits.drop (k / 64)) % 2 ^ (k % 64) = 0) := by
      rw [hmodN]
      have hP : 0 < DBASE ^ (k / 64) := Nat.pos_pow_of_pos _ DBASE_pos
      constructor
      · intro h
        constructor
        · omega
        · have hzz : DBASE ^ (k / 64) *
              (digitsVal (u.digits.drop (k / 64)) % 2 ^ (k % 64)) = 0 := by omega
          rcases Nat.mul_eq_zero.mp hzz with h1 | h2
          · omega
          · exact h2
      · rintro ⟨h1, h2⟩
        rw [h1, h2]
        simp
    have hdivle : digitsVal (u.digits.drop (k / 64)) / 2 ^ (k % 64) ≤
        digitsVal (u.digits.drop (k / 64)) := Nat.div_le_self _ _
    have hbound : digitsVal (u.digits.drop (k / 64)) / 2 ^ (k % 64) +
        (if u.negative &&
            ((u.digits.take (k / 64)).any (fun d => d ≠ 0) ||
              (decide (k % 64 ≠ 0) &&
                decide (digitsVal (u.digits.drop (k / 64)) % 2 ^ (k % 64) ≠ 0)))
          then 1 else 0) <
        DBASE ^ (u.digits.length - k / 64 +
          if (u.digits.drop (k / 64)).all (fun d => d == DIGIT_MAX) then 1
            else 0) := by
      by_cases hall : ((u.digits.drop (k / 64)).all fun d => d == DIGIT_MAX) = true
      · rw [if_pos hall]
        have hps : DBASE ^ (u.digits.length - k / 64) <
            DBASE ^ (u.digits.length - k / 64 + 1) := Nat.pow_lt_pow_succ one_lt_DBASE
        split_ifs <;> omega
      · rw [if_neg hall, Nat.add_zero]
        have hmax := digitsVal_lt_of_not_allMax (u.digits.drop (k / 64))
          (fun d hd => hu.1.1 d (List.mem_of_mem_drop hd)) hall
        rw [hdroplen] at hmax
        split_ifs <;> omega
    have hVALn : digitsVal (u.digits.drop (k / 64)) / 2 ^ (k % 64) +
        (if u.negative &&
            ((u.digits.take (k / 64)).any (fun d => d ≠ 0) ||
              (decide (k % 64 ≠ 0) &&
                decide (digitsVal (u.digits.drop (k / 64)) % 2 ^ (k % 64) ≠ 0)))
          then 1 else 0) < DBASE ^ u.digits.length := by
      by_cases hW0 : k / 64 = 0
      · have hany : ((u.digits.take (k / 64)).any fun d => d ≠ 0) = false := by
          rw [hW0, List.take_zero, List.any_nil]
        have hhn : digitsVal (u.digits.drop (k / 64)) < DBASE ^ u.digits.length :=
          lt_of_lt_of_le hhilt (Nat.pow_le_pow_right DBASE_pos (by omega))
        by_cases hcar : (u.negative &&
            ((u.digits.take (k / 64)).any (fun d => d ≠ 0) ||
              (decide (k % 64 ≠ 0) &&
                decide (digitsVal (u.digits.drop (k / 64)) % 2 ^ (k % 64) ≠ 0)))) = true
        · rw [if_pos hcar]
          rw [hany, Bool.false_or, Bool.and_eq_true, Bool.and_eq_true,
            decide_eq_true_iff, decide_eq_true_iff] at hcar
          obtain ⟨-, hS0, -⟩ := hcar
          have h2S : 2 ≤ 2 ^ (k % 64) := by
            calc (2:Nat) = 2 ^ 1 := rfl
            _ ≤ 2 ^ (k % 64) := Nat.pow_le_pow_right (by norm_num) (by omega)
          have hq2 : digitsVal (u.digits.drop (k / 64)) / 2 ^ (k % 64) ≤
              digitsVal (u.digits.drop (k / 64)) / 2 :=
            Nat.div_le_div_left h2S (by norm_num)
          have hD3 : 3 ≤ DBASE ^ u.digits.length := by
            calc (3:Nat) ≤ DBASE := by norm_num [DBASE]
            _ = DBASE ^ 1 := (pow_one _).symm
            _ ≤ DBASE ^ u.digits.length := Nat.pow_le_pow_right DBASE_pos (by omega)
          omega
        · rw [if_neg hcar]
          omega
      · have hse : u.digits.length - k / 64 +
            (if (u.digits.drop (k / 64)).all (fun d => d == DIGIT_MAX) then 1
              else 0) ≤ u.digits.length := by
          split_ifs <;> omega
        exact lt_of_lt_of_le hbound (Nat.pow_le_pow_right DBASE_pos hse)
    have hlenb : (natToDigits (digitsVal (u.digits.drop (k / 64)) / 2 ^ (k % 64) +
        (if u.negative &&
            ((u.digits.take (k / 64)).any (fun d => d ≠ 0) ||
              (decide (k % 64 ≠ 0) &&
                decide (digitsVal (u.digits.drop (k / 64)) % 2 ^ (k % 64) ≠ 0)))
          then 1 else 0))).length ≤ DIGITS_MAX := by
      have h1 := natToDigits_length_le _ _ hVALn
      have h2 := hu.1.2.2
      omega
    obtain ⟨hwc, hwv⟩ := normalize_padLE_full u.negative _ _ hbound hlenb
    refine ⟨hwc, ?_⟩
    rw [hwv, canon_toInt_eq u hu, ← hc2]
    by_cases hn : u.negative = true
    · rw [if_pos hn, if_pos hn,
        int_fdiv_negNat _ _ (Nat.pos_of_ne_zero hN0)
          (Nat.pos_pow_of_pos _ (by norm_num)), hdivN]
      simp only [hn, Bool.true_and]
      by_cases hz : u.toNat % 2 ^ k = 0
      · rw [if_pos hz]
        obtain ⟨hlow0, hhm0⟩ := hmodz.mp hz
        have hCf : ¬ (((u.digits.take (k / 64)).any (fun d => d ≠ 0) ||
            (decide (k % 64 ≠ 0) &&
              decide (digitsVal (u.digits.drop (k / 64)) % 2 ^ (k % 64) ≠ 0))) = true) := by
          intro hC
          rw [Bool.or_eq_true] at hC
          rcases hC with hC | hC
          · rw [digitsVal_any_ne_zero] at hC
            exact hC hlow0
          · rw [Bool.and_eq_true, decide_eq_true_iff, decide_eq_true_iff] at hC
            exact hC.2 hhm0
        rw [if_neg hCf]
        norm_num
      · rw [if_neg hz]
        have hC : (((u.digits.take (k / 64)).any (fun d => d ≠ 0) ||
            (decide (k % 64 ≠ 0) &&
              decide (digitsVal (u.digits.drop (k / 64)) % 2 ^ (k % 64) ≠ 0))) = true) := by
          rw [Bool.or_eq_true]
          by_cases hlow : digitsVal (u.digits.take (k / 64)) = 0
          · right
            rw [Bool.and_eq_true, decide_eq_true_iff, decide_eq_true_iff]
            have hhm : digitsVal (u.digits.drop (k / 64)) % 2 ^ (k % 64) ≠ 0 := by
              intro hc
              exact hz (hmodz.mpr ⟨hlow, hc⟩)
            refine ⟨?_, hhm⟩
            intro hS0
            apply hhm
            rw [hS0, pow_zero]
            exact Nat.mod_one _
          · left
            rw [digitsVal_any_ne_zero]
            exact hlow
        rw [if_pos hC]
        push_cast
        ring
    · have hn2 : u.negative = false := bool_eq_false_of_not_true hn
      rw [if_neg hn, if_neg hn, int_fdiv_ofNat, hdivN]
      simp only [hn2, Bool.false_and, Bool.false_eq_true, if_false, Nat.add_zero]

theorem zz_quo_2exp_isOk (u : ZZ) (k : Nat) : ∃ w, zz_quo_2exp u k = .ok w := by
  unfold zz_quo_2exp
  split_ifs <;> exact ⟨_, rfl⟩

/-! ## `zz_pow` correctness -/

theorem cmp_i64_one_eq (u : ZZ) (h : zz_cmp_i64 u 1 = .eq) : u.toInt = 1 := by
  replace h : (if u.negative ≠ decide ((1:Int) < 0) then
      (if u.negative then Ordering.lt else Ordering.gt)
    else if u.digits.length ≠ 1 then
      if u.digits.length ≠ 0 then (if u.negative then Ordering.lt else Ordering.gt)
      else if (1:Int) ≠ 0 then (if u.negative then Ordering.lt else Ordering.gt).swap
      else Ordering.eq
    else
      if u.negative then (compare u.digits.headI ((1:Int).natAbs)).swap
      else compare u.digits.headI ((1:Int).natAbs)) = Ordering.eq := h
  by_cases hn : u.negative = true
  · rw [hn] at h
    simp at h
  · have hn2 : u.negative = false := bool_eq_false_of_not_true hn
    rw [hn2] at h
    by_cases hl1 : u.digits.length = 1
    · obtain ⟨d, hd⟩ := List.length_eq_one.mp hl1
      rw [hd] at h
      simp at h
      have hd1 : d = 1 := by
        have hcmp : compare d (1:Nat) = Ordering.eq := by
          simpa using h
        exact Nat.compare_eq_eq.mp hcmp
      rw [ZZ.toInt, hn2, ZZ.toNat, hd, hd1]
      simp
    · by_cases hl0 : u.digits.length = 0
      · rw [hl0] at h
        simp at h
        exact absurd h (by decide)
      · simp [hl1, hl0] at h

theorem zz_pow_spec (u : ZZ) (hu : u.Canon) (v : Nat) :
    ∀ w, zz_pow u v = .ok w → w.Canon ∧ w.toInt = u.toInt ^ v := by
  intro w hw
  unfold zz_pow at hw
  by_cases hv0 : v = 0
  · rw [if_pos hv0] at hw
    injection hw with hw
    subst hw
    subst hv0
    refine ⟨zz_set_i64_canon 1 (by norm_num [DBASE]), ?_⟩
    rw [zz_set_i64_toInt, pow_zero]
  rw [if_neg hv0] at hw
  by_cases hu0 : u.digits.length = 0
  · rw [if_pos hu0] at hw
    injection hw with hw
    subst hw
    have huz : u.toInt = 0 := by
      rw [canon_toInt_eq u hu, canon_toNat_eq_zero u (List.length_eq_zero.mp hu0)]
      simp
    refine ⟨zz_set_i64_canon 0 (by norm_num [DBASE]), ?_⟩
    rw [zz_set_i64_toInt, huz, zero_pow hv0]
  rw [if_neg hu0] at hw
  by_cases hcmp : zz_cmp_i64 u 1 = .eq
  · rw [if_pos hcmp] at hw
    injection hw with hw
    subst hw
    have h1 : u.toInt = 1 := cmp_i64_one_eq u hcmp
    refine ⟨zz_set_i64_canon 1 (by norm_num [DBASE]), ?_⟩
    rw [zz_set_i64_toInt, h1, one_pow]
  rw [if_neg hcmp] at hw
  by_cases hbuf : DIGITS_MAX / u.digits.length < v
  · rw [if_pos hbuf] at hw
    exact Except.noConfusion hw
  rw [if_neg hbuf] at hw
  injection hw with hw
  subst hw
  push_neg at hbuf
  have hune : u.digits ≠ [] := fun hc => hu0 (by rw [hc]; rfl)
  have hN0 : u.toNat ≠ 0 := canon_toNat_ne_zero u hu hune
  have hNlt : u.toNat < DBASE ^ u.digits.length := canon_toNat_lt u hu
  have hNat : digitsVal u.digits = u.toNat := rfl
  have hpowlt : u.toNat ^ v < DBASE ^ (u.digits.length * v) := by
    rw [pow_mul]
    exact Nat.pow_lt_pow_left hNlt hv0
  have hlenv : u.digits.length * v ≤ DIGITS_MAX := by
    have hmul := (Nat.le_div_iff_mul_le
      (Nat.pos_of_ne_zero (fun hc => hu0 hc))).mp hbuf
    rw [Nat.mul_comm]
    exact hmul
  have hlen : (natToDigits (digitsVal u.digits ^ v)).length ≤ DIGITS_MAX := by
    rw [hNat]
    have h1 := natToDigits_length_le _ _ hpowlt
    omega
  have hpz : digitsVal u.digits ^ v ≠ 0 := by
    rw [hNat]
    intro hc
    exact hN0 ((pow_eq_zero_iff hv0).mp hc)
  constructor
  · refine ⟨⟨natToDigits_mem_lt _, normDigits_natToDigits _, hlen⟩, ?_⟩
    intro hnil
    rw [natToDigits_eq_nil_iff] at hnil
    exact absurd hnil hpz
  · rw [ZZ_toInt_mk_natToDigits, canon_toInt_eq u hu, hNat]
    by_cases hn : u.negative = true
    · simp only [hn, Bool.true_and, if_true]
      by_cases hodd : v % 2 = 1
      · rw [if_pos (by simpa using hodd),
          (Nat.odd_iff.mpr hodd).neg_pow ((u.toNat : Int))]
        push_cast
        ring
      · rw [if_neg (by simpa using hodd),
          (Nat.even_iff.mpr (by omega)).neg_pow ((u.toNat : Int))]
        push_cast
        ring
    · have hn2 : u.negative = false := bool_eq_false_of_not_true hn
      simp only [hn2, Bool.false_and, Bool.false_eq_true, if_false]
      push_cast
      ring

/-! ## `zz_sqrtrem` correctness -/

theorem zz_sqrtrem_neg (u : ZZ) (want_rem : Bool) (h : u.negative = true) :
    zz_sqrtrem u want_rem = .error .VAL := by
  unfold zz_sqrtrem
  rw [if_pos h]

theorem zz_sqrtrem_spec (u : ZZ) (hu : u.Canon) (want_rem : Bool) :
    ∀ s r, zz_sqrtrem u want_rem = .ok (s, r) →
      s.Canon ∧ s.negative = false ∧
      s.toNat * s.toNat ≤ u.toNat ∧ u.toNat < (s.toNat + 1) * (s.toNat + 1) ∧
      (want_rem = true →
        ∃ rr, r = some rr ∧ rr.Canon ∧
          rr.toInt = u.toInt - s.toInt * s.toInt) ∧
      (want_rem = false → r = none) := by
  intro s r hw
  unfold zz_sqrtrem at hw
  by_cases hn : u.negative = true
  · rw [if_pos hn] at hw
    exact Except.noConfusion hw
  rw [if_neg hn] at hw
  have hn2 : u.negative = false := bool_eq_false_of_not_true hn
  by_cases h0 : u.digits.length = 0
  · rw [if_pos h0] at hw
    injection hw with hw
    rw [Prod.mk.injEq] at hw
    obtain ⟨rfl, rfl⟩ := hw
    have huz : u.toNat = 0 := canon_toNat_eq_zero u (List.length_eq_zero.mp h0)
    have huzi : u.toInt = 0 := by
      rw [canon_toInt_eq u hu, huz]
      simp
    have hdnil : u.digits = [] := List.length_eq_zero.mp h0
    refine ⟨canon_zero, rfl, ?_, ?_, ?_, ?_⟩
    · norm_num [ZZ.toNat, hdnil]
    · norm_num [ZZ.toNat, hdnil]
    · intro hwr
      refine ⟨⟨false, []⟩, by rw [hwr]; simp, canon_zero, ?_⟩
      rw [huzi]
      simp [ZZ.toInt, ZZ.toNat]
    · intro hwr
      rw [hwr]
      simp
  · rw [if_neg h0] at hw
    replace hw : (if want_rem = true then
        Except.ok ((⟨false, natToDigits (Nat.sqrt (digitsVal u.digits))⟩ : ZZ),
          some (⟨false, natToDigits (digitsVal u.digits -
            Nat.sqrt (digitsVal u.digits) * Nat.sqrt (digitsVal u.digits))⟩ : ZZ))
      else Except.ok (⟨false, natToDigits (Nat.sqrt (digitsVal u.digits))⟩, none))
        = Except.ok (s, r) := hw
    have hNat : digitsVal u.digits = u.toNat := rfl
    rw [hNat] at hw
    have hNlt : u.toNat < DBASE ^ u.digits.length := canon_toNat_lt u hu
    have hslen : (natToDigits (Nat.sqrt u.toNat)).length ≤ DIGITS_MAX := by
      have h1 := natToDigits_length_le _ _
        (lt_of_le_of_lt (Nat.sqrt_le_self u.toNat) hNlt)
      have h2 := hu.1.2.2
      omega
    have hsq := Nat.sqrt_le u.toNat
    have hsq2 : u.toNat < (Nat.sqrt u.toNat + 1) * (Nat.sqrt u.toNat + 1) := by
      simpa [Nat.succ_eq_add_one] using Nat.lt_succ_sqrt u.toNat
    have hrlen : (natToDigits (u.toNat -
        Nat.sqrt u.toNat * Nat.sqrt u.toNat)).length ≤ DIGITS_MAX := by
      have h1 := natToDigits_length_le (u.toNat - Nat.sqrt u.toNat * Nat.sqrt u.toNat)
        u.digits.length (by omega)
      have h2 := hu.1.2.2
      omega
    have hscanon : (⟨false, natToDigits (Nat.sqrt u.toNat)⟩ : ZZ).Canon :=
      canon_mk_any _ _ hslen (fun _ => rfl)
    have hstoNat : (⟨false, natToDigits (Nat.sqrt u.toNat)⟩ : ZZ).toNat =
        Nat.sqrt u.toNat := by
      rw [ZZ_toNat_mk, digitsVal_natToDigits]
    by_cases hwr : want_rem = true
    · rw [if_pos hwr] at hw
      injection hw with hw
      rw [Prod.mk.injEq] at hw
      obtain ⟨rfl, rfl⟩ := hw
      refine ⟨hscanon, rfl, ?_, ?_, ?_, ?_⟩
      · rw [hstoNat]
        exact hsq
      · rw [hstoNat]
        omega
      · intro h2
        refine ⟨_, rfl, canon_mk_any _ _ hrlen (fun _ => rfl), ?_⟩
        rw [ZZ_toInt_mk_natToDigits, ZZ_toInt_mk_natToDigits, canon_toInt_eq u hu,
          hn2]
        simp only [Bool.false_eq_true, if_false]
        rw [Nat.cast_sub hsq]
        push_cast
        ring
      · intro h2
        rw [h2] at hwr
        exact absurd hwr (by simp)
    · rw [if_neg hwr] at hw
      injection hw with hw
      rw [Prod.mk.injEq] at hw
      obtain ⟨rfl, rfl⟩ := hw
      refine ⟨hscanon, rfl, ?_, ?_, ?_, ?_⟩
      · rw [hstoNat]
        exact hsq
      · rw [hstoNat]
        omega
      · intro h2
        exact absurd h2 hwr
      · intro h2
        rfl

/-! ## `zz_gcdext` correctness -/

theorem canon_length_le (w : ZZ) (hw : w.Canon) (n : Nat) (h : w.toNat < DBASE ^ n) :
    w.digits.length ≤ n := by
  rw [canon_digits_eq w hw]
  exact natToDigits_length_le _ _ h

theorem mpnGcdext_fst (U V : Nat) : (mpnGcdext U V).1 = Nat.gcd U V := rfl

theorem mpnGcdext_snd_eq (U V : Nat) : (mpnGcdext U V).2 =
    (if 2 * (Nat.gcdA U V % ((V / Nat.gcd U V : Nat) : Int)) ≤
        ((V / Nat.gcd U V : Nat) : Int)
      then Nat.gcdA U V % ((V / Nat.gcd U V : Nat) : Int)
      else Nat.gcdA U V % ((V / Nat.gcd U V : Nat) : Int) -
        ((V / Nat.gcd U V : Nat) : Int)) := rfl

theorem mpnGcdext_snd_abs (U V : Nat) (hV : 0 < V) :
    (mpnGcdext U V).2.natAbs ≤ V / Nat.gcd U V := by
  have hg : 0 < Nat.gcd U V := Nat.gcd_pos_of_pos_right U hV
  have hgd : Nat.gcd U V ∣ V := Nat.gcd_dvd_right U V
  have hm : 0 < V / Nat.gcd U V := Nat.div_pos (Nat.le_of_dvd hV hgd) hg
  have hm0 : ((V / Nat.gcd U V : Nat) : Int) ≠ 0 := by
    exact_mod_cast Nat.pos_iff_ne_zero.mp hm
  rw [mpnGcdext_snd_eq]
  have h1 : 0 ≤ Nat.gcdA U V % ((V / Nat.gcd U V : Nat) : Int) :=
    Int.emod_nonneg _ hm0
  have h2 : Nat.gcdA U V % ((V / Nat.gcd U V : Nat) : Int) <
      ((V / Nat.gcd U V : Nat) : Int) :=
    Int.emod_lt_of_pos _ (by exact_mod_cast hm)
  split_ifs <;> omega

theorem mpnGcdext_dvd (U V : Nat) (hV : 0 < V) :
    (V:Int) ∣ ((U:Int) * (mpnGcdext U V).2 - (Nat.gcd U V : Int)) := by
  have hg : 0 < Nat.gcd U V := Nat.gcd_pos_of_pos_right U hV
  have hgd : Nat.gcd U V ∣ V := Nat.gcd_dvd_right U V
  have hgu : Nat.gcd U V ∣ U := Nat.gcd_dvd_left U V
  have hVm : (V:Int) = (Nat.gcd U V : Int) * ((V / Nat.gcd U V : Nat) : Int) := by
    exact_mod_cast (Nat.mul_div_cancel' hgd).symm
  have hUm : (V:Int) ∣ (U:Int) * ((V / Nat.gcd U V : Nat) : Int) := by
    obtain ⟨U2, hU2⟩ := hgu
    have hU2I : (U:Int) = (Nat.gcd U V : Int) * (U2 : Int) := by exact_mod_cast hU2
    refine ⟨U2, ?_⟩
    rw [hVm, hU2I]
    ring
  have hbez := Nat.gcd_eq_gcd_ab U V
  have hAg : (U:Int) * Nat.gcdA U V - (Nat.gcd U V : Int) = -((V:Int) * Nat.gcdB U V) := by
    rw [hbez]
    ring
  have hskA : (V:Int) ∣ (U:Int) * ((mpnGcdext U V).2 - Nat.gcdA U V) := by
    rw [mpnGcdext_snd_eq]
    rcases hUm with ⟨c, hc⟩
    split_ifs
    · refine ⟨-(c * (Nat.gcdA U V / ((V / Nat.gcd U V : Nat) : Int))), ?_⟩
      rw [Int.emod_def]
      linear_combination (-(Nat.gcdA U V / ((V / Nat.gcd U V : Nat) : Int))) * hc
    · refine ⟨-(c * (Nat.gcdA U V / ((V / Nat.gcd U V : Nat) : Int) + 1)), ?_⟩
      rw [Int.emod_def]
      linear_combination (-(Nat.gcdA U V / ((V / Nat.gcd U V : Nat) : Int) + 1)) * hc
  have hsplit2 : (U:Int) * (mpnGcdext U V).2 - (Nat.gcd U V : Int) =
      (U:Int) * ((mpnGcdext U V).2 - Nat.gcdA U V) +
        ((U:Int) * Nat.gcdA U V - (Nat.gcd U V : Int)) := by ring
  rw [hsplit2, hAg]
  exact dvd_add hskA (dvd_neg.mpr (dvd_mul_right _ _))

theorem zz_div_q_canon (u v : ZZ) (hu : u.Canon) (hv : v.Canon) :
    ∀ q, zz_div_q u v = .ok q → q.Canon := by
  intro q hw
  unfold zz_div_q at hw
  rcases hd : zz_div u v with e | p
  · rw [hd] at hw
    exact Except.noConfusion hw
  · rw [hd] at hw
    obtain ⟨q0, r0⟩ := p
    injection hw with hw
    subst hw
    exact (zz_div_spec u v hu hv q0 r0 hd).1

theorem zz_div_q_exact (u v : ZZ) (hu : u.Canon) (hv : v.Canon)
    (hvne : v.digits ≠ []) (hsz : u.digits.length < DIGITS_MAX)
    (hdvd : v.toInt ∣ u.toInt) :
    ∃ q, zz_div_q u v = .ok q ∧ q.Canon ∧ q.toInt * v.toInt = u.toInt := by
  obtain ⟨q, r, hqr⟩ := zz_div_isOk u v hvne hsz
  obtain ⟨hqc, hrc, hid, hrange⟩ := zz_div_spec u v hu hv q r hqr
  have hVpos : 0 < v.toNat := digitsVal_pos _ hv.1.1 hv.1.2.1 hvne
  have hr0 : r.toInt = 0 := by
    have hdr : v.toInt ∣ r.toInt := by
      have hre : r.toInt = u.toInt - q.toInt * v.toInt := by linarith [hid]
      rw [hre]
      exact dvd_sub hdvd (dvd_mul_left v.toInt q.toInt)
    rcases hrange with h | h | h
    · exact h
    · refine Int.eq_zero_of_abs_lt_dvd hdr ?_
      rw [abs_of_nonneg h.2.1]
      exact h.2.2
    · refine Int.eq_zero_of_abs_lt_dvd (neg_dvd.mpr hdr) ?_
      rw [abs_of_nonpos h.2.2]
      omega
  refine ⟨q, ?_, hqc, ?_⟩
  · unfold zz_div_q
    rw [hqr]
  · rw [← hid, hr0, add_zero]

theorem euclidLoop_canon : ∀ (fuel : Nat) (r newt newr t : ZZ),
    r.Canon → newt.Canon → newr.Canon → t.Canon →
    ∀ a b, euclidLoop fuel r newt newr t = .ok (a, b) → a.Canon ∧ b.Canon := by
  intro fuel
  induction fuel with
  | zero =>
    intro r newt newr t _ _ _ _ a b hw
    exact Except.noConfusion hw
  | succ n ih =>
    intro r newt newr t hr hnt hnr ht a b hw
    rw [euclidLoop] at hw
    by_cases hc : zz_cmp_i64 newr 0 = .eq
    · rw [if_pos hc] at hw
      injection hw with hw
      rw [Prod.mk.injEq] at hw
      obtain ⟨rfl, rfl⟩ := hw
      exact ⟨hr, ht⟩
    · rw [if_neg hc] at hw
      rcases h1 : zz_div_q r newr with e | q
      · rw [h1] at hw
        exact Except.noConfusion hw
      rw [h1] at hw
      dsimp only at hw
      rcases h2 : zz_mul q newt with e | t2
      · rw [h2] at hw
        exact Except.noConfusion hw
      rw [h2] at hw
      dsimp only at hw
      rcases h3 : zz_sub t t2 with e | newt2
      · rw [h3] at hw
        exact Except.noConfusion hw
      rw [h3] at hw
      dsimp only at hw
      rcases h4 : zz_mul q newr with e | r2
      · rw [h4] at hw
        exact Except.noConfusion hw
      rw [h4] at hw
      dsimp only at hw
      rcases h5 : zz_sub r r2 with e | newr2
      · rw [h5] at hw
        exact Except.noConfusion hw
      rw [h5] at hw
      have hqc := zz_div_q_canon r newr hr hnr q h1
      have ht2 := (zz_mul_spec q newt hqc hnt t2 h2).1
      have hnt2 := (zz_addsub_spec t t2 true ht ht2 newt2 h3).1
      have hr2 := (zz_mul_spec q newr hqc hnr r2 h4).1
      have hnr2 := (zz_addsub_spec r r2 true hr hr2 newr2 h5).1
      exact ih newr newt2 newr2 newt hnr hnt2 hnr2 hnt a b hw

theorem zz_inverse_euclidext_canon (u v : ZZ) (hu : u.Canon) (hv : v.Canon) :
    ∀ t, zz_inverse_euclidext u v = .ok t → t.Canon := by
  intro t hw
  unfold zz_inverse_euclidext at hw
  rcases hl : euclidLoop (digitsVal u.digits + 1) (zz_pos v) (zz_set_i64 1)
      (zz_pos u) (zz_set_i64 0) with e | p
  · rw [hl] at hw
    exact Except.noConfusion hw
  · rw [hl] at hw
    obtain ⟨r, t0⟩ := p
    have hcan := euclidLoop_canon _ _ _ _ _ (by rw [zz_pos_eq v hv]; exact hv)
      (zz_set_i64_canon 1 (by norm_num [DBASE]))
      (by rw [zz_pos_eq u hu]; exact hu)
      (zz_set_i64_canon 0 (by norm_num [DBASE])) r t0 hl
    replace hw : (if zz_cmp_i64 (zz_abs r) 1 ≠ .eq
        then (Except.error zzErr.VAL : Except zzErr ZZ)
        else Except.ok (if t0.digits.length ≠ 0
          then (⟨t0.negative != u.negative, t0.digits⟩ : ZZ) else t0)) = Except.ok t := hw
    by_cases hcmp : zz_cmp_i64 (zz_abs r) 1 ≠ .eq
    · rw [if_pos hcmp] at hw
      exact Except.noConfusion hw
    · rw [if_neg hcmp] at hw
      injection hw with hw
      subst hw
      by_cases h0 : t0.digits.length ≠ 0
      · rw [if_pos h0]
        obtain ⟨⟨hb, hn, hl2⟩, _⟩ := hcan.2
        exact ⟨⟨hb, hn, hl2⟩, fun hc => absurd (by rw [hc]; rfl) h0⟩
      · rw [if_neg h0]
        exact hcan.2

theorem gcdext_g_canon (u v : ZZ) (hu : u.Canon) (hv : v.Canon) (hvne : v.digits ≠ []) :
    (gcdext_g u v).Canon ∧ (gcdext_g u v).digits.length ≤ v.digits.length ∧
    (gcdext_g u v).toInt =
      (Nat.gcd (digitsVal u.digits) (digitsVal v.digits) : Int) := by
  have hV : 0 < digitsVal v.digits := digitsVal_pos _ hv.1.1 hv.1.2.1 hvne
  have hVlt : digitsVal v.digits < DBASE ^ v.digits.length := digitsVal_lt _ hv.1.1
  have hgle : Nat.gcd (digitsVal u.digits) (digitsVal v.digits) ≤ digitsVal v.digits :=
    Nat.le_of_dvd hV (Nat.gcd_dvd_right _ _)
  have hglen : (natToDigits
      (Nat.gcd (digitsVal u.digits) (digitsVal v.digits))).length ≤ v.digits.length :=
    natToDigits_length_le _ _ (by omega)
  have hgeq : gcdext_g u v =
      ⟨false, natToDigits (Nat.gcd (digitsVal u.digits) (digitsVal v.digits))⟩ := by
    unfold gcdext_g
    rw [mpnGcdext_fst]
  rw [hgeq]
  refine ⟨canon_mk_any _ _ (le_trans hglen hv.1.2.2) (fun _ => rfl), hglen, ?_⟩
  rw [ZZ_toInt_mk_natToDigits]
  simp

theorem gcdext_s_canon (u v : ZZ) (hu : u.Canon) (hv : v.Canon) (hvne : v.digits ≠ []) :
    (gcdext_s u v).Canon ∧ (gcdext_s u v).digits.length ≤ v.digits.length := by
  have hV : 0 < digitsVal v.digits := digitsVal_pos _ hv.1.1 hv.1.2.1 hvne
  have habs := mpnGcdext_snd_abs (digitsVal u.digits) (digitsVal v.digits) hV
  have hVlt : digitsVal v.digits < DBASE ^ v.digits.length := digitsVal_lt _ hv.1.1
  have hsle : (mpnGcdext (digitsVal u.digits) (digitsVal v.digits)).2.natAbs ≤
      digitsVal v.digits := le_trans habs (Nat.div_le_self _ _)
  have hslen : (natToDigits
      ((mpnGcdext (digitsVal u.digits) (digitsVal v.digits)).2.natAbs)).length ≤
      v.digits.length := natToDigits_length_le _ _ (by omega)
  constructor
  · unfold gcdext_s
    refine canon_mk_any _ _ (le_trans hslen hv.1.2.2) ?_
    intro h0
    have hsk0 : (mpnGcdext (digitsVal u.digits) (digitsVal v.digits)).2 = 0 :=
      Int.natAbs_eq_zero.mp h0
    rw [hsk0]
    simp
  · unfold gcdext_s
    exact hslen

theorem gcdext_s_toInt (u v : ZZ) :
    (gcdext_s u v).toInt = if u.negative = true
      then -(mpnGcdext (digitsVal u.digits) (digitsVal v.digits)).2
      else (mpnGcdext (digitsVal u.digits) (digitsVal v.digits)).2 := by
  unfold gcdext_s
  rw [ZZ_toInt_mk_natToDigits]
  by_cases hn : u.negative = true
  · rw [if_pos hn]
    simp only [hn, Bool.true_and, Bool.not_true, Bool.false_and, Bool.or_false]
    by_cases hpos : 0 < (mpnGcdext (digitsVal u.digits) (digitsVal v.digits)).2
    · rw [if_pos (by simpa using hpos), Int.natCast_natAbs, abs_of_pos hpos]
    · rw [if_neg (by simpa using hpos), Int.natCast_natAbs,
        abs_of_nonpos (by omega)]
  · have hn2 : u.negative = false := bool_eq_false_of_not_true hn
    rw [if_neg hn]
    simp only [hn2, Bool.false_and, Bool.not_false, Bool.true_and, Bool.false_or]
    by_cases hneg : (mpnGcdext (digitsVal u.digits) (digitsVal v.digits)).2 < 0
    · rw [if_pos (by simpa using hneg), Int.natCast_natAbs, abs_of_neg hneg]
      ring
    · rw [if_neg (by simpa using hneg), Int.natCast_natAbs,
        abs_of_nonneg (by omega)]

theorem gcdext_us_prod (u v : ZZ) :
    u.toInt * (gcdext_s u v).toInt =
      (digitsVal u.digits : Int) *
        (mpnGcdext (digitsVal u.digits) (digitsVal v.digits)).2 := by
  rw [gcdext_s_toInt, ZZ.toInt]
  have hNat : u.toNat = digitsVal u.digits := rfl
  by_cases hn : u.negative = true
  · rw [if_pos hn, if_pos hn, hNat]
    ring
  · rw [if_neg hn, if_neg hn, hNat]

theorem zz_gcdextCore_canon (u v : ZZ) (hu : u.Canon) (hv : v.Canon) :
    ∀ g s t, zz_gcdextCore u v = .ok (g, s, t) → g.Canon ∧ s.Canon ∧ t.Canon := by
  intro g s t hw
  unfold zz_gcdextCore at hw
  by_cases hv0 : v.digits.length = 0
  · rw [if_pos hv0] at hw
    injection hw with hw
    rw [Prod.mk.injEq] at hw
    obtain ⟨rfl, hw⟩ := hw
    rw [Prod.mk.injEq] at hw
    obtain ⟨rfl, rfl⟩ := hw
    refine ⟨(zz_abs_spec u hu).1, ?_, canon_zero⟩
    by_cases h0 : u.digits.length = 0
    · have hneg : u.negative = false := hu.2 (List.length_eq_zero.mp h0)
      rw [if_neg (by omega)]
      exact ⟨⟨by simp, rfl, by norm_num [DIGITS_MAX]⟩, fun _ => hneg⟩
    · rw [if_pos (by omega)]
      refine ⟨⟨?_, rfl, by norm_num [DIGITS_MAX]⟩, ?_⟩
      · intro d hd
        simp at hd
        subst hd
        norm_num [DBASE]
      · intro hc
        exact absurd hc (by simp)
  · rw [if_neg hv0] at hw
    have hvne : v.digits ≠ [] := fun hc => hv0 (by rw [hc]; rfl)
    obtain ⟨hgc, hglen, hgv⟩ := gcdext_g_canon u v hu hv hvne
    obtain ⟨hsc, hslen⟩ := gcdext_s_canon u v hu hv hvne
    by_cases hguard : max (u.digits.length + (gcdext_s u v).digits.length)
        (gcdext_g u v).digits.length < DIGITS_MAX
    · rw [if_pos hguard] at hw
      rcases h1 : zz_mul u (gcdext_s u v) with e | o2
      · rw [h1] at hw
        exact Except.noConfusion hw
      rw [h1] at hw
      dsimp only at hw
      rcases h2 : zz_sub (gcdext_g u v) o2 with e | o2b
      · rw [h2] at hw
        exact Except.noConfusion hw
      rw [h2] at hw
      dsimp only at hw
      rcases h3 : zz_div_q o2b v with e | t1
      · rw [h3] at hw
        exact Except.noConfusion hw
      rw [h3] at hw
      injection hw with hw
      rw [Prod.mk.injEq] at hw
      obtain ⟨rfl, hw⟩ := hw
      rw [Prod.mk.injEq] at hw
      obtain ⟨rfl, rfl⟩ := hw
      have ho2 := (zz_mul_spec u _ hu hsc o2 h1).1
      have ho2b := (zz_addsub_spec _ o2 true hgc ho2 o2b h2).1
      exact ⟨hgc, hsc, zz_div_q_canon o2b v ho2b hv t1 h3⟩
    · rw [if_neg hguard] at hw
      rcases h1 : zz_div_q u (gcdext_g u v) with e | o1
      · rw [h1] at hw
        exact Except.noConfusion hw
      rw [h1] at hw
      dsimp only at hw
      rcases h2 : zz_div_q v (gcdext_g u v) with e | o2
      · rw [h2] at hw
        exact Except.noConfusion hw
      rw [h2] at hw
      dsimp only at hw
      rcases h3 : zz_inverse_euclidext o2 o1 with e | t1
      · rw [h3] at hw
        exact Except.noConfusion hw
      rw [h3] at hw
      injection hw with hw
      rw [Prod.mk.injEq] at hw
      obtain ⟨rfl, hw⟩ := hw
      rw [Prod.mk.injEq] at hw
      obtain ⟨rfl, rfl⟩ := hw
      have ho1 := zz_div_q_canon u _ hu hgc o1 h1
      have ho2 := zz_div_q_canon v _ hv hgc o2 h2
      exact ⟨hgc, hsc, zz_inverse_euclidext_canon o2 o1 ho2 ho1 t1 h3⟩

theorem zz_gcdext_canon (u v : ZZ) (hu : u.Canon) (hv : v.Canon) :
    ∀ g s t, zz_gcdext u v = .ok (g, s, t) → g.Canon ∧ s.Canon ∧ t.Canon := by
  intro g s t hw
  unfold zz_gcdext at hw
  by_cases hlt : u.digits.length < v.digits.length
  · rw [if_pos hlt] at hw
    rcases hc : zz_gcdextCore v u with e | p
    · rw [hc] at hw
      exact Except.noConfusion hw
    rw [hc] at hw
    obtain ⟨g2, p2⟩ := p
    obtain ⟨s2, t2⟩ := p2
    injection hw with hw
    rw [Prod.mk.injEq] at hw
    obtain ⟨rfl, hw⟩ := hw
    rw [Prod.mk.injEq] at hw
    obtain ⟨rfl, rfl⟩ := hw
    obtain ⟨h1, h2, h3⟩ := zz_gcdextCore_canon v u hv hu g2 s2 t2 hc
    exact ⟨h1, h3, h2⟩
  · rw [if_neg hlt] at hw
    exact zz_gcdextCore_canon u v hu hv g s t hw

theorem zz_gcdextCore_spec (u v : ZZ) (hu : u.Canon) (hv : v.Canon)
    (hsum : u.digits.length + v.digits.length < DIGITS_MAX) :
    ∃ g s t, zz_gcdextCore u v = .ok (g, s, t) ∧
      g.Canon ∧ s.Canon ∧ t.Canon ∧
      g.toInt = ((Int.gcd u.toInt v.toInt : Nat) : Int) ∧
      u.toInt * s.toInt + v.toInt * t.toInt = g.toInt := by
  by_cases hv0 : v.digits.length = 0
  · have hvnil : v.digits = [] := List.length_eq_zero.mp hv0
    have hvz : v.toInt = 0 := by
      rw [canon_toInt_eq v hv, canon_toNat_eq_zero v hvnil]
      simp
    refine ⟨zz_abs u, ⟨u.negative, if u.digits.length > 0 then [1] else []⟩,
      ⟨false, []⟩, ?_, (zz_abs_spec u hu).1, ?_, canon_zero, ?_, ?_⟩
    · unfold zz_gcdextCore
      rw [if_pos hv0]
    · by_cases h0 : u.digits.length = 0
      · have hneg : u.negative = false := hu.2 (List.length_eq_zero.mp h0)
        rw [if_neg (by omega)]
        exact ⟨⟨by simp, rfl, by norm_num [DIGITS_MAX]⟩, fun _ => hneg⟩
      · rw [if_pos (by omega)]
        refine ⟨⟨?_, rfl, by norm_num [DIGITS_MAX]⟩, ?_⟩
        · intro d hd
          simp at hd
          subst hd
          norm_num [DBASE]
        · intro hc
          exact absurd hc (by simp)
    · rw [(zz_abs_spec u hu).2, hvz, Int.gcd_zero_right, toInt_natAbs]
    · rw [hvz, (zz_abs_spec u hu).2]
      by_cases h0 : u.digits.length = 0
      · rw [if_neg (by omega)]
        have hz : u.toInt = 0 := by
          rw [canon_toInt_eq u hu, canon_toNat_eq_zero u (List.length_eq_zero.mp h0)]
          simp
        rw [hz, canon_toNat_eq_zero u (List.length_eq_zero.mp h0)]
        simp
      · rw [if_pos (by omega)]
        have hstoInt : (ZZ.toInt ⟨u.negative, [1]⟩) =
            if u.negative = true then -1 else 1 := by
          rw [ZZ.toInt, ZZ.toNat]
          simp [digitsVal_cons]
        rw [hstoInt, canon_toInt_eq u hu]
        by_cases hn : u.negative = true
        · rw [if_pos hn, if_pos hn]
          ring
        · rw [if_neg hn, if_neg hn]
          ring
  · have hvne : v.digits ≠ [] := fun hc => hv0 (by rw [hc]; rfl)
    have hV : 0 < digitsVal v.digits := digitsVal_pos _ hv.1.1 hv.1.2.1 hvne
    obtain ⟨hgc, hglen, hgv⟩ := gcdext_g_canon u v hu hv hvne
    obtain ⟨hsc, hslen⟩ := gcdext_s_canon u v hu hv hvne
    have hUlt : digitsVal u.digits < DBASE ^ u.digits.length := digitsVal_lt _ hu.1.1
    have hVlt : digitsVal v.digits < DBASE ^ v.digits.length := digitsVal_lt _ hv.1.1
    have h1v : 1 ≤ v.digits.length := List.length_pos.mpr hvne
    have hguard : max (u.digits.length + (gcdext_s u v).digits.length)
        (gcdext_g u v).digits.length < DIGITS_MAX := by
      rw [Nat.max_lt]
      omega
    obtain ⟨o2, h1⟩ := zz_mul_isOk u (gcdext_s u v) (by omega)
    obtain ⟨ho2c, ho2v⟩ := zz_mul_spec u _ hu hsc o2 h1
    have ho2v2 : o2.toInt = (digitsVal u.digits : Int) *
        (mpnGcdext (digitsVal u.digits) (digitsVal v.digits)).2 := by
      rw [ho2v, gcdext_us_prod]
    have habs := mpnGcdext_snd_abs (digitsVal u.digits) (digitsVal v.digits) hV
    have hsabs : (mpnGcdext (digitsVal u.digits) (digitsVal v.digits)).2.natAbs ≤
        digitsVal v.digits := le_trans habs (Nat.div_le_self _ _)
    have hgle : Nat.gcd (digitsVal u.digits) (digitsVal v.digits) ≤
        digitsVal v.digits := Nat.le_of_dvd hV (Nat.gcd_dvd_right _ _)
    have ho2n : o2.toNat < DBASE ^ (u.digits.length + v.digits.length) := by
      have h4 := toInt_natAbs o2
      rw [ho2v2] at h4
      have he : o2.toNat = digitsVal u.digits *
          (mpnGcdext (digitsVal u.digits) (digitsVal v.digits)).2.natAbs := by
        rw [← h4, Int.natAbs_mul, Int.natAbs_ofNat]
      rw [he, pow_add]
      have hlt2 : (mpnGcdext (digitsVal u.digits) (digitsVal v.digits)).2.natAbs <
          DBASE ^ v.digits.length := by omega
      exact mul_lt_mul'' hUlt hlt2 (Nat.zero_le _) (Nat.zero_le _)
    have ho2len : o2.digits.length ≤ u.digits.length + v.digits.length :=
      canon_length_le o2 ho2c _ ho2n
    obtain ⟨o2b, h2⟩ := zz_addsub_isOk_of_lt (gcdext_g u v) o2 true
      (by omega) (by omega)
    obtain ⟨ho2bc, ho2bv⟩ := zz_addsub_spec _ o2 true hgc ho2c o2b h2
    have ho2bv2 : o2b.toInt =
        ((Nat.gcd (digitsVal u.digits) (digitsVal v.digits) : Nat) : Int) -
          (digitsVal u.digits : Int) *
            (mpnGcdext (digitsVal u.digits) (digitsVal v.digits)).2 := by
      rw [ho2bv, hgv, ho2v2]
      simp only [if_true]
      ring
    have hdvd0 := mpnGcdext_dvd (digitsVal u.digits) (digitsVal v.digits) hV
    have hd3 : (digitsVal v.digits : Int) ∣
        (((Nat.gcd (digitsVal u.digits) (digitsVal v.digits) : Nat) : Int) -
          (digitsVal u.digits : Int) *
            (mpnGcdext (digitsVal u.digits) (digitsVal v.digits)).2) := by
      have hneg := dvd_neg.mpr hdvd0
      rw [neg_sub] at hneg
      exact hneg
    have hdvd2 : v.toInt ∣ o2b.toInt := by
      rw [ho2bv2, canon_toInt_eq v hv]
      by_cases hn : v.negative = true
      · rw [if_pos hn]
        exact neg_dvd.mpr hd3
      · rw [if_neg hn]
        exact hd3
    have ho2bn : o2b.toNat < DBASE ^ (u.digits.length + v.digits.length) := by
      have he : o2b.toNat = (((Nat.gcd (digitsVal u.digits) (digitsVal v.digits) : Nat) : Int) -
          (digitsVal u.digits : Int) *
            (mpnGcdext (digitsVal u.digits) (digitsVal v.digits)).2).natAbs := by
        rw [← toInt_natAbs o2b, ho2bv2]
      have hb1 : o2b.toNat ≤ Nat.gcd (digitsVal u.digits) (digitsVal v.digits) +
          digitsVal u.digits *
            (mpnGcdext (digitsVal u.digits) (digitsVal v.digits)).2.natAbs := by
        rw [he]
        calc (((Nat.gcd (digitsVal u.digits) (digitsVal v.digits) : Nat) : Int) -
            (digitsVal u.digits : Int) *
              (mpnGcdext (digitsVal u.digits) (digitsVal v.digits)).2).natAbs ≤
            ((Nat.gcd (digitsVal u.digits) (digitsVal v.digits) : Nat) : Int).natAbs +
            ((digitsVal u.digits : Int) *
              (mpnGcdext (digitsVal u.digits) (digitsVal v.digits)).2).natAbs :=
          Int.natAbs_sub_le _ _
        _ = Nat.gcd (digitsVal u.digits) (digitsVal v.digits) +
            digitsVal u.digits *
              (mpnGcdext (digitsVal u.digits) (digitsVal v.digits)).2.natAbs := by
          rw [Int.natAbs_mul, Int.natAbs_ofNat, Int.natAbs_ofNat]
      have hb2 : digitsVal u.digits *
          (mpnGcdext (digitsVal u.digits) (digitsVal v.digits)).2.natAbs ≤
          digitsVal u.digits * digitsVal v.digits := Nat.mul_le_mul_left _ hsabs
      have hb3 : digitsVal v.digits + digitsVal u.digits * digitsVal v.digits ≤
          (DBASE ^ v.digits.length - 1) * DBASE ^ u.digits.length := by
        have hb4 : digitsVal v.digits + digitsVal u.digits * digitsVal v.digits =
            digitsVal v.digits * (1 + digitsVal u.digits) := by ring
        rw [hb4]
        exact Nat.mul_le_mul (by omega) (by omega)
      have hb5 : (DBASE ^ v.digits.length - 1) * DBASE ^ u.digits.length =
          DBASE ^ (u.digits.length + v.digits.length) - DBASE ^ u.digits.length := by
        rw [Nat.sub_mul, one_mul, ← pow_add, Nat.add_comm]
      have hb6 : 0 < DBASE ^ u.digits.length := Nat.pos_pow_of_pos _ DBASE_pos
      omega
    have ho2blen : o2b.digits.length < DIGITS_MAX := by
      have := canon_length_le o2b ho2bc _ ho2bn
      omega
    obtain ⟨t1, h3, ht1c, ht1v⟩ := zz_div_q_exact o2b v ho2bc hv hvne ho2blen hdvd2
    refine ⟨gcdext_g u v, gcdext_s u v, t1, ?_, hgc, hsc, ht1c, ?_, ?_⟩
    · unfold zz_gcdextCore
      rw [if_neg hv0, if_pos hguard, h1]
      dsimp only
      rw [show zz_sub (gcdext_g u v) o2 = zz_addsub (gcdext_g u v) o2 true from rfl,
        h2]
      dsimp only
      rw [h3]
    · rw [hgv]
      congr 1
      unfold Int.gcd
      rw [toInt_natAbs, toInt_natAbs]
      rfl
    · rw [hgv]
      have hus := gcdext_us_prod u v
      linarith [ht1v, ho2bv2, hus]

theorem zz_gcdext_spec (u v : ZZ) (hu : u.Canon) (hv : v.Canon)
    (hsum : u.digits.length + v.digits.length < DIGITS_MAX) :
    ∃ g s t, zz_gcdext u v = .ok (g, s, t) ∧
      g.Canon ∧ s.Canon ∧ t.Canon ∧
      g.toInt = ((Int.gcd u.toInt v.toInt : Nat) : Int) ∧
      u.toInt * s.toInt + v.toInt * t.toInt = g.toInt := by
  unfold zz_gcdext
  by_cases hlt : u.digits.length < v.digits.length
  · rw [if_pos hlt]
    obtain ⟨g, s, t, hrun, hgc, hsc, htc, hgv, hid⟩ :=
      zz_gcdextCore_spec v u hv hu (by omega)
    rw [hrun]
    refine ⟨g, t, s, rfl, hgc, htc, hsc, ?_, ?_⟩
    · rw [hgv, Int.gcd_comm]
    · linarith [hid]
  · rw [if_neg hlt]
    exact zz_gcdextCore_spec u v hu hv hsum

/-! ## Separator handling in `zz_set_str` -/

theorem scanDigits_trailing (base : Nat) :
    ∀ n (a : List Nat), a.length ≤ n → scanDigits base (a ++ [95]) = .error () := by
  intro n
  induction n with
  | zero =>
    intro a ha
    have ha0 : a = [] := List.length_eq_zero.mp (Nat.le_zero.mp ha)
    subst ha0
    simp [scanDigits]
  | succ n ih =>
    intro a ha
    rcases a with _ | ⟨c, a2⟩
    · simp [scanDigits]
    · by_cases hc : c = 95
      · subst hc
        rcases a2 with _ | ⟨h, a3⟩
        · simp [scanDigits]
        · by_cases hh : h = 95
          · subst hh
            simp [scanDigits]
          · have hlast : (h :: (a3 ++ [95])).getLast (by simp) = 95 := by
              rw [List.getLast_cons (by simp)]
              exact List.getLast_concat _
            rw [List.cons_append, List.cons_append, scanDigits.eq_def]
            dsimp only
            rw [if_pos rfl, if_neg hh, hlast]
            by_cases hd : digitValue h < base
            · rw [if_pos hd, ih (a3 ++ [95]) (by simp at ha ⊢; omega)]
            · rw [if_neg hd]
              by_cases hs : isSpaceB h = true
              · rw [if_pos hs, if_neg (by simp [List.all_append, isSpaceB])]
              · rw [if_neg hs]
      · rw [List.cons_append, scanDigits.eq_def]
        dsimp only
        rw [if_neg hc]
        by_cases hd : digitValue c < base
        · rw [if_pos hd, ih a2 (by simp at ha; omega)]
        · rw [if_neg hd]
          by_cases hs : isSpaceB c = true
          · rw [if_pos hs, if_neg (by simp [List.all_append, isSpaceB])]
          · rw [if_neg hs]

theorem scanDigits_doubled (base : Nat) :
    ∀ n (a b : List Nat), a.length ≤ n →
      scanDigits base (a ++ 95 :: 95 :: b) = .error () := by
  intro n
  induction n with
  | zero =>
    intro a b ha
    have ha0 : a = [] := List.length_eq_zero.mp (Nat.le_zero.mp ha)
    subst ha0
    simp [scanDigits]
  | succ n ih =>
    intro a b ha
    rcases a with _ | ⟨c, a2⟩
    · simp [scanDigits]
    · by_cases hc : c = 95
      · subst hc
        rcases a2 with _ | ⟨h, a3⟩
        · simp [scanDigits]
        · by_cases hh : h = 95
          · subst hh
            simp [scanDigits]
          · rw [List.cons_append, List.cons_append, scanDigits.eq_def]
            dsimp only
            rw [if_pos rfl, if_neg hh]
            generalize hx : (h :: (a3 ++ 95 :: 95 :: b)).getLast (by simp) = x
            have hre : (a3 ++ 95 :: 95 :: b) ++ [x] =
                a3 ++ 95 :: 95 :: (b ++ [x]) := by simp
            rw [hre]
            by_cases hd : digitValue h < base
            · rw [if_pos hd, ih a3 (b ++ [x]) (by simp at ha ⊢; omega)]
            · rw [if_neg hd]
              by_cases hs : isSpaceB h = true
              · rw [if_pos hs, if_neg (by simp [List.all_append, isSpaceB])]
              · rw [if_neg hs]
      · rw [List.cons_append, scanDigits.eq_def]
        dsimp only
        rw [if_neg hc]
        by_cases hd : digitValue c < base
        · rw [if_pos hd, ih a2 b (by simp at ha; omega)]
        · rw [if_neg hd]
          by_cases hs : isSpaceB c = true
          · rw [if_pos hs, if_neg (by simp [List.all_append, isSpaceB])]
          · rw [if_neg hs]

theorem scanDigits_clean (base : Nat) : ∀ (l : List Nat),
    (∀ c ∈ l, c ≠ 95 ∧ digitValue c < base) →
    scanDigits base l = .ok (l.map digitValue, 0) := by
  intro l
  induction l with
  | nil =>
    intro _
    simp [scanDigits]
  | cons c rest ih =>
    intro hl
    obtain ⟨hc, hd⟩ := hl c (List.mem_cons_self c rest)
    rw [scanDigits.eq_def]
    dsimp only
    rw [if_neg hc, if_pos hd, ih (fun x hx => hl x (List.mem_cons_of_mem c hx))]
    rfl

/-! ## Round-trip `zz_get_str` / `zz_set_str` -/

theorem zz_normalize_canon_eq (u : ZZ) (hu : u.Canon) :
    zz_normalize ⟨u.negative, u.digits⟩ = u := by
  show (⟨if (normDigits u.digits).isEmpty then false else u.negative,
    normDigits u.digits⟩ : ZZ) = u
  rw [hu.1.2.1]
  by_cases h : u.digits.isEmpty
  · have hnil : u.digits = [] := by simpa [List.isEmpty_iff] using h
    rw [if_pos h]
    have hneg := hu.2 hnil
    cases u with
    | mk neg digs => simp_all
  · rw [if_neg h]

theorem toDigitsBE_ne_nil (b n : Nat) : toDigitsBE b n ≠ [] := by
  rw [toDigitsBE.eq_def]
  split_ifs
  · simp
  · simp

theorem toDigitsBE_lt (b : Nat) (hb : 2 ≤ b) : ∀ n, ∀ d ∈ toDigitsBE b n, d < b := by
  intro n
  induction n using Nat.strong_induction_on with
  | _ n ih =>
    rw [toDigitsBE.eq_def]
    by_cases h : n < b ∨ b ≤ 1
    · rw [dif_pos h]
      intro d hd
      simp at hd
      subst hd
      omega
    · rw [dif_neg h]
      push_neg at h
      intro d hd
      rw [List.mem_append] at hd
      rcases hd with hd | hd
      · exact ih (n / b) (Nat.div_lt_self (by omega) (by omega)) d hd
      · simp at hd
        subst hd
        exact Nat.mod_lt _ (by omega)

theorem msbVal_toDigitsBE (b : Nat) (hb : 2 ≤ b) :
    ∀ n, msbVal b (toDigitsBE b n) = n := by
  intro n
  induction n using Nat.strong_induction_on with
  | _ n ih =>
    rw [toDigitsBE.eq_def]
    by_cases h : n < b ∨ b ≤ 1
    · rw [dif_pos h]
      show List.foldl (fun a d => a * b + d) 0 [n] = n
      simp
    · rw [dif_neg h]
      push_neg at h
      have hrec := ih (n / b) (Nat.div_lt_self (by omega) (by omega))
      show List.foldl (fun a d => a * b + d) 0
        (toDigitsBE b (n / b) ++ [n % b]) = n
      rw [List.foldl_append]
      rw [show List.foldl (fun a d => a * b + d) 0 (toDigitsBE b (n / b)) =
        msbVal b (toDigitsBE b (n / b)) from rfl, hrec]
      show n / b * b + n % b = n
      rw [Nat.mul_comm]
      have := Nat.div_add_mod n b
      omega

theorem numToText_ge_48 (d : Nat) : 48 ≤ numToText d := by
  unfold numToText
  split_ifs <;> omega

theorem numToText_le_122 (d : Nat) (hd : d < 36) : numToText d ≤ 122 := by
  unfold numToText
  split_ifs <;> omega

theorem numToText_not_upper (d : Nat) (hd : d < 36) :
    ¬ (65 ≤ numToText d ∧ numToText d ≤ 90) := by
  unfold numToText
  split_ifs <;> omega

theorem digitValue_numToText (d : Nat) (hd : d < 36) :
    digitValue (numToText d) = d := by
  unfold numToText digitValue
  split_ifs <;> omega

theorem numToText_ne_95 (d : Nat) (hd : d < 36) : numToText d ≠ 95 := by
  unfold numToText
  split_ifs <;> omega

theorem isSpaceB_of_ge_48 (c : Nat) (h : 48 ≤ c) : isSpaceB c = false := by
  unfold isSpaceB
  have h1 : (c == 32) = false := by
    rw [beq_eq_false_iff_ne]
    omega
  have h2 : decide (c ≤ 13) = false := by
    rw [decide_eq_false_iff_not]
    omega
  rw [h1, h2]
  simp

theorem map_digitValue_numToText (b : Nat) (hb36 : b ≤ 36) (l : List Nat)
    (hl : ∀ d ∈ l, d < b) : (l.map numToText).map digitValue = l := by
  rw [List.map_map]
  have hcg : ∀ d ∈ l, (digitValue ∘ numToText) d = id d := by
    intro d hd
    show digitValue (numToText d) = d
    exact digitValue_numToText d (by have := hl d hd; omega)
  rw [List.map_congr_left hcg, List.map_id]

theorem setStrLoop_clean (b : Nat) (hb2 : 2 ≤ b) (hb36 : b ≤ 36) (neg : Bool)
    (ds : List Nat) (hne : ds ≠ []) (hlt : ∀ d ∈ ds, d < b)
    (hbuf : ¬ (DIGITS_MAX < 1 + (ds.map numToText).length / 2)) :
    setStrLoop neg b (ds.map numToText) =
      .ok (zz_normalize ⟨neg, natToDigits (msbVal b ds)⟩) := by
  obtain ⟨d0, ds', rfl⟩ : ∃ d0 ds', ds = d0 :: ds' := by
    rcases ds with _ | ⟨d0, ds'⟩
    · exact absurd rfl hne
    · exact ⟨d0, ds', rfl⟩
  have hd0 : d0 < b := hlt d0 (List.mem_cons_self _ _)
  have hclean : ∀ c ∈ (d0 :: ds').map numToText, c ≠ 95 ∧ digitValue c < b := by
    intro c hc
    rw [List.mem_map] at hc
    obtain ⟨d, hd, rfl⟩ := hc
    have hdb : d < b := hlt d hd
    refine ⟨numToText_ne_95 d (by omega), ?_⟩
    rw [digitValue_numToText d (by omega)]
    exact hdb
  unfold setStrLoop
  rw [if_neg (by
    rw [List.map_cons]
    simp only [List.isEmpty_cons, List.headI_cons, Bool.false_or]
    intro hc
    exact numToText_ne_95 d0 (by omega) (by simpa using hc))]
  rw [scanDigits_clean b _ hclean]
  dsimp only
  rw [if_neg (by
    rw [Nat.sub_zero]
    exact hbuf)]
  rw [Nat.sub_zero, map_digitValue_numToText b hb36 _ hlt]
  rw [List.take_of_length_le (by rw [List.length_map])]

theorem setStrLoop_buf (b : Nat) (hb36 : b ≤ 36) (neg : Bool)
    (ds : List Nat) (hne : ds ≠ []) (hlt : ∀ d ∈ ds, d < b)
    (hbuf : DIGITS_MAX < 1 + (ds.map numToText).length / 2) :
    setStrLoop neg b (ds.map numToText) = .error .BUF := by
  obtain ⟨d0, ds', rfl⟩ : ∃ d0 ds', ds = d0 :: ds' := by
    rcases ds with _ | ⟨d0, ds'⟩
    · exact absurd rfl hne
    · exact ⟨d0, ds', rfl⟩
  have hd0 : d0 < b := hlt d0 (List.mem_cons_self _ _)
  have hclean : ∀ c ∈ (d0 :: ds').map numToText, c ≠ 95 ∧ digitValue c < b := by
    intro c hc
    rw [List.mem_map] at hc
    obtain ⟨d, hd, rfl⟩ := hc
    have hdb : d < b := hlt d hd
    refine ⟨numToText_ne_95 d (by omega), ?_⟩
    rw [digitValue_numToText d (by omega)]
    exact hdb
  unfold setStrLoop
  rw [if_neg (by
    rw [List.map_cons]
    simp only [List.isEmpty_cons, List.headI_cons, Bool.false_or]
    intro hc
    exact numToText_ne_95 d0 (by omega) (by simpa using hc))]
  rw [scanDigits_clean b _ hclean]
  dsimp only
  rw [if_pos (by
    rw [Nat.sub_zero]
    exact hbuf)]

theorem setStrPrefixed_nopref (b : Nat) (hb36 : b ≤ 36)
    (ds : List Nat) (hne : ds ≠ []) (hlt : ∀ d ∈ ds, d < b) :
    ¬ ((ds.map numToText).headI == 48 ∧ 2 ≤ (ds.map numToText).length ∧
      ((b = 2 ∧ toLowerB (ds.map numToText).tail.headI = 98) ∨
       (b = 8 ∧ toLowerB (ds.map numToText).tail.headI = 111) ∨
       (b = 16 ∧ toLowerB (ds.map numToText).tail.headI = 120))) := by
  rintro ⟨-, hlen2, hdisj⟩
  have hc1 : ∃ d1, d1 < b ∧ (ds.map numToText).tail.headI = numToText d1 := by
    rcases ds with _ | ⟨d0, ds'⟩
    · exact absurd rfl hne
    · rcases ds' with _ | ⟨d1, ds''⟩
      · simp at hlen2
      · refine ⟨d1, hlt d1 (by simp), ?_⟩
        simp
  obtain ⟨d1, hd1, hc1⟩ := hc1
  have htl : toLowerB (numToText d1) = numToText d1 := by
    unfold toLowerB
    rw [if_neg (numToText_not_upper d1 (by omega))]
  rw [hc1, htl] at hdisj
  rcases hdisj with ⟨hb, hv⟩ | ⟨hb, hv⟩ | ⟨hb, hv⟩ <;>
    · subst hb
      unfold numToText at hv
      split_ifs at hv <;> omega

theorem setStrPrefixed_clean (b : Nat) (hb2 : 2 ≤ b) (hb36 : b ≤ 36) (neg : Bool)
    (ds : List Nat) (hne : ds ≠ []) (hlt : ∀ d ∈ ds, d < b)
    (hbuf : ¬ (DIGITS_MAX < 1 + (ds.map numToText).length / 2)) :
    setStrPrefixed neg b (ds.map numToText) =
      .ok (zz_normalize ⟨neg, natToDigits (msbVal b ds)⟩) := by
  unfold setStrPrefixed
  rw [if_neg (setStrPrefixed_nopref b hb36 ds hne hlt), if_neg (by omega : ¬ b = 0)]
  exact setStrLoop_clean b hb2 hb36 neg ds hne hlt hbuf

theorem setStrPrefixed_buf (b : Nat) (hb2 : 2 ≤ b) (hb36 : b ≤ 36) (neg : Bool)
    (ds : List Nat) (hne : ds ≠ []) (hlt : ∀ d ∈ ds, d < b)
    (hbuf : DIGITS_MAX < 1 + (ds.map numToText).length / 2) :
    setStrPrefixed neg b (ds.map numToText) = .error .BUF := by
  unfold setStrPrefixed
  rw [if_neg (setStrPrefixed_nopref b hb36 ds hne hlt), if_neg (by omega : ¬ b = 0)]
  exact setStrLoop_buf b hb36 neg ds hne hlt hbuf

theorem zz_set_str_front (b : Nat) (hb2 : 2 ≤ b) (hb36 : b ≤ 36) (neg : Bool)
    (ds : List Nat) (hne : ds ≠ []) (hlt : ∀ d ∈ ds, d < b) :
    zz_set_str ((if neg then [45] else []) ++ ds.map numToText) ((b : Nat) : Int) =
      setStrPrefixed neg b (ds.map numToText) := by
  obtain ⟨d0, ds', rfl⟩ : ∃ d0 ds', ds = d0 :: ds' := by
    rcases ds with _ | ⟨d0, ds'⟩
    · exact absurd rfl hne
    · exact ⟨d0, ds', rfl⟩
  have hd0 : d0 < b := hlt d0 (List.mem_cons_self _ _)
  have hge := numToText_ge_48 d0
  have hsp : isSpaceB (numToText d0) = false := isSpaceB_of_ge_48 _ hge
  have h45 : (numToText d0 == 45) = false := by
    rw [beq_eq_false_iff_ne]
    omega
  have h43 : (numToText d0 == 43) = false := by
    rw [beq_eq_false_iff_ne]
    omega
  have h95 : (numToText d0 == 95) = false := by
    rw [beq_eq_false_iff_ne]
    exact numToText_ne_95 d0 (by omega)
  have h48exc : ¬ (((b : Nat) : Int) = 0) := by
    intro hc
    have hc2 : b = 0 := by exact_mod_cast hc
    omega
  have hrange : ¬ (((b : Nat) : Int) ≠ 0 ∧
      (((b : Nat) : Int) < 2 ∨ 36 < ((b : Nat) : Int))) := by
    rintro ⟨-, h | h⟩
    · have : b < 2 := by exact_mod_cast h
      omega
    · have : 36 < b := by exact_mod_cast h
      omega
  have htn : ((b : Nat) : Int).toNat = b := Int.toNat_natCast b
  have hsp45 : isSpaceB 45 = false := rfl
  unfold zz_set_str
  rw [if_neg hrange]
  cases neg with
  | true =>
    simp only [if_true, List.cons_append, List.nil_append, List.map_cons,
      List.dropWhile_cons, hsp, hsp45,
      Bool.false_eq_true, if_false, List.isEmpty_cons, List.headI_cons,
      beq_self_eq_true, if_true, Bool.not_true, Bool.false_and, List.tail_cons,
      Bool.false_or, h95, Bool.or_false, h45, h43]
    rw [if_neg (by
      intro hc
      rcases hc with ⟨-, hc2⟩
      exact h48exc hc2)]
    rw [htn]
  | false =>
    simp only [Bool.false_eq_true, if_false, List.nil_append, List.map_cons,
      List.dropWhile_cons, hsp, hsp45, List.isEmpty_cons, List.headI_cons, h45,
      Bool.not_false, Bool.true_and, h43, h95, Bool.or_false]
    rw [if_neg (by
      intro hc
      rcases hc with ⟨-, hc2⟩
      exact h48exc hc2)]
    rw [htn]

theorem zz_set_str_clean (b : Nat) (hb2 : 2 ≤ b) (hb36 : b ≤ 36) (neg : Bool)
    (ds : List Nat) (hne : ds ≠ []) (hlt : ∀ d ∈ ds, d < b)
    (hbuf : ¬ (DIGITS_MAX < 1 + (ds.map numToText).length / 2)) :
    zz_set_str ((if neg then [45] else []) ++ ds.map numToText) ((b : Nat) : Int) =
      .ok (zz_normalize ⟨neg, natToDigits (msbVal b ds)⟩) := by
  rw [zz_set_str_front b hb2 hb36 neg ds hne hlt]
  exact setStrPrefixed_clean b hb2 hb36 neg ds hne hlt hbuf

theorem zz_get_str_eq (u : ZZ) (b : Nat) (hb2 : 2 ≤ b) (hb36 : b ≤ 36) :
    zz_get_str u ((b : Nat) : Int) =
      .ok ((if u.negative then [45] else []) ++
        (toDigitsBE b u.toNat).map numToText) := by
  show (if ((b:Nat):Int).natAbs < 2 ∨ 36 < ((b:Nat):Int).natAbs then
      (.error .VAL : Except zzErr (List Nat))
    else .ok ((if u.negative then [45] else []) ++
      (toDigitsBE (((b:Nat):Int).natAbs) (digitsVal u.digits)).map
        (if ((b:Nat):Int) < 0 then numToTextU else numToText))) = _
  rw [Int.natAbs_ofNat]
  rw [if_neg (by omega)]
  rw [if_neg (not_lt.mpr (Int.natCast_nonneg b))]
  rfl

theorem zz_roundtrip (u : ZZ) (hu : u.Canon) (b : Nat) (hb2 : 2 ≤ b) (hb36 : b ≤ 36)
    (hsz : ¬ (DIGITS_MAX < 1 + (toDigitsBE b u.toNat).length / 2)) :
    ∃ text, zz_get_str u ((b : Nat) : Int) = .ok text ∧
      zz_set_str text ((b : Nat) : Int) = .ok u := by
  refine ⟨_, zz_get_str_eq u b hb2 hb36, ?_⟩
  have hne := toDigitsBE_ne_nil b u.toNat
  have hlt := toDigitsBE_lt b hb2 u.toNat
  have hbuf : ¬ (DIGITS_MAX < 1 +
      ((toDigitsBE b u.toNat).map numToText).length / 2) := by
    rw [List.length_map]
    exact hsz
  rw [zz_set_str_clean b hb2 hb36 u.negative (toDigitsBE b u.toNat) hne hlt hbuf]
  congr 1
  rw [msbVal_toDigitsBE b hb2, ← canon_digits_eq u hu]
  exact zz_normalize_canon_eq u hu

theorem digitsVal_replicate_zero (k : Nat) : digitsVal (List.replicate k 0) = 0 := by
  rw [digitsVal_eq_zero_iff]
  intro d hd
  exact List.eq_of_mem_replicate hd

theorem toDigitsBE_two_pow (m : Nat) :
    toDigitsBE 2 (2 ^ m) = 1 :: List.replicate m 0 := by
  induction m with
  | zero =>
    rw [toDigitsBE.eq_def]
    norm_num
  | succ m ih =>
    rw [toDigitsBE.eq_def]
    rw [dif_neg (by
      push_neg
      constructor
      · have h2 : (2:Nat) ≤ 2 ^ (m+1) := by
          calc (2:Nat) = 2 ^ 1 := rfl
          _ ≤ 2 ^ (m+1) := Nat.pow_le_pow_right (by norm_num) (by omega)
        omega
      · omega)]
    have hdiv : (2:Nat) ^ (m+1) / 2 = 2 ^ m := by
      rw [pow_succ]
      exact Nat.mul_div_cancel _ (by norm_num)
    have hmod : (2:Nat) ^ (m+1) % 2 = 0 := by
      rw [pow_succ]
      exact Nat.mul_mod_left _ _
    rw [hdiv, hmod, ih,
      show List.replicate (m+1) (0:Nat) = List.replicate m 0 ++ [0]
        from List.replicate_succ' ..]
    rfl

/-! ## Further helper lemmas on digit stores -/

theorem natToDigits_small (n : Nat) (h1 : n ≠ 0) (h2 : n < DBASE) :
    natToDigits n = [n] := by
  rw [natToDigits_pos n h1, Nat.mod_eq_of_lt h2, Nat.div_eq_of_lt h2, natToDigits_zero]

theorem natToDigits_DBASE_pow (k : Nat) :
    natToDigits (DBASE ^ k) = List.replicate k 0 ++ [1] := by
  induction k with
  | zero =>
    rw [pow_zero, natToDigits_small 1 one_ne_zero (by norm_num [DBASE])]
    rfl
  | succ m ih =>
    rw [natToDigits_pos _ (pow_ne_zero _ (by norm_num [DBASE]))]
    have hmod : DBASE ^ (m + 1) % DBASE = 0 := by
      rw [pow_succ]
      exact Nat.mul_mod_left _ _
    have hdiv : DBASE ^ (m + 1) / DBASE = DBASE ^ m := by
      rw [pow_succ]
      exact Nat.mul_div_cancel _ DBASE_pos
    rw [hmod, hdiv, ih]
    simp [List.replicate_succ]

theorem normDigits_snoc_of_ne (l : List Nat) (d : Nat) (hd : d ≠ 0) :
    normDigits (l ++ [d]) = l ++ [d] := by
  induction l with
  | nil =>
    rw [List.nil_append, normDigits_cons, normDigits_nil]
    simp [hd]
  | cons x xs ih =>
    rw [List.cons_append, normDigits_cons, ih]
    simp

theorem canon_snoc (b : Bool) (l : List Nat) (d : Nat)
    (hb : ∀ x ∈ l, x < DBASE) (hd : d < DBASE) (hd0 : d ≠ 0)
    (hlen : l.length + 1 ≤ DIGITS_MAX) : ZZ.Canon ⟨b, l ++ [d]⟩ := by
  refine ⟨⟨?_, normDigits_snoc_of_ne l d hd0, by simpa using hlen⟩, ?_⟩
  · intro x hx
    rw [List.mem_append] at hx
    rcases hx with hx | hx
    · exact hb x hx
    · simp only [List.mem_singleton] at hx
      omega
  · intro hc
    exact absurd hc (by simp)

/-! ## Canonicity of `zz_set_str` outputs -/

theorem scanDigits_ok_lt (base : Nat) :
    ∀ n (l : List Nat), l.length ≤ n → ∀ ds k, scanDigits base l = .ok (ds, k) →
      ∀ d ∈ ds, d < base := by
  intro n
  induction n with
  | zero =>
    intro l hl ds k hscan
    have hl0 : l = [] := List.length_eq_zero.mp (Nat.le_zero.mp hl)
    subst hl0
    simp [scanDigits] at hscan
    obtain ⟨h1, h2⟩ := hscan
    subst h1
    intro d hd
    simp at hd
  | succ n ih =>
    intro l hl ds k hscan
    rcases l with _ | ⟨c, rest⟩
    · simp [scanDigits] at hscan
      obtain ⟨h1, h2⟩ := hscan
      subst h1
      intro d hd
      simp at hd
    · rw [scanDigits.eq_def] at hscan
      dsimp only at hscan
      by_cases hc : c = 95
      · rw [if_pos hc] at hscan
        rcases rest with _ | ⟨h, t⟩
        · exact Except.noConfusion hscan
        · dsimp only at hscan
          by_cases hh : h = 95
          · rw [if_pos hh] at hscan
            exact Except.noConfusion hscan
          · rw [if_neg hh] at hscan
            by_cases hd : digitValue h < base
            · rw [if_pos hd] at hscan
              rcases hs2 : scanDigits base (t ++ [(h :: t).getLast (by simp)])
                with e | pr
              · rw [hs2] at hscan
                exact Except.noConfusion hscan
              · rw [hs2] at hscan
                obtain ⟨ds2, k2⟩ := pr
                dsimp only at hscan
                injection hscan with hscan
                rw [Prod.mk.injEq] at hscan
                obtain ⟨hds, hk⟩ := hscan
                subst hds
                intro d hdm
                rcases List.mem_cons.mp hdm with rfl | hdm
                · exact hd
                · exact ih (t ++ [(h :: t).getLast (by simp)])
                    (by simp at hl ⊢; omega) ds2 k2 hs2 d hdm
            · rw [if_neg hd] at hscan
              by_cases hs : isSpaceB h = true
              · rw [if_pos hs] at hscan
                by_cases hall : (t ++ [(h :: t).getLast (by simp)]).all isSpaceB = true
                · rw [if_pos hall] at hscan
                  injection hscan with hscan
                  rw [Prod.mk.injEq] at hscan
                  obtain ⟨hds, hk⟩ := hscan
                  subst hds
                  intro d hdm
                  simp at hdm
                · rw [if_neg hall] at hscan
                  exact Except.noConfusion hscan
              · rw [if_neg hs] at hscan
                exact Except.noConfusion hscan
      · rw [if_neg hc] at hscan
        by_cases hd : digitValue c < base
        · rw [if_pos hd] at hscan
          rcases hs2 : scanDigits base rest with e | pr
          · rw [hs2] at hscan
            exact Except.noConfusion hscan
          · rw [hs2] at hscan
            obtain ⟨ds2, k2⟩ := pr
            dsimp only at hscan
            injection hscan with hscan
            rw [Prod.mk.injEq] at hscan
            obtain ⟨hds, hk⟩ := hscan
            subst hds
            intro d hdm
            rcases List.mem_cons.mp hdm with rfl | hdm
            · exact hd
            · exact ih rest (by simp at hl; omega) ds2 k2 hs2 d hdm
        · rw [if_neg hd] at hscan
          by_cases hs : isSpaceB c = true
          · rw [if_pos hs] at hscan
            by_cases hall : rest.all isSpaceB = true
            · rw [if_pos hall] at hscan
              injection hscan with hscan
              rw [Prod.mk.injEq] at hscan
              obtain ⟨hds, hk⟩ := hscan
              subst hds
              intro d hdm
              simp at hdm
            · rw [if_neg hall] at hscan
              exact Except.noConfusion hscan
          · rw [if_neg hs] at hscan
            exact Except.noConfusion hscan

theorem msbVal_foldl_lt (base : Nat) :
    ∀ (l : List Nat) (a : Nat), (∀ d ∈ l, d < base) →
      l.foldl (fun a d => a * base + d) a < (a + 1) * base ^ l.length := by
  intro l
  induction l with
  | nil =>
    intro a _
    simp
  | cons d t ih =>
    intro a hl
    rw [List.foldl_cons, List.length_cons]
    have h1 := ih (a * base + d) (fun x hx => hl x (List.mem_cons_of_mem d hx))
    have hd : d < base := hl d (List.mem_cons_self d t)
    calc List.foldl (fun a d => a * base + d) (a * base + d) t
        < (a * base + d + 1) * base ^ t.length := h1
      _ ≤ ((a + 1) * base) * base ^ t.length := by
          have h2 : a * base + d + 1 ≤ (a + 1) * base := by nlinarith
          exact Nat.mul_le_mul_right _ h2
      _ = (a + 1) * base ^ (t.length + 1) := by ring

theorem msbVal_lt (base : Nat) (l : List Nat)
    (hl : ∀ d ∈ l, d < base) : msbVal base l < base ^ l.length := by
  have h := msbVal_foldl_lt base l 0 hl
  simpa [msbVal] using h

theorem msbVal_natToDigits_le (base : Nat) (hb36 : base ≤ 36)
    (l : List Nat) (hl : ∀ d ∈ l, d < base) (len : Nat)
    (hlen : ¬ (DIGITS_MAX < 1 + len / 2)) :
    (natToDigits (msbVal base (l.take len))).length ≤ DIGITS_MAX := by
  apply natToDigits_length_le
  have h1 : msbVal base (l.take len) < base ^ (l.take len).length :=
    msbVal_lt base _ (fun d hd => hl d (List.mem_of_mem_take hd))
  have htl : (l.take len).length ≤ len := by
    rw [List.length_take]
    omega
  have h2 : base ^ (l.take len).length ≤ 64 ^ len :=
    le_trans (Nat.pow_le_pow_left (by omega) _)
      (Nat.pow_le_pow_right (by norm_num) htl)
  have hlen2 : len ≤ 2 * DIGITS_MAX - 1 := by
    have hpos := DIGITS_MAX_pos
    omega
  calc msbVal base (l.take len) < 64 ^ len := lt_of_lt_of_le h1 h2
    _ ≤ 64 ^ (2 * DIGITS_MAX - 1) := Nat.pow_le_pow_right (by norm_num) hlen2
    _ < DBASE ^ DIGITS_MAX := by
        rw [show (64:Nat) = 2 ^ 6 from rfl, show DBASE = 2 ^ 64 from rfl,
          ← pow_mul, ← pow_mul]
        exact Nat.pow_lt_pow_right (by norm_num) (by norm_num [DIGITS_MAX])

theorem zz_normalize_natToDigits_canon (neg : Bool) (n : Nat)
    (hlen : (natToDigits n).length ≤ DIGITS_MAX) :
    (zz_normalize ⟨neg, natToDigits n⟩).Canon := by
  unfold zz_normalize
  dsimp only
  rw [normDigits_natToDigits]
  refine ⟨⟨natToDigits_mem_lt n, normDigits_natToDigits n, hlen⟩, ?_⟩
  intro hc
  have hnil : natToDigits n = [] := hc
  show (if (natToDigits n).isEmpty = true then false else neg) = false
  rw [if_pos (by rw [hnil]; rfl)]

theorem setStrLoop_canon (neg : Bool) (base : Nat) (hb36 : base ≤ 36)
    (p : List Nat) : ∀ w, setStrLoop neg base p = .ok w → w.Canon := by
  intro w hw
  unfold setStrLoop at hw
  by_cases h0 : (p.isEmpty || p.headI == 95) = true
  · rw [if_pos h0] at hw
    exact Except.noConfusion hw
  rw [if_neg h0] at hw
  rcases hscan : scanDigits base p with e | pr
  · rw [hscan] at hw
    exact Except.noConfusion hw
  rw [hscan] at hw
  obtain ⟨ds, k⟩ := pr
  dsimp only at hw
  by_cases hbuf : DIGITS_MAX < 1 + (p.length - k) / 2
  · rw [if_pos hbuf] at hw
    exact Except.noConfusion hw
  rw [if_neg hbuf] at hw
  injection hw with hw
  subst hw
  exact zz_normalize_natToDigits_canon neg _
    (msbVal_natToDigits_le base hb36 ds
      (scanDigits_ok_lt base p.length p le_rfl ds k hscan) _ hbuf)

theorem setStrPrefixed_canon (neg : Bool) (b : Nat)
    (hb : b = 0 ∨ (2 ≤ b ∧ b ≤ 36)) (p : List Nat) :
    ∀ w, setStrPrefixed neg b p = .ok w → w.Canon := by
  intro w hw
  unfold setStrPrefixed at hw
  have hb36 : (if b = 0 then 10 else b) ≤ 36 := by
    rcases hb with h | h
    · rw [if_pos h]
      norm_num
    · rw [if_neg (by omega)]
      exact h.2
  exact setStrLoop_canon neg _ hb36 _ w hw

/-- The trailing part of `zz_set_str` after whitespace and sign handling,
as a standalone statement about an arbitrary remaining byte list. -/
theorem set_str_tail_canon (gneg : Bool) (p2 : List Nat) (base : Int)
    (hbn : base.toNat = 0 ∨ (2 ≤ base.toNat ∧ base.toNat ≤ 36)) (w : ZZ)
    (hw : (if (p2.isEmpty || p2.headI == 95) = true then .error .VAL
      else if (p2.headI == 48) = true ∧ base = 0 then
        if p2.length = 1 then .ok (zz_set_i64 0)
        else
          match (if toLowerB p2.tail.headI = 98 then some 2
            else if toLowerB p2.tail.headI = 111 then some 8
            else if toLowerB p2.tail.headI = 120 then some 16
            else if isSpaceB p2.tail.headI = true then some 0
            else none : Option Nat) with
          | none => .error .VAL
          | some nb =>
            setStrPrefixed gneg nb
              (if ¬(p2.drop 2).isEmpty = true ∧ ((p2.drop 2).headI == 95) = true
                then (p2.drop 2).tail else p2.drop 2)
      else setStrPrefixed gneg base.toNat p2 : Except zzErr ZZ) = .ok w) :
    w.Canon := by
  by_cases hE : (p2.isEmpty || p2.headI == 95) = true
  · rw [if_pos hE] at hw
    exact Except.noConfusion hw
  rw [if_neg hE] at hw
  by_cases h48 : (p2.headI == 48) = true ∧ base = 0
  · rw [if_pos h48] at hw
    by_cases hlen1 : p2.length = 1
    · rw [if_pos hlen1] at hw
      injection hw with hw
      subst hw
      exact zz_set_i64_canon 0 (by norm_num [DBASE])
    rw [if_neg hlen1] at hw
    by_cases h98 : toLowerB p2.tail.headI = 98
    · rw [if_pos h98] at hw
      exact setStrPrefixed_canon gneg 2 (Or.inr (by norm_num)) _ w hw
    rw [if_neg h98] at hw
    by_cases h111 : toLowerB p2.tail.headI = 111
    · rw [if_pos h111] at hw
      exact setStrPrefixed_canon gneg 8 (Or.inr (by norm_num)) _ w hw
    rw [if_neg h111] at hw
    by_cases h120 : toLowerB p2.tail.headI = 120
    · rw [if_pos h120] at hw
      exact setStrPrefixed_canon gneg 16 (Or.inr (by norm_num)) _ w hw
    rw [if_neg h120] at hw
    by_cases hspc : isSpaceB p2.tail.headI = true
    · rw [if_pos hspc] at hw
      exact setStrPrefixed_canon gneg 0 (Or.inl rfl) _ w hw
    · rw [if_neg hspc] at hw
      exact Except.noConfusion hw
  · rw [if_neg h48] at hw
    exact setStrPrefixed_canon gneg base.toNat hbn p2 w hw

theorem zz_set_str_canon (s : List Nat) (base : Int) :
    ∀ w, zz_set_str s base = .ok w → w.Canon := by
  intro w hw
  unfold zz_set_str at hw
  by_cases h1 : base ≠ 0 ∧ (base < 2 ∨ 36 < base)
  · rw [if_pos h1] at hw
    exact Except.noConfusion hw
  rw [if_neg h1] at hw
  push_neg at h1
  have hbn : base.toNat = 0 ∨ (2 ≤ base.toNat ∧ base.toNat ≤ 36) := by
    rcases eq_or_ne base 0 with h0 | h0
    · left
      rw [h0]
      rfl
    · right
      obtain ⟨ha, hb⟩ := h1 h0
      omega
  generalize s.dropWhile isSpaceB = p0 at hw
  dsimp only at hw
  by_cases hE0 : p0.isEmpty = true
  · rw [if_pos hE0] at hw
    exact Except.noConfusion hw
  rw [if_neg hE0] at hw
  by_cases hneg : (p0.headI == 45) = true
  · simp only [hneg, eq_self_iff_true, if_true, Bool.not_true, Bool.false_and,
      Bool.false_eq_true, if_false] at hw
    by_cases hE1 : p0.tail.isEmpty = true
    · rw [if_pos hE1] at hw
      exact Except.noConfusion hw
    rw [if_neg hE1] at hw
    exact set_str_tail_canon _ _ _ hbn w hw
  · have hneg2 : (p0.headI == 45) = false := bool_eq_false_of_not_true hneg
    simp only [hneg2, Bool.false_eq_true, if_false, Bool.not_false, Bool.true_and] at hw
    by_cases hE1 : p0.isEmpty = true
    · rw [if_pos hE1] at hw
      exact Except.noConfusion hw
    rw [if_neg hE1] at hw
    by_cases h43 : (p0.headI == 43) = true
    · simp only [h43, eq_self_iff_true, if_true] at hw
      exact set_str_tail_canon _ _ _ hbn w hw
    · have h432 : (p0.headI == 43) = false := bool_eq_false_of_not_true h43
      simp only [h432, Bool.false_eq_true, if_false] at hw
      exact set_str_tail_canon _ _ _ hbn w hw

theorem zz_sqrtrem_isOk (u : ZZ) (want_rem : Bool) (hneg : u.negative = false) :
    ∃ s r, zz_sqrtrem u want_rem = .ok (s, r) := by
  unfold zz_sqrtrem
  rw [if_neg (by rw [hneg]; exact Bool.false_ne_true)]
  split_ifs <;> exact ⟨_, _, rfl⟩

/-! ## Claim C1 -/

/-- C1 (corrected): for canonical `u` and canonical nonzero `v` with `u`
below the digit-count cap, `zz_div` succeeds and satisfies the division
identity `q*v + r = u` — but under the FLOOR convention: the remainder is
zero or carries the DIVISOR's sign (`0 <= r < v` or `v < r <= 0`), not
the dividend's. -/
theorem C1_div_floor (u v : ZZ) (hu : u.Canon) (hv : v.Canon)
    (hvne : v.digits ≠ []) (hsz : u.digits.length < DIGITS_MAX) :
    ∃ q r, zz_div u v = .ok (q, r) ∧ q.Canon ∧ r.Canon ∧
      q.toInt * v.toInt + r.toInt = u.toInt ∧
      (r.toInt = 0 ∨ (0 < v.toInt ∧ 0 ≤ r.toInt ∧ r.toInt < v.toInt) ∨
        (v.toInt < 0 ∧ v.toInt < r.toInt ∧ r.toInt ≤ 0)) := by
  obtain ⟨q, r, hqr⟩ := zz_div_isOk u v hvne hsz
  obtain ⟨h1, h2, h3, h4⟩ := zz_div_spec u v hu hv q r hqr
  exact ⟨q, r, hqr, h1, h2, h3, h4⟩

theorem C1_div_floor_witness :
    ∃ q r, zz_div ⟨false, [7]⟩ ⟨true, [2]⟩ = .ok (q, r) ∧ q.Canon ∧ r.Canon ∧
      q.toInt * (⟨true, [2]⟩ : ZZ).toInt + r.toInt = (⟨false, [7]⟩ : ZZ).toInt ∧
      (r.toInt = 0 ∨
        (0 < (⟨true, [2]⟩ : ZZ).toInt ∧ 0 ≤ r.toInt ∧
          r.toInt < (⟨true, [2]⟩ : ZZ).toInt) ∨
        ((⟨true, [2]⟩ : ZZ).toInt < 0 ∧ (⟨true, [2]⟩ : ZZ).toInt < r.toInt ∧
          r.toInt ≤ 0)) :=
  C1_div_floor ⟨false, [7]⟩ ⟨true, [2]⟩ (by decide) (by decide) (by decide) (by decide)

/-- C1 counterexample: `1 / (-2)` yields quotient `-1` and remainder `-1`:
the nonzero remainder has the DIVISOR's sign while the dividend is
positive, so the claimed truncating convention (`sign(r) == sign(u)` or
`r == 0`) does not hold for `zz_div`. -/
theorem C1_counterexample :
    zz_div ⟨false, [1]⟩ ⟨true, [2]⟩ = .ok (⟨true, [1]⟩, ⟨true, [1]⟩) ∧
    (⟨false, [1]⟩ : ZZ).toInt = 1 ∧ (⟨true, [2]⟩ : ZZ).toInt = -2 ∧
    (⟨true, [1]⟩ : ZZ).toInt = -1 :=
  ⟨rfl, by decide, by decide, by decide⟩

/-! ## Claim C6 -/

/-- C6: for every canonical negative `u` and every shift `k`,
`zz_quo_2exp` realizes floor division by `2^k`: the truncated magnitude
is incremented by one exactly when some shifted-out bit is nonzero; in
particular the shift of `-(2^128 - 2^64)` (digits `[0, 2^64-1]`) right by
64 gives `-(2^64 - 1)`. -/
theorem C6_quo_2exp_floor (u : ZZ) (hu : u.Canon) (hneg : u.negative = true)
    (k : Nat) :
    (∃ w, zz_quo_2exp u k = .ok w ∧ w.Canon ∧
      w.toInt = -(((u.toNat / 2 ^ k : Nat) : Int) +
        (if u.toNat % 2 ^ k = 0 then 0 else 1))) ∧
    zz_quo_2exp ⟨true, [0, 18446744073709551615]⟩ 64 =
      .ok ⟨true, [18446744073709551615]⟩ := by
  constructor
  · obtain ⟨w, hw⟩ := zz_quo_2exp_isOk u k
    obtain ⟨hc, hval⟩ := zz_quo_2exp_spec u hu k w hw
    refine ⟨w, hw, hc, ?_⟩
    have hdne : u.digits ≠ [] := by
      intro hnil
      rw [hu.2 hnil] at hneg
      exact Bool.noConfusion hneg
    have hNpos : 0 < u.toNat := Nat.pos_of_ne_zero (canon_toNat_ne_zero u hu hdne)
    have hui : u.toInt = -(u.toNat : Int) := by
      rw [canon_toInt_eq u hu, hneg, if_pos rfl]
    have h2k : ((2 : Int) ^ k) = (((2 ^ k : Nat)) : Int) := by
      push_cast
      ring
    rw [hval, hui, h2k,
      int_fdiv_negNat u.toNat (2 ^ k) hNpos (Nat.pos_pow_of_pos k (by norm_num))]
    by_cases hm : u.toNat % 2 ^ k = 0
    · rw [if_pos hm]
      ring
    · rw [if_neg hm]
      ring
  · rfl

theorem C6_quo_2exp_floor_witness :
    ∃ w, zz_quo_2exp ⟨true, [5]⟩ 1 = .ok w ∧ w.Canon ∧
      w.toInt = -((((⟨true, [5]⟩ : ZZ).toNat / 2 ^ 1 : Nat) : Int) +
        (if (⟨true, [5]⟩ : ZZ).toNat % 2 ^ 1 = 0 then 0 else 1)) :=
  (C6_quo_2exp_floor ⟨true, [5]⟩ (by decide) rfl 1).1

/-! ## Claim C7 -/

/-- C7: `zz_sqrtrem` fails with `ZZ_VAL` exactly on negative input; on
canonical nonnegative input it succeeds with `s = floor(sqrt(u))`
(`s^2 <= u < (s+1)^2`), and when the remainder is requested it satisfies
`s^2 + rem = u` with `0 <= rem <= 2*s`; without the request no remainder
is produced. -/
theorem C7_sqrtrem (u : ZZ) (hu : u.Canon) (want_rem : Bool) :
    (u.negative = true → zz_sqrtrem u want_rem = .error .VAL) ∧
    (u.negative = false → ∃ s r, zz_sqrtrem u want_rem = .ok (s, r) ∧
      s.Canon ∧ s.negative = false ∧
      s.toNat * s.toNat ≤ u.toNat ∧ u.toNat < (s.toNat + 1) * (s.toNat + 1) ∧
      (want_rem = true → ∃ rr, r = some rr ∧ rr.Canon ∧
        rr.toInt = u.toInt - s.toInt * s.toInt ∧
        0 ≤ rr.toInt ∧ rr.toInt ≤ 2 * s.toInt) ∧
      (want_rem = false → r = none)) := by
  refine ⟨zz_sqrtrem_neg u want_rem, ?_⟩
  intro hneg
  obtain ⟨s, r, hw⟩ := zz_sqrtrem_isOk u want_rem hneg
  obtain ⟨hsc, hsneg, hle, hlt, hrem, hnone⟩ := zz_sqrtrem_spec u hu want_rem s r hw
  refine ⟨s, r, hw, hsc, hsneg, hle, hlt, ?_, hnone⟩
  intro hwr
  obtain ⟨rr, hr, hrrc, hrrv⟩ := hrem hwr
  have h1 : u.toInt = (u.toNat : Int) := by
    rw [canon_toInt_eq u hu, hneg, if_neg (by simp)]
  have h2 : s.toInt = (s.toNat : Int) := by
    rw [canon_toInt_eq s hsc, hsneg, if_neg (by simp)]
  have hcast : ((s.toNat * s.toNat : Nat) : Int) =
      (s.toNat : Int) * (s.toNat : Int) := by
    push_cast
    ring
  have hcle : ((s.toNat * s.toNat : Nat) : Int) ≤ (u.toNat : Int) :=
    Int.ofNat_le.mpr hle
  have h3 : u.toNat ≤ s.toNat * s.toNat + 2 * s.toNat := by
    have hexp : (s.toNat + 1) * (s.toNat + 1) =
        s.toNat * s.toNat + 2 * s.toNat + 1 := by ring
    rw [hexp] at hlt
    exact Nat.lt_succ_iff.mp hlt
  have hcle2 : ((u.toNat : Nat) : Int) ≤
      ((s.toNat * s.toNat + 2 * s.toNat : Nat) : Int) := Int.ofNat_le.mpr h3
  refine ⟨rr, hr, hrrc, hrrv, ?_, ?_⟩
  · rw [hrrv, h1, h2]
    rw [hcast] at hcle
    linarith
  · rw [hrrv, h1, h2]
    push_cast at hcle2
    linarith

theorem C7_sqrtrem_witness :
    ∃ s r, zz_sqrtrem ⟨false, [10]⟩ true = .ok (s, r) ∧
      s.Canon ∧ s.negative = false ∧
      s.toNat * s.toNat ≤ (⟨false, [10]⟩ : ZZ).toNat ∧
      (⟨false, [10]⟩ : ZZ).toNat < (s.toNat + 1) * (s.toNat + 1) ∧
      (true = true → ∃ rr, r = some rr ∧ rr.Canon ∧
        rr.toInt = (⟨false, [10]⟩ : ZZ).toInt - s.toInt * s.toInt ∧
        0 ≤ rr.toInt ∧ rr.toInt ≤ 2 * s.toInt) ∧
      (true = false → r = none) :=
  (C7_sqrtrem ⟨false, [10]⟩ (by decide) true).2 rfl

/-! ## Claim C8 -/

/-- C8: every modelled operation that returns Ok leaves its output in
canonical form (no redundant leading zero word, zero has digit count 0
and cleared sign): `zz_add`, `zz_sub`, the i64 add/sub, `zz_mul`,
`zz_div` (both outputs), `zz_quo_2exp`, `zz_pow`, `zz_sqrtrem` (root and
remainder), `zz_gcdext` (all three outputs), `zz_set_i64`, `zz_abs`,
`zz_neg`, `zz_pos` and `zz_set_str`. -/
theorem C8_canonical_outputs :
    (∀ u v w, u.Canon → v.Canon → zz_add u v = .ok w → w.Canon) ∧
    (∀ u v w, u.Canon → v.Canon → zz_sub u v = .ok w → w.Canon) ∧
    (∀ u x su w, u.Canon → x.natAbs < DBASE →
      zz_addsub_i64 u x su = .ok w → w.Canon) ∧
    (∀ u v w, u.Canon → v.Canon → zz_mul u v = .ok w → w.Canon) ∧
    (∀ u v q r, u.Canon → v.Canon → zz_div u v = .ok (q, r) →
      q.Canon ∧ r.Canon) ∧
    (∀ u k w, u.Canon → zz_quo_2exp u k = .ok w → w.Canon) ∧
    (∀ u v w, u.Canon → zz_pow u v = .ok w → w.Canon) ∧
    (∀ u wr s r, u.Canon → zz_sqrtrem u wr = .ok (s, r) →
      s.Canon ∧ ∀ rr, r = some rr → rr.Canon) ∧
    (∀ u v g s t, u.Canon → v.Canon → zz_gcdext u v = .ok (g, s, t) →
      g.Canon ∧ s.Canon ∧ t.Canon) ∧
    (∀ x, x.natAbs < DBASE → (zz_set_i64 x).Canon) ∧
    (∀ u, u.Canon → (zz_abs u).Canon ∧ (zz_neg u).Canon ∧ (zz_pos u).Canon) ∧
    (∀ s base w, zz_set_str s base = .ok w → w.Canon) := by
  refine ⟨?_, ?_, ?_, ?_, ?_, ?_, ?_, ?_, ?_, ?_, ?_, ?_⟩
  · intro u v w hu hv hw
    exact (zz_addsub_spec u v false hu hv w hw).1
  · intro u v w hu hv hw
    exact (zz_addsub_spec u v true hu hv w hw).1
  · intro u x su w hu hx hw
    exact (zz_addsub_i64_spec u x su hu.1 hx w hw).1
  · intro u v w hu hv hw
    exact (zz_mul_spec u v hu hv w hw).1
  · intro u v q r hu hv hw
    obtain ⟨h1, h2, -, -⟩ := zz_div_spec u v hu hv q r hw
    exact ⟨h1, h2⟩
  · intro u k w hu hw
    exact (zz_quo_2exp_spec u hu k w hw).1
  · intro u v w hu hw
    exact (zz_pow_spec u hu v w hw).1
  · intro u wr s r hu hw
    obtain ⟨h1, -, -, -, hsome, hnone⟩ := zz_sqrtrem_spec u hu wr s r hw
    refine ⟨h1, ?_⟩
    intro rr hrr
    cases wr with
    | false =>
      rw [hnone rfl] at hrr
      exact Option.noConfusion hrr
    | true =>
      obtain ⟨rr2, hr2, hc2, -⟩ := hsome rfl
      rw [hrr] at hr2
      injection hr2 with h
      rw [h]
      exact hc2
  · intro u v g s t hu hv hw
    exact zz_gcdext_canon u v hu hv g s t hw
  · intro x hx
    exact zz_set_i64_canon x hx
  · intro u hu
    refine ⟨(zz_abs_spec u hu).1, (zz_neg_spec u hu).1, ?_⟩
    rw [zz_pos_eq u hu]
    exact hu
  · intro s base w hw
    exact zz_set_str_canon s base w hw

theorem C8_canonical_outputs_witness : (⟨false, [5]⟩ : ZZ).Canon :=
  C8_canonical_outputs.1 ⟨false, [2]⟩ ⟨false, [3]⟩ ⟨false, [5]⟩
    (by decide) (by decide) rfl

/-! ## Claim C10 -/

/-- C10: aliased `zz_abs`/`zz_neg` calls (output == input) touch only the
sign field: buffer contents, logical digit count and capacity are
unchanged; `zz_abs` clears the sign, `zz_neg` flips it exactly on values
of nonzero size and leaves a zero (size 0) completely unchanged, so the
sign of zero stays cleared. -/
theorem C10_inplace_sign_only (v : ZZBuf) :
    (zz_abs_inplace v).buf = v.buf ∧ (zz_abs_inplace v).size = v.size ∧
    (zz_abs_inplace v).alloc = v.alloc ∧ (zz_abs_inplace v).negative = false ∧
    (zz_neg_inplace v).buf = v.buf ∧ (zz_neg_inplace v).size = v.size ∧
    (zz_neg_inplace v).alloc = v.alloc ∧
    (v.size ≠ 0 → (zz_neg_inplace v).negative = !v.negative) ∧
    (v.size = 0 → zz_neg_inplace v = v) := by
  unfold zz_abs_inplace zz_neg_inplace
  by_cases h : v.size ≠ 0
  · rw [if_pos h]
    exact ⟨rfl, rfl, rfl, rfl, rfl, rfl, rfl, fun _ => rfl, fun hc => absurd hc h⟩
  · rw [if_neg h]
    exact ⟨rfl, rfl, rfl, rfl, rfl, rfl, rfl, fun hc => absurd hc h, fun _ => rfl⟩

theorem C10_inplace_sign_only_witness :
    (zz_neg_inplace ⟨false, 4, 2, [7, 9]⟩).buf = [7, 9] ∧
    (zz_neg_inplace ⟨false, 4, 2, [7, 9]⟩).negative = !false :=
  ⟨(C10_inplace_sign_only ⟨false, 4, 2, [7, 9]⟩).2.2.2.2.1,
   (C10_inplace_sign_only ⟨false, 4, 2, [7, 9]⟩).2.2.2.2.2.2.2.1 (by decide)⟩

/-! ## Claim C9 -/

/-- C9 (corrected): for canonical `u` and `k` at least the bit length of
`u`, `zz_quo_2exp` does return Ok with value `0` for nonnegative `u` and
`-1` for negative `u`; however the branch that never reads the digit
buffer fires exactly when `k >= 64 * digit_count` (and `u` is nonzero),
which is strictly coarser than `k >= bitlen(u)`. -/
theorem C9_quo_2exp_bitlen (u : ZZ) (hu : u.Canon) (k : Nat)
    (hk : zz_bitlen u ≤ k) :
    (∃ w, zz_quo_2exp u k = .ok w ∧
      w.toInt = (if u.negative then -1 else 0)) ∧
    (quo2expEarly u k = true ↔
      u.digits.length ≠ 0 ∧ 64 * u.digits.length ≤ k) := by
  constructor
  · obtain ⟨w, hw⟩ := zz_quo_2exp_isOk u k
    obtain ⟨hc, hval⟩ := zz_quo_2exp_spec u hu k w hw
    refine ⟨w, hw, ?_⟩
    by_cases h0 : u.digits = []
    · have hN : u.toNat = 0 := canon_toNat_eq_zero u h0
      have hneg : u.negative = false := hu.2 h0
      rw [hval, hneg, canon_toInt_eq u hu, hneg, if_neg (by simp),
        if_neg (by simp), hN]
      simp [Int.zero_fdiv]
    · have hbit : Nat.log2 u.toNat + 1 ≤ k := by
        have hbl : zz_bitlen u = Nat.log2 (digitsVal u.digits) + 1 := by
          unfold zz_bitlen
          rw [if_neg (by simpa [List.length_eq_zero] using h0)]
        rw [hbl] at hk
        exact hk
      have hNpos : 0 < u.toNat := Nat.pos_of_ne_zero (canon_toNat_ne_zero u hu h0)
      have hNlt : u.toNat < 2 ^ k := by
        calc u.toNat < 2 ^ (Nat.log2 u.toNat + 1) := Nat.lt_log2_self
          _ ≤ 2 ^ k := Nat.pow_le_pow_right (by norm_num) hbit
      have h2k : ((2 : Int) ^ k) = (((2 ^ k : Nat)) : Int) := by
        push_cast
        ring
      rw [hval]
      cases hb : u.negative with
      | false =>
        rw [canon_toInt_eq u hu, hb, if_neg (by simp), if_neg (by simp), h2k,
          int_fdiv_ofNat, Nat.div_eq_of_lt hNlt]
        rfl
      | true =>
        rw [canon_toInt_eq u hu, hb, if_pos rfl, if_pos rfl, h2k,
          int_fdiv_negNat u.toNat (2 ^ k) hNpos (Nat.pos_pow_of_pos k (by norm_num)),
          Nat.div_eq_of_lt hNlt,
          if_neg (by rw [Nat.mod_eq_of_lt hNlt]; omega)]
        norm_num
  · unfold quo2expEarly
    rw [Bool.and_eq_true, decide_eq_true_eq, decide_eq_true_eq]
    exact Iff.rfl

theorem C9_quo_2exp_bitlen_witness :
    (∃ w, zz_quo_2exp ⟨true, [1]⟩ 64 = .ok w ∧
      w.toInt = (if (⟨true, [1]⟩ : ZZ).negative then -1 else 0)) ∧
    (quo2expEarly ⟨true, [1]⟩ 64 = true ↔
      (⟨true, [1]⟩ : ZZ).digits.length ≠ 0 ∧
        64 * (⟨true, [1]⟩ : ZZ).digits.length ≤ 64) :=
  C9_quo_2exp_bitlen ⟨true, [1]⟩ (by decide) 64 (by simp [zz_bitlen, Nat.log2])

/-- C9 counterexample: `u = 1`, `k = 1` satisfies `k >= bitlen(u)`, yet
the early branch of `zz_quo_2exp` that avoids touching the digit buffer
is NOT taken — that branch requires `k >= 64 * digit_count`, so the
claimed "without touching u's digit buffer" behaviour does not hold for
every `k >= bitlen(u)`. -/
theorem C9_counterexample :
    zz_bitlen ⟨false, [1]⟩ ≤ 1 ∧ quo2expEarly ⟨false, [1]⟩ 1 = false := by
  constructor
  · show (if ([1] : List Nat).length = 0 then 0
      else Nat.log2 (digitsVal [1]) + 1) ≤ 1
    rw [if_neg (by simp)]
    have h1 : digitsVal [1] = 1 := by simp
    rw [h1]
    simp [Nat.log2]
  · rfl

/-! ## Claim C2 -/

/-- C2 (corrected): for canonical bases of magnitude one — `u = +1`
always yields Ok with result 1 (it is special-cased before the overflow
guard); `u = -1` yields Ok with the parity sign `(-1)^v` only for
exponents `v <= ZZ_DIGITS_MAX`, and fails with `ZZ_BUF` beyond that: the
guard `DIGITS_MAX / u_size < v` does not special-case `-1`. -/
theorem C2_pow_unit (u : ZZ) (hu : u.Canon) (v : Nat) :
    (u.toInt = 1 → zz_pow u v = .ok (zz_set_i64 1)) ∧
    (u.toInt = -1 → v ≤ DIGITS_MAX →
      ∃ w, zz_pow u v = .ok w ∧ w.toInt = (-1 : Int) ^ v) ∧
    (u.toInt = -1 → DIGITS_MAX < v → zz_pow u v = .error .BUF) := by
  have heta : u = ⟨u.negative, u.digits⟩ := rfl
  have hshape1 : u.toInt = 1 → u = ⟨false, [1]⟩ := by
    intro h1
    have hneg : u.negative = false := by
      cases hb : u.negative with
      | false => rfl
      | true =>
        rw [canon_toInt_eq u hu, hb, if_pos rfl] at h1
        omega
    have hN : u.toNat = 1 := by
      rw [canon_toInt_eq u hu, hneg, if_neg (by simp)] at h1
      exact_mod_cast h1
    have hd : u.digits = [1] := by
      rw [canon_digits_eq u hu, hN]
      exact natToDigits_small 1 one_ne_zero (by norm_num [DBASE])
    rw [heta, hneg, hd]
  have hshape2 : u.toInt = -1 → u = ⟨true, [1]⟩ := by
    intro h1
    have hneg : u.negative = true := by
      cases hb : u.negative with
      | true => rfl
      | false =>
        rw [canon_toInt_eq u hu, hb, if_neg (by simp)] at h1
        omega
    have hN : u.toNat = 1 := by
      rw [canon_toInt_eq u hu, hneg, if_pos rfl] at h1
      omega
    have hd : u.digits = [1] := by
      rw [canon_digits_eq u hu, hN]
      exact natToDigits_small 1 one_ne_zero (by norm_num [DBASE])
    rw [heta, hneg, hd]
  refine ⟨?_, ?_, ?_⟩
  · intro h1
    rw [hshape1 h1]
    unfold zz_pow
    by_cases hv0 : v = 0
    · rw [if_pos hv0]
    · rw [if_neg hv0, if_neg (by simp), if_pos (by decide)]
  · intro h1 hv
    rw [hshape2 h1]
    unfold zz_pow
    by_cases hv0 : v = 0
    · rw [if_pos hv0]
      refine ⟨zz_set_i64 1, rfl, ?_⟩
      rw [hv0, zz_set_i64_toInt]
      norm_num
    · have hcond : ¬ (DIGITS_MAX / (ZZ.mk true [1]).digits.length < v) := by
        show ¬ (DIGITS_MAX / 1 < v)
        rw [Nat.div_one]
        omega
      rw [if_neg hv0, if_neg (by simp), if_neg (by decide), if_neg hcond]
      refine ⟨_, rfl, ?_⟩
      have hval : digitsVal (ZZ.mk true [1]).digits ^ v = 1 := by
        show digitsVal [1] ^ v = 1
        simp
      rw [hval, ZZ_toInt_mk_natToDigits]
      rcases Nat.even_or_odd v with he | ho
      · have hpar : v % 2 = 0 := Nat.even_iff.mp he
        rw [show ((ZZ.mk true [1]).negative && decide (v % 2 = 1)) = false by
          rw [hpar]; rfl]
        rw [if_neg (by simp), he.neg_pow 1, one_pow]
        norm_num
      · have hpar : v % 2 = 1 := Nat.odd_iff.mp ho
        rw [show ((ZZ.mk true [1]).negative && decide (v % 2 = 1)) = true by
          rw [hpar]; rfl]
        rw [if_pos rfl, ho.neg_pow 1, one_pow]
        norm_num
  · intro h1 hv
    rw [hshape2 h1]
    unfold zz_pow
    have hcond : DIGITS_MAX / (ZZ.mk true [1]).digits.length < v := by
      show DIGITS_MAX / 1 < v
      rw [Nat.div_one]
      exact hv
    rw [if_neg (by omega : ¬ v = 0), if_neg (by simp), if_neg (by decide),
      if_pos hcond]

theorem C2_pow_unit_witness :
    ((⟨true, [1]⟩ : ZZ).toInt = 1 → zz_pow ⟨true, [1]⟩ 3 = .ok (zz_set_i64 1)) ∧
    ((⟨true, [1]⟩ : ZZ).toInt = -1 → 3 ≤ DIGITS_MAX →
      ∃ w, zz_pow ⟨true, [1]⟩ 3 = .ok w ∧ w.toInt = (-1 : Int) ^ 3) ∧
    ((⟨true, [1]⟩ : ZZ).toInt = -1 → DIGITS_MAX < 3 →
      zz_pow ⟨true, [1]⟩ 3 = .error .BUF) :=
  C2_pow_unit ⟨true, [1]⟩ (by decide) 3

/-- C2 counterexample: raising `-1` to the exponent `ZZ_DIGITS_MAX + 1`
fails with `ZZ_BUF` although the base has magnitude 1, so `zz_pow` does
NOT succeed for every exponent when `u == -1`. -/
theorem C2_counterexample :
    zz_pow ⟨true, [1]⟩ (DIGITS_MAX + 1) = .error .BUF ∧
    (⟨true, [1]⟩ : ZZ).toInt = -1 := by
  constructor
  · unfold zz_pow
    have hcond : DIGITS_MAX / (ZZ.mk true [1]).digits.length < DIGITS_MAX + 1 := by
      show DIGITS_MAX / 1 < DIGITS_MAX + 1
      rw [Nat.div_one]
      omega
    rw [if_neg (by norm_num [DIGITS_MAX]), if_neg (by simp), if_neg (by decide),
      if_pos hcond]
  · decide

/-! ## Claim C3 -/

/-- C3 (corrected): underscore separators that are trailing, doubled, or
leading (at the start of the digit part) are rejected with `ZZ_VAL` in
every base, and an underscore immediately after an explicitly requested
0b/0o/0x prefix is rejected too ("0x_10" in base 16 fails); a single
underscore between digits is accepted ("-0x1_0" in base 0 parses to
-16).  Under base auto-detection, however, one underscore directly after
the detected prefix is skipped, not rejected (see the counterexample). -/
theorem C3_separators :
    (∀ (neg : Bool) (b : Nat) (a : List Nat),
      setStrLoop neg b (a ++ [95]) = .error .VAL) ∧
    (∀ (neg : Bool) (b : Nat) (a c : List Nat),
      setStrLoop neg b (a ++ 95 :: 95 :: c) = .error .VAL) ∧
    (∀ (neg : Bool) (b : Nat) (p : List Nat), p.headI = 95 →
      setStrLoop neg b p = .error .VAL) ∧
    (∀ (b c : Nat), ((b = 2 ∧ c = 98) ∨ (b = 8 ∧ c = 111) ∨ (b = 16 ∧ c = 120)) →
      ∀ rest : List Nat,
        zz_set_str (48 :: c :: 95 :: rest) ((b : Nat) : Int) = .error .VAL) ∧
    zz_set_str [48, 120, 95, 49, 48] 16 = .error .VAL ∧
    zz_set_str [45, 48, 120, 49, 95, 48] 0 = .ok ⟨true, [16]⟩ := by
  refine ⟨?_, ?_, ?_, ?_, ?_, ?_⟩
  · intro neg b a
    unfold setStrLoop
    by_cases h0 : ((a ++ [95]).isEmpty || (a ++ [95]).headI == 95) = true
    · rw [if_pos h0]
    · rw [if_neg h0, scanDigits_trailing b a.length a le_rfl]
  · intro neg b a c
    unfold setStrLoop
    by_cases h0 : ((a ++ 95 :: 95 :: c).isEmpty ||
        (a ++ 95 :: 95 :: c).headI == 95) = true
    · rw [if_pos h0]
    · rw [if_neg h0, scanDigits_doubled b a.length a c le_rfl]
  · intro neg b p h
    unfold setStrLoop
    rw [if_pos (by simp [h])]
  · intro b c hb rest
    have hloop : ∀ (neg : Bool) (base : Nat) (p : List Nat), p.headI = 95 →
        setStrLoop neg base p = .error .VAL := by
      intro neg base p h
      unfold setStrLoop
      rw [if_pos (by simp [h])]
    rcases hb with ⟨rfl, rfl⟩ | ⟨rfl, rfl⟩ | ⟨rfl, rfl⟩ <;>
    · unfold zz_set_str
      rw [if_neg (by norm_num)]
      simp only [List.dropWhile_cons, show isSpaceB 48 = false from rfl,
        Bool.false_eq_true, if_false, List.isEmpty_cons, List.headI_cons,
        show ((48:Nat) == 45) = false from rfl,
        show ((48:Nat) == 43) = false from rfl,
        show ((48:Nat) == 95) = false from rfl, Bool.not_false, Bool.true_and,
        Bool.or_false]
      rw [if_neg (by norm_num)]
      rw [Int.toNat_natCast]
      unfold setStrPrefixed
      rw [if_pos (by
        refine ⟨rfl, by simp, ?_⟩
        simp [toLowerB])]
      exact hloop _ _ _ (by simp)
  · simp [zz_set_str, setStrPrefixed, setStrLoop, scanDigits, isSpaceB, toLowerB,
      digitValue, msbVal, zz_normalize, normDigits, natToDigits, DBASE,
      DIGITS_MAX, zz_set_i64]
  · simp [zz_set_str, setStrPrefixed, setStrLoop, scanDigits, isSpaceB, toLowerB,
      digitValue, msbVal, zz_normalize, normDigits, natToDigits, DBASE,
      DIGITS_MAX, zz_set_i64]

theorem C3_separators_witness :
    setStrLoop false 10 ([49] ++ [95]) = .error .VAL ∧
    setStrLoop false 10 [95, 49] = .error .VAL ∧
    zz_set_str (48 :: 98 :: 95 :: [49]) ((2 : Nat) : Int) = .error .VAL :=
  ⟨C3_separators.1 false 10 [49],
   C3_separators.2.2.1 false 10 [95, 49] rfl,
   C3_separators.2.2.2.1 2 98 (Or.inl ⟨rfl, rfl⟩) [49]⟩

/-- C3 counterexample: under base auto-detection (base 0) the string
"0x_10" IS accepted — `zz_set_str` skips exactly one underscore placed
immediately after the detected 0x prefix and parses 16 — contradicting
the claim that a prefix-adjacent underscore is rejected for every
requested base including 0. -/
theorem C3_counterexample :
    zz_set_str [48, 120, 95, 49, 48] 0 = .ok ⟨false, [16]⟩ := by
  simp [zz_set_str, setStrPrefixed, setStrLoop, scanDigits, isSpaceB, toLowerB,
    digitValue, msbVal, zz_normalize, normDigits, natToDigits, DBASE, DIGITS_MAX,
    zz_set_i64]

/-! ## Claim C4 -/

/-- Overflowing the parser's digit-count bound on the round trip:
`u = 2^(64k)` (k zero limbs and a top 1) prints in base 2 as a 1 followed
by `64k` zeros, and `zz_set_str` rejects that text with `ZZ_BUF` when
`1 + len/2` exceeds `ZZ_DIGITS_MAX`. -/
theorem c4_buf_aux (k : Nat) (hk : k + 1 ≤ DIGITS_MAX)
    (hbuf : DIGITS_MAX < 1 + (64 * k + 1) / 2) :
    (⟨false, List.replicate k 0 ++ [1]⟩ : ZZ).Canon ∧
    ∃ text, zz_get_str ⟨false, List.replicate k 0 ++ [1]⟩ ((2 : Nat) : Int) =
        .ok text ∧
      zz_set_str text ((2 : Nat) : Int) = .error .BUF := by
  have hcanon : (⟨false, List.replicate k 0 ++ [1]⟩ : ZZ).Canon :=
    canon_snoc false (List.replicate k 0) 1
      (fun x hx => by rw [List.eq_of_mem_replicate hx]; norm_num [DBASE])
      (by norm_num [DBASE]) one_ne_zero
      (by rw [List.length_replicate]; omega)
  refine ⟨hcanon, ?_⟩
  have hval : (⟨false, List.replicate k 0 ++ [1]⟩ : ZZ).toNat = 2 ^ (64 * k) := by
    show digitsVal (List.replicate k 0 ++ [1]) = 2 ^ (64 * k)
    rw [digitsVal_append, digitsVal_replicate_zero, List.length_replicate,
      show digitsVal [1] = 1 from by simp, mul_one, zero_add,
      show DBASE = 2 ^ 64 from rfl, ← pow_mul]
  refine ⟨_, zz_get_str_eq _ 2 (by norm_num) (by norm_num), ?_⟩
  rw [hval, toDigitsBE_two_pow]
  have hdigits : ∀ d ∈ (1 :: List.replicate (64 * k) 0), d < 2 := by
    intro d hd
    rcases List.mem_cons.mp hd with rfl | hd
    · norm_num
    · rw [List.eq_of_mem_replicate hd]
      norm_num
  have hfront := zz_set_str_front 2 (by norm_num) (by norm_num) false
    (1 :: List.replicate (64 * k) 0) (by simp) hdigits
  simp only [Bool.false_eq_true, if_false, List.nil_append] at hfront
  simp only [show (⟨false, List.replicate k 0 ++ [1]⟩ : ZZ).negative = false
      from rfl,
    Bool.false_eq_true, if_false, List.nil_append]
  rw [hfront]
  apply setStrPrefixed_buf 2 (by norm_num) (by norm_num) false _ (by simp) hdigits
  rw [List.length_map, List.length_cons, List.length_replicate]
  exact hbuf

/-- C4 (corrected): for canonical `u` and any base 2..36, the
get-then-set round trip reproduces `u` exactly (sign included) provided
the printed digit count `len` satisfies the parser's buffer bound
`1 + len/2 <= ZZ_DIGITS_MAX`; without that bound the round trip can fail
(see the counterexample). -/
theorem C4_roundtrip (u : ZZ) (hu : u.Canon) (b : Nat) (hb2 : 2 ≤ b)
    (hb36 : b ≤ 36)
    (hsz : ¬ (DIGITS_MAX < 1 + (toDigitsBE b u.toNat).length / 2)) :
    ∃ text, zz_get_str u ((b : Nat) : Int) = .ok text ∧
      zz_set_str text ((b : Nat) : Int) = .ok u :=
  zz_roundtrip u hu b hb2 hb36 hsz

theorem C4_roundtrip_witness :
    ∃ text, zz_get_str ⟨true, [5]⟩ ((10 : Nat) : Int) = .ok text ∧
      zz_set_str text ((10 : Nat) : Int) = .ok ⟨true, [5]⟩ :=
  C4_roundtrip ⟨true, [5]⟩ (by decide) 10 (by norm_num) (by norm_num)
    (by
      have h5 : (⟨true, [5]⟩ : ZZ).toNat = 5 := by simp [ZZ.toNat]
      have hd : toDigitsBE 10 5 = [5] := by
        rw [toDigitsBE.eq_def]
        norm_num
      rw [h5, hd]
      norm_num [DIGITS_MAX])

/-- C4 counterexample: the representable value `2^(2^60)` (2^54 zero
limbs and a top 1, well within `ZZ_DIGITS_MAX`) converts to text in base
2, but `zz_set_str` fails on that text with `ZZ_BUF`: the round trip does
not hold for every integer and base as claimed. -/
theorem C4_counterexample :
    (⟨false, List.replicate (2 ^ 54) 0 ++ [1]⟩ : ZZ).Canon ∧
    ∃ text, zz_get_str ⟨false, List.replicate (2 ^ 54) 0 ++ [1]⟩
        ((2 : Nat) : Int) = .ok text ∧
      zz_set_str text ((2 : Nat) : Int) = .error .BUF :=
  c4_buf_aux (2 ^ 54) (by norm_num [DIGITS_MAX]) (by norm_num [DIGITS_MAX])

/-! ## Claim C5 -/

/-- Digit-bound overflow in the cofactor path of `zz_gcdext`: with
`u = 3 * DBASE^K` at the full digit cap (`K + 1 = ZZ_DIGITS_MAX`) and
`v = 3`, the guard `max(u_size + s_size, g_size) < ZZ_DIGITS_MAX` fails,
the fallback extended-Euclid path divides `u` by `g = 3` into a
`ZZ_DIGITS_MAX`-limb quotient, the loop's first `zz_mul` reports
`ZZ_BUF`, and the cleanup paths of `zz_inverse_euclidext` and
`zz_gcdext` surface it as `ZZ_MEM`. -/
theorem c5_buf_aux (K : Nat) (hK : K + 1 = DIGITS_MAX) :
    zz_gcdext ⟨false, List.replicate K 0 ++ [3]⟩ ⟨false, [3]⟩ = .error .MEM := by
  have hU : digitsVal (ZZ.mk false (List.replicate K 0 ++ [3])).digits =
      DBASE ^ K * 3 := by
    show digitsVal (List.replicate K 0 ++ [3]) = DBASE ^ K * 3
    rw [digitsVal_append, digitsVal_replicate_zero, List.length_replicate,
      show digitsVal [3] = 3 from by simp, zero_add]
  have hV : digitsVal (ZZ.mk false [3]).digits = 3 := by
    show digitsVal [3] = 3
    simp
  have hgcd : Nat.gcd (DBASE ^ K * 3) 3 = 3 := Nat.gcd_eq_right ⟨DBASE ^ K, by ring⟩
  have hg : gcdext_g ⟨false, List.replicate K 0 ++ [3]⟩ ⟨false, [3]⟩ =
      ⟨false, [3]⟩ := by
    unfold gcdext_g
    rw [hU, hV, mpnGcdext_fst, hgcd,
      natToDigits_small 3 (by norm_num) (by norm_num [DBASE])]
  have hsnd : (mpnGcdext (DBASE ^ K * 3) 3).2 = 0 := by
    rw [mpnGcdext_snd_eq, hgcd, Nat.div_self (by norm_num : 0 < 3)]
    norm_num [Int.emod_one]
  have hs : gcdext_s ⟨false, List.replicate K 0 ++ [3]⟩ ⟨false, [3]⟩ =
      ⟨false, []⟩ := by
    unfold gcdext_s
    rw [hU, hV, hsnd]
    norm_num [natToDigits_zero]
  have hq1 : dropTopZero (padLE (DBASE ^ K) (K + 1)) = List.replicate K 0 ++ [1] := by
    rw [dropTopZero_padLE (DBASE ^ K) K (Nat.pos_pow_of_pos _ DBASE_pos)
      (Nat.pow_lt_pow_succ one_lt_DBASE)
      (by
        rw [pow_succ]
        exact Nat.le_mul_of_pos_right _ DBASE_pos)]
    exact natToDigits_DBASE_pow K
  have hdiv1 : zz_div ⟨false, List.replicate K 0 ++ [3]⟩ ⟨false, [3]⟩ =
      .ok (⟨false, List.replicate K 0 ++ [1]⟩, ⟨false, []⟩) := by
    unfold zz_div
    rw [if_neg (by simp), if_neg (by simp), if_neg (by simp)]
    rw [if_neg (by simp)]
    rw [hU, hV, Nat.mul_div_cancel _ (by norm_num : 0 < 3), Nat.mul_mod_left]
    rw [show (ZZ.mk false (List.replicate K 0 ++ [3])).digits.length -
        (ZZ.mk false [3]).digits.length + 1 = K + 1 from by simp]
    rw [hq1]
    dsimp only
    rw [show ([3] : List Nat).length = 1 from rfl,
      zz_normalize_padLE false 0 1 (by norm_num [DBASE])]
    simp [natToDigits_zero]
  have hdivq1 : zz_div_q ⟨false, List.replicate K 0 ++ [3]⟩ ⟨false, [3]⟩ =
      .ok ⟨false, List.replicate K 0 ++ [1]⟩ := by
    unfold zz_div_q
    rw [hdiv1]
  have hdivq2 : zz_div_q ⟨false, [3]⟩ ⟨false, [3]⟩ = .ok ⟨false, [1]⟩ := rfl
  have hU1 : digitsVal (ZZ.mk false (List.replicate K 0 ++ [1])).digits =
      DBASE ^ K := by
    show digitsVal (List.replicate K 0 ++ [1]) = DBASE ^ K
    rw [digitsVal_append, digitsVal_replicate_zero, List.length_replicate,
      show digitsVal [1] = 1 from by simp, zero_add, mul_one]
  have hdiv3 : zz_div ⟨false, List.replicate K 0 ++ [1]⟩ ⟨false, [1]⟩ =
      .ok (⟨false, List.replicate K 0 ++ [1]⟩, ⟨false, []⟩) := by
    unfold zz_div
    rw [if_neg (by simp), if_neg (by simp), if_neg (by simp)]
    rw [if_neg (by simp)]
    rw [hU1, show digitsVal (ZZ.mk false [1]).digits = 1 from by simp,
      Nat.div_one, Nat.mod_one]
    rw [show (ZZ.mk false (List.replicate K 0 ++ [1])).digits.length -
        (ZZ.mk false [1]).digits.length + 1 = K + 1 from by simp]
    rw [hq1]
    dsimp only
    rw [show ([1] : List Nat).length = 1 from rfl,
      zz_normalize_padLE false 0 1 (by norm_num [DBASE])]
    simp [natToDigits_zero]
  have hdivq3 : zz_div_q ⟨false, List.replicate K 0 ++ [1]⟩ ⟨false, [1]⟩ =
      .ok ⟨false, List.replicate K 0 ++ [1]⟩ := by
    unfold zz_div_q
    rw [hdiv3]
  have hmul : zz_mul ⟨false, List.replicate K 0 ++ [1]⟩ ⟨false, [1]⟩ =
      .error .BUF := by
    unfold zz_mul
    rw [if_neg (by simp)]
    unfold zz_mulCore
    rw [if_pos (by simp)]
    have hu64 : zz_mul_u64 ⟨false, List.replicate K 0 ++ [1]⟩
        ((ZZ.mk false [1]).digits.headI) = .error .BUF := by
      unfold zz_mul_u64
      rw [if_neg (by simp)]
      rw [if_pos (by simp [beq_iff_eq]; omega)]
    rw [hu64]
  have ho1canon : (⟨false, List.replicate K 0 ++ [1]⟩ : ZZ).Canon :=
    canon_snoc false (List.replicate K 0) 1
      (fun x hx => by rw [List.eq_of_mem_replicate hx]; norm_num [DBASE])
      (by norm_num [DBASE]) one_ne_zero
      (by rw [List.length_replicate]; omega)
  have hinv : zz_inverse_euclidext ⟨false, [1]⟩
      ⟨false, List.replicate K 0 ++ [1]⟩ = .error .MEM := by
    unfold zz_inverse_euclidext
    dsimp only
    rw [show digitsVal [1] + 1 = 1 + 1 from by simp]
    rw [zz_pos_eq _ ho1canon,
      show zz_pos ⟨false, [1]⟩ = ⟨false, [1]⟩ from rfl,
      show zz_set_i64 1 = ⟨false, [1]⟩ from rfl,
      show zz_set_i64 0 = ⟨false, []⟩ from rfl]
    rw [euclidLoop]
    rw [if_neg (by decide)]
    rw [hdivq3]
    dsimp only
    rw [hmul]
  unfold zz_gcdext
  rw [if_neg (by simp)]
  unfold zz_gcdextCore
  rw [if_neg (by simp)]
  rw [hg, hs]
  rw [if_neg (by simp; omega)]
  rw [hdivq1]
  dsimp only
  rw [hdivq2]
  dsimp only
  rw [hinv]

/-- C5 (corrected): for canonical `u`, `v` whose digit counts sum to less
than `ZZ_DIGITS_MAX`, `zz_gcdext` succeeds with `g = gcd(u,v) >= 0` and
the Bezout identity `u*s + v*t = g`; the degenerate `v = 0` case returns
`g = |u|`, `s = sign(u)` (zero digits when `u = 0`) and `t = 0`.  Without
the size bound the call can fail with `ZZ_BUF` (see the counterexample),
so Ok is not guaranteed for every pair. -/
theorem C5_gcdext (u v : ZZ) (hu : u.Canon) (hv : v.Canon)
    (hsum : u.digits.length + v.digits.length < DIGITS_MAX) :
    (∃ g s t, zz_gcdext u v = .ok (g, s, t) ∧ g.Canon ∧ s.Canon ∧ t.Canon ∧
      g.toInt = ((Int.gcd u.toInt v.toInt : Nat) : Int) ∧ 0 ≤ g.toInt ∧
      u.toInt * s.toInt + v.toInt * t.toInt = g.toInt) ∧
    (v.digits = [] → zz_gcdext u v = .ok (zz_abs u,
      ⟨u.negative, if u.digits.length > 0 then [1] else []⟩, ⟨false, []⟩)) := by
  constructor
  · obtain ⟨g, s, t, h1, h2, h3, h4, h5, h6⟩ := zz_gcdext_spec u v hu hv hsum
    exact ⟨g, s, t, h1, h2, h3, h4, h5, by rw [h5]; exact Int.natCast_nonneg _, h6⟩
  · intro hnil
    unfold zz_gcdext
    rw [if_neg (by simp [hnil])]
    unfold zz_gcdextCore
    rw [if_pos (by rw [hnil]; rfl)]

theorem C5_gcdext_witness :
    (∃ g s t, zz_gcdext ⟨false, [6]⟩ ⟨false, [4]⟩ = .ok (g, s, t) ∧
      g.Canon ∧ s.Canon ∧ t.Canon ∧
      g.toInt = ((Int.gcd (⟨false, [6]⟩ : ZZ).toInt
        (⟨false, [4]⟩ : ZZ).toInt : Nat) : Int) ∧
      0 ≤ g.toInt ∧
      (⟨false, [6]⟩ : ZZ).toInt * s.toInt +
        (⟨false, [4]⟩ : ZZ).toInt * t.toInt = g.toInt) ∧
    ((⟨false, [4]⟩ : ZZ).digits = [] → zz_gcdext ⟨false, [6]⟩ ⟨false, [4]⟩ =
      .ok (zz_abs ⟨false, [6]⟩,
        ⟨(⟨false, [6]⟩ : ZZ).negative,
          if (⟨false, [6]⟩ : ZZ).digits.length > 0 then [1] else []⟩,
        ⟨false, []⟩)) :=
  C5_gcdext ⟨false, [6]⟩ ⟨false, [4]⟩ (by decide) (by decide) (by decide)

/-- C5 counterexample: for the canonical pair
`u = 3 * DBASE^(ZZ_DIGITS_MAX - 1)` (a full-cap value), `v = 3`,
`zz_gcdext` does NOT return Ok: the cofactor computation overflows the
digit bound and the call fails with `ZZ_MEM`, so the claimed
unconditional success for every pair of integers is false. -/
theorem C5_counterexample :
    (⟨false, List.replicate (DIGITS_MAX - 1) 0 ++ [3]⟩ : ZZ).Canon ∧
    (⟨false, [3]⟩ : ZZ).Canon ∧
    zz_gcdext ⟨false, List.replicate (DIGITS_MAX - 1) 0 ++ [3]⟩ ⟨false, [3]⟩ =
      .error .MEM := by
  refine ⟨?_, by decide,
    c5_buf_aux (DIGITS_MAX - 1) (by have := DIGITS_MAX_pos; omega)⟩
  exact canon_snoc false (List.replicate (DIGITS_MAX - 1) 0) 3
    (fun x hx => by rw [List.eq_of_mem_replicate hx]; norm_num [DBASE])
    (by norm_num [DBASE]) (by norm_num)
    (by rw [List.length_replicate]; have := DIGITS_MAX_pos; omega)

end ZZSpec